import Mathlib

/-!
Verification of core mmLib (pymmlib) behaviors against a shallow Lean
embedding of the Python sources:

* `mmLib/GeometryDict.py` — the spatial hash (`XYZDict`).
* `mmLib/mmCIF.py`        — the mmCIF tokenizer, parser and writer.
* `mmLib/Structure.py`    — the structure hierarchy (models, fragments,
  alt-loc groups, fragment-id ordering).

Python-specific primitives (truncating `int()` conversion, `string.whitespace`,
`string.uppercase`, Python-2 tuple comparison with `None`) are embedded
explicitly.  Machine floats from the source are modelled as exact rationals;
the comparison `sqrt(d2) <= radius` is modelled as `d2 <= radius^2`, which is
equivalent for nonnegative radius.
-/

namespace MmLib

/-! ## Python primitives -/

/-- Python `int(q)` on a rational: truncation toward zero
(`int(-0.5) == 0`, `int(0.5) == 0`). -/
def pyInt (q : ℚ) : ℤ :=
  if 0 ≤ q then ⌊q⌋ else ⌈q⌉

/-- The characters of Python's `string.whitespace`. -/
def pyWhitespaceChars : List Char := [' ', '\t', '\n', '\r', '\x0b', '\x0c']

/-- Membership in Python's `string.whitespace`. -/
def pyIsWhitespace (c : Char) : Bool := pyWhitespaceChars.contains c

/-- The characters of Python's `string.uppercase` (ASCII upper-case letters,
in order), used by `Altloc.calc_next_alt_loc_id`. -/
def pyUppercase : List Char :=
  ['A','B','C','D','E','F','G','H','I','J','K','L','M',
   'N','O','P','Q','R','S','T','U','V','W','X','Y','Z']

/-- Python `str.rstrip()`: drop trailing `string.whitespace` characters. -/
def pyRstrip (s : String) : String :=
  ⟨(s.data.reverse.dropWhile pyIsWhitespace).reverse⟩

/-- Python slicing `s[:n]` (character-list based, so that proofs can
evaluate it). -/
def pyTake (s : String) (n : ℕ) : String := ⟨s.data.take n⟩

/-- Python slicing `s[n:]`. -/
def pyDrop (s : String) (n : ℕ) : String := ⟨s.data.drop n⟩

/-- Python `s[0]` under a nonemptiness guard (the guards in the embedded
code always test for the empty string — Python's `IndexError` — before
this is consulted). -/
def pyHead (s : String) : Char := s.data.headD '\x00'

/-- Python `s.startswith(p)` / slice-prefix comparison `s[:len(p)] == p`. -/
def pyStartsWith (s p : String) : Bool := s.data.take p.data.length = p.data

/-- Split a character list at a separator; `splitOnChar '.' "a.b"` gives
`["a", "b"]`, and the empty string gives `[""]`, as Python `str.split`
with an explicit separator does. -/
def splitOnChar (sep : Char) : List Char → List (List Char)
  | [] => [[]]
  | c :: rest =>
      let r := splitOnChar sep rest
      if c = sep then [] :: r
      else
        match r with
        | h :: t => (c :: h) :: t
        | [] => [[c]]

/-- Python `s.split(".")`. -/
def pySplitDot (s : String) : List String :=
  (splitOnChar '.' s.data).map (fun cs => ⟨cs⟩)

/-- Parse an optionally signed decimal numeral, as Python `int(str)` does
(surrounding whitespace stripped; `none` models the `ValueError`). -/
def pyParseInt (s : String) : Option ℤ :=
  let t := (s.data.dropWhile pyIsWhitespace).reverse.dropWhile pyIsWhitespace |>.reverse
  let core : List Char → Option ℤ := fun ds =>
    if ds.isEmpty ∨ ¬ ds.all Char.isDigit then none
    else some (ds.foldl (fun n c => 10 * n + (c.toNat - '0'.toNat : ℤ)) 0)
  match t with
  | '-' :: ds => (core ds).map Neg.neg
  | '+' :: ds => core ds
  | ds => core ds

/-! ## GeometryDict.py — `XYZDict`, the spatial hash -/

/-- A 3-D position with exact rational coordinates. -/
abbrev Pos3 : Type := ℚ × ℚ × ℚ

/-- Squared Euclidean distance between two positions (the source compares
`math.sqrt(dx*dx+dy*dy+dz*dz)` against a radius; we compare the square
against the squared radius, which is equivalent for nonnegative radii). -/
def dist2 (p q : Pos3) : ℚ :=
  (p.1 - q.1)^2 + (p.2.1 - q.2.1)^2 + (p.2.2 - q.2.2)^2

/-- `XYZDict` from `GeometryDict.py`: `geom_dict` maps integer cube keys to
the list of `(position, item)` tuples hashed to that cube.  The Python
`dict` is embedded as an association list in insertion order. -/
structure XYZDict (α : Type) where
  resolution : ℚ
  geom_dict : List ((ℤ × ℤ × ℤ) × List (Pos3 × α))

/-- `XYZDict.calc_geom_key`: the cube key of a position,
`(int(x/resolution), int(y/resolution), int(z/resolution))` — Python `int()`
truncates toward zero. -/
def calc_geom_key (resolution : ℚ) (position : Pos3) : ℤ × ℤ × ℤ :=
  ( pyInt (position.1 / resolution),
    pyInt (position.2.1 / resolution),
    pyInt (position.2.2 / resolution) )

/-- An empty `XYZDict` with the given resolution. -/
def XYZDict.empty (α : Type) (resolution : ℚ) : XYZDict α :=
  ⟨resolution, []⟩

/-- The bucket update of `XYZDict.add`: append the tuple to the bucket
stored under `geom_key`, creating the bucket when absent. -/
def bucketInsert {α : Type} (geom_key : ℤ × ℤ × ℤ) (gt : Pos3 × α) :
    List ((ℤ × ℤ × ℤ) × List (Pos3 × α)) →
    List ((ℤ × ℤ × ℤ) × List (Pos3 × α))
  | [] => [(geom_key, [gt])]
  | (k, l) :: rest =>
      if k = geom_key then (k, l ++ [gt]) :: rest
      else (k, l) :: bucketInsert geom_key gt rest

/-- `XYZDict.add`: append the `(position, item)` tuple to the bucket of its
cube key, creating the bucket if absent. -/
def XYZDict.add {α : Type} (d : XYZDict α) (position : Pos3) (item : α) :
    XYZDict α :=
  ⟨d.resolution,
    bucketInsert (calc_geom_key d.resolution position) (position, item)
      d.geom_dict⟩

/-- Build an `XYZDict` by adding a list of `(position, item)` entries in
order. -/
def XYZDict.ofEntries {α : Type} (resolution : ℚ)
    (entries : List (Pos3 × α)) : XYZDict α :=
  entries.foldl (fun d e => d.add e.1 e.2) (XYZDict.empty α resolution)

/-- Well-formedness of the hash: bucket keys are distinct, and every tuple
sits in the bucket of its own cube key. -/
def XYZDict.WF {α : Type} (d : XYZDict α) : Prop :=
  (d.geom_dict.map Prod.fst).Nodup ∧
  ∀ kc ∈ d.geom_dict, ∀ e ∈ kc.2, calc_geom_key d.resolution e.1 = kc.1

/-- `XYZDict.iter_all`: all stored `(position, item)` tuples, bucket by
bucket. -/
def XYZDict.iter_all {α : Type} (d : XYZDict α) : List (Pos3 × α) :=
  d.geom_dict.flatMap Prod.snd

/-- The bucket stored under a cube key (`geom_dict[geom_key]`, with a missing
key behaving as an empty bucket, matching the `except KeyError: continue`). -/
def XYZDict.cell {α : Type} (d : XYZDict α) (k : ℤ × ℤ × ℤ) :
    List (Pos3 × α) :=
  match d.geom_dict.find? (fun kl => kl.1 = k) with
  | some kl => kl.2
  | none => []

/-- The offsets `-n, …, n` enumerated by `range(-n, n+1)`. -/
def offsetRange (n : ℤ) : List ℤ :=
  (List.range (2 * n + 1).toNat).map (fun i : ℕ => -n + (i : ℤ))

/-- `XYZDict.iter_cube_intersection`: visit every bucket within
`int(radius/resolution) + 1` cube keys of the center key on each axis, in
`(i, j, k)` order, and yield its tuples. -/
def XYZDict.iter_cube_intersection {α : Type} (d : XYZDict α)
    (position : Pos3) (radius : ℚ) : List (Pos3 × α) :=
  let center := calc_geom_key d.resolution position
  let n := pyInt (radius / d.resolution) + 1
  (offsetRange n).flatMap fun i =>
    (offsetRange n).flatMap fun j =>
      (offsetRange n).flatMap fun k =>
        d.cell (center.1 + i, center.2.1 + j, center.2.2 + k)

/-- `XYZDict.iter_contact_distance`: enumerate contact pairs by marking each
tuple's item visited and pairing it with not-yet-visited tuples of its cube
neighborhood that lie within `distance` (the source computes
`d = sqrt(...)` and skips the pair when `d > distance`; we compare squared
values). -/
def contactGo {α : Type} [DecidableEq α] (d : XYZDict α) (distance : ℚ) :
    List α → List (Pos3 × α) → List ((Pos3 × α) × (Pos3 × α))
  | _, [] => []
  | visited, gt1 :: rest =>
      let visited' := gt1.2 :: visited
      ((d.iter_cube_intersection gt1.1 distance).filter
          (fun gt2 => ¬ visited'.contains gt2.2 ∧
            dist2 gt1.1 gt2.1 ≤ distance^2)).map (fun gt2 => (gt1, gt2))
        ++ contactGo d distance visited' rest

def XYZDict.iter_contact_distance {α : Type} [DecidableEq α]
    (d : XYZDict α) (distance : ℚ) : List ((Pos3 × α) × (Pos3 × α)) :=
  contactGo d distance [] d.iter_all

/-- Brute-force all-pairs contact enumeration over a list of
`(position, item)` tuples: every pair of positions `i < j` whose squared
separation is at most `distance^2`. -/
def bruteForcePairs {α : Type} (entries : List (Pos3 × α)) (distance : ℚ) :
    List ((Pos3 × α) × (Pos3 × α)) :=
  match entries with
  | [] => []
  | e :: rest =>
      (rest.filter (fun e2 => dist2 e.1 e2.1 ≤ distance^2)).map (fun e2 => (e, e2))
        ++ bruteForcePairs rest distance

/-! ## Structure.py — models, default model bookkeeping -/

/-- A `Model`: its integer `model_id` and whether its `structure` back
reference is set (`True` = points at the owning `Structure`,
`False` = `None`). -/
structure SModel where
  model_id : ℤ
  structure_ref : Bool
deriving DecidableEq, Repr

/-- The model-level state of a `Structure`: `model_list` (insertion order,
unless sorted), `model_dict` keyed by `model_id`, and the `default_model`
(identified by its `model_id`; `model_id`s are unique by the
`ModelOverwrite` guard, so this faithfully stands for the Python object
reference). -/
structure SStructure where
  model_list : List SModel
  model_dict : List (ℤ × SModel)
  default_model : Option ℤ
deriving DecidableEq, Repr

/-- A fresh `Structure()` (no models, no default). -/
def SStructure.empty : SStructure := ⟨[], [], none⟩

/-- `Structure.add_model`: raise `ModelOverwrite` on a duplicate
`model_id`; otherwise install the model as default when there is none,
append it to `model_list` (sorting by `model_id` unless `delay_sort`),
record it in `model_dict` and set its `structure` back reference. -/
def SStructure.add_model (st : SStructure) (model_id : ℤ)
    (delay_sort : Bool) : Except String SStructure :=
  if (st.model_dict.map Prod.fst).contains model_id then
    .error "ModelOverwrite"
  else
    let model : SModel := ⟨model_id, true⟩
    let default_model :=
      match st.default_model with
      | none => some model_id
      | some d => some d
    let model_list := st.model_list ++ [model]
    let model_list :=
      if delay_sort then model_list
      else model_list.mergeSort (fun a b => a.model_id ≤ b.model_id)
    .ok ⟨model_list, st.model_dict ++ [(model_id, model)], default_model⟩

/-- `Structure.remove_model`: remove the model from `model_list` and
`model_dict`, clear its `structure` back reference, and when the default
model was removed pick `model_list[0]` as the new default (or none when no
models remain).  Returns the updated structure together with the removed
model object.  `ValueError` models `list.remove` on an absent model. -/
def SStructure.remove_model (st : SStructure) (model_id : ℤ) :
    Except String (SStructure × SModel) :=
  match st.model_list.find? (fun m => m.model_id = model_id) with
  | none => .error "ValueError"
  | some m =>
      let model_list := st.model_list.eraseP (fun m' => m'.model_id = model_id)
      let model_dict := st.model_dict.eraseP (fun kv => kv.1 = model_id)
      let removed : SModel := ⟨m.model_id, false⟩
      let default_model :=
        if st.default_model = some model_id then
          match model_list with
          | [] => none
          | m0 :: _ => some m0.model_id
        else st.default_model
      .ok (⟨model_list, model_dict, default_model⟩, removed)

/-- `Structure.set_default_model`: look the `model_id` up in `model_dict`;
on `KeyError` return `False`, otherwise install the model as default — and
also return `False`. -/
def SStructure.set_default_model (st : SStructure) (model_id : ℤ) :
    SStructure × Bool :=
  match st.model_dict.find? (fun kv => kv.1 = model_id) with
  | none => (st, false)
  | some _ => ({ st with default_model := some model_id }, false)

/-! ## Association-list embedding of Python `dict` -/

/-- `d[k]` lookup returning `none` for `KeyError`. -/
def assocGet {β : Type} (l : List (String × β)) (k : String) : Option β :=
  (l.find? (fun kv => kv.1 = k)).map Prod.snd

/-- `d.has_key(k)`. -/
def assocHas {β : Type} (l : List (String × β)) (k : String) : Bool :=
  (l.find? (fun kv => kv.1 = k)).isSome

/-- `d[k] = v`: replace in place when the key exists, else append (Python
dicts are modelled as association lists in insertion order; key lookup does
not depend on the order, and no embedded behavior depends on the raw
iteration order of a Python dict). -/
def assocSet {β : Type} (l : List (String × β)) (k : String) (v : β) :
    List (String × β) :=
  if assocHas l k then l.map (fun kv => if kv.1 = k then (k, v) else kv)
  else l ++ [(k, v)]

/-- `del d[k]`. -/
def assocDel {β : Type} (l : List (String × β)) (k : String) :
    List (String × β) :=
  l.filter (fun kv => kv.1 ≠ k)

/-! ## Structure.py — fragment ids (`fragment_id_split`, fragment sorting) -/

/-- `fragment_id_split`: `(int(frag_id), None)`, or on `ValueError`
`(int(frag_id[:-1]), frag_id[-1:])`; a failure of the second `int()` is an
uncaught `ValueError`, modelled as `none`. -/
def fragment_id_split (frag_id : String) : Option (ℤ × Option String) :=
  match pyParseInt frag_id with
  | some n => some (n, none)
  | none =>
      match pyParseInt ⟨frag_id.data.dropLast⟩ with
      | some n => some (n, some ⟨frag_id.data.drop (frag_id.data.length - 1)⟩)
      | none => none

/-- Python-2 comparison of insertion codes: `None` sorts before every
string, strings compare lexicographically. -/
def pyOptStrLe : Option String → Option String → Prop
  | none, _ => True
  | some _, none => False
  | some a, some b => a ≤ b

instance : DecidableRel pyOptStrLe := fun a b =>
  match a, b with
  | none, none => .isTrue trivial
  | none, some _ => .isTrue trivial
  | some _, none => .isFalse id
  | some x, some y => inferInstanceAs (Decidable (x ≤ y))

/-- Python-2 `<=` on the decoded `(sequence_num, insertion_code)` tuples:
sequence number first, then insertion code. -/
def pySplitLe (x y : ℤ × Option String) : Prop :=
  x.1 < y.1 ∨ (x.1 = y.1 ∧ pyOptStrLe x.2 y.2)

instance : DecidableRel pySplitLe := fun x y =>
  inferInstanceAs (Decidable (x.1 < y.1 ∨ (x.1 = y.1 ∧ pyOptStrLe x.2 y.2)))

/-- The sort key of a fragment id: its decoded tuple.  (The `getD` default
is irrelevant: `segment_sort` errors out before comparing any fragment id
that does not decode.) -/
def fragment_id_key (frag_id : String) : ℤ × Option String :=
  (fragment_id_split frag_id).getD (0, none)

/-- A `Fragment` as far as `Segment.sort` is concerned: its
`fragment_id`. -/
structure SFragment where
  fragment_id : String
deriving DecidableEq, Repr

/-- The comparison `Segment.sort` sorts by (`Fragment.__lt__` delegates to
`fragment_id_lt`, i.e. to the decoded tuples). -/
def fragLe (a b : SFragment) : Prop :=
  pySplitLe (fragment_id_key a.fragment_id) (fragment_id_key b.fragment_id)

instance : DecidableRel fragLe := fun a b =>
  inferInstanceAs
    (Decidable (pySplitLe (fragment_id_key a.fragment_id)
      (fragment_id_key b.fragment_id)))

/-- `Segment.sort` (`self.fragment_list.sort()`): a stable sort of the
fragments by their decoded `(sequence_num, insertion_code)` tuples.  When
some fragment id does not decode, the Python comparator raises an uncaught
`ValueError`; the guard models that (conservatively: it also rejects lists
in which the undecodable id would never be compared). -/
def segment_sort (l : List SFragment) : Except String (List SFragment) :=
  if l.all (fun f => (fragment_id_split f.fragment_id).isSome) then
    .ok (l.insertionSort fragLe)
  else .error "ValueError"

/-! ## Structure.py — `Altloc` and `Fragment.add_atom` -/

/-- An `Atom`, restricted to the fields `Fragment.add_atom` consults.
`serial` stands for Python object identity (distinct objects get distinct
serials). -/
structure SAtom where
  serial : ℕ
  name : String
  alt_loc : String
  chain_id : String
  fragment_id : String
  res_name : String
deriving DecidableEq, Repr

/-- An `Altloc` container: alt-loc label → atom, in insertion order. -/
abbrev AltlocT : Type := List (String × SAtom)

/-- `Altloc.calc_next_alt_loc_id`: `"A"` for an empty container, else the
first letter of `string.uppercase` that is not yet a key; raises
`AtomOverwrite` when all 26 are taken. -/
def Altloc.calc_next_alt_loc_id (g : AltlocT) : Except String String :=
  if g.length = 0 then .ok "A"
  else
    match pyUppercase.find? (fun c => ¬ assocHas g ⟨[c]⟩) with
    | some c => .ok ⟨[c]⟩
    | none => .error "AtomOverwrite"

/-- `Altloc.add_atom`: when the atom's label is already used, or empty,
re-assign it the next vacant letter; then store the atom under its label.
Returns the container and the (possibly relabelled) atom; the
`atom.altloc = self` back reference is represented by membership. -/
def Altloc.add_atom (g : AltlocT) (atom : SAtom) :
    Except String (AltlocT × SAtom) := do
  let atom ←
    if assocHas g atom.alt_loc || atom.alt_loc == "" then do
      let l ← Altloc.calc_next_alt_loc_id g
      pure { atom with alt_loc := l }
    else pure atom
  pure (assocSet g atom.alt_loc atom, atom)

/-- An entry of `Fragment.atom_order_list`: a plain `Atom`, or an `Altloc`
group.  The Python list aliases the very `Altloc` object stored in
`alt_loc_dict`; the alias is embedded as the shared atom name, dereferenced
through `alt_loc_dict`. -/
inductive AtomOrAltloc where
  | atom (a : SAtom)
  | group (name : String)
deriving DecidableEq, Repr

/-- A `Fragment`'s atom storage: ids, the insertion-ordered backing
sequence, the alt-loc groups, and the visible projection
(`atom_list`/`atom_dict`). -/
structure FragmentS where
  chain_id : String
  fragment_id : String
  res_name : String
  default_alt_loc : String
  atom_order_list : List AtomOrAltloc
  alt_loc_dict : List (String × AltlocT)
  atom_list : List SAtom
  atom_dict : List (String × SAtom)
deriving DecidableEq, Repr

/-- A fresh `Fragment` (`default_alt_loc = "A"`, empty storage). -/
def FragmentS.mkEmpty (chain_id fragment_id res_name : String) : FragmentS :=
  ⟨chain_id, fragment_id, res_name, "A", [], [], [], []⟩

/-- `self.atom_list[i] = a` with the `except IndexError: append`
fallback. -/
def listSetOrAppend (l : List SAtom) (i : ℕ) (a : SAtom) : List SAtom :=
  if i < l.length then l.set i a else l ++ [a]

/-- `del self.atom_list[i]` with the `except IndexError: pass` fallback. -/
def listDelIfInBounds (l : List SAtom) (i : ℕ) : List SAtom :=
  if i < l.length then l.eraseIdx i else l

/-- `Fragment.set_default_alt_loc`: record the label and rebuild the
visible `atom_list`/`atom_dict` projection in place by walking
`atom_order_list` (the `i`/`ishift` index juggling of the source,
including the `IndexError` fallbacks). -/
def FragmentS.set_default_alt_loc (f : FragmentS) (alt_loc : String) :
    FragmentS :=
  let rec go (entries : List AtomOrAltloc) (i ishift : ℕ)
      (atom_list : List SAtom) (atom_dict : List (String × SAtom)) :
      List SAtom × List (String × SAtom) :=
    match entries with
    | [] => (atom_list, atom_dict)
    | .atom a :: rest =>
        go rest (i + 1) ishift (listSetOrAppend atom_list (i - ishift) a)
          (assocSet atom_dict a.name a)
    | .group name :: rest =>
        let g := (assocGet f.alt_loc_dict name).getD []
        match assocGet g alt_loc with
        | none =>
            let atom_list := listDelIfInBounds atom_list (i - ishift)
            let atom_dict :=
              match g with
              | [] => atom_dict
              | (_, a0) :: _ => assocDel atom_dict a0.name
            go rest (i + 1) (ishift + 1) atom_list atom_dict
        | some atmx =>
            go rest (i + 1) ishift (listSetOrAppend atom_list (i - ishift) atmx)
              (assocSet atom_dict atmx.name atmx)
  let (al, ad) := go f.atom_order_list 0 0 f.atom_list f.atom_dict
  { f with default_alt_loc := alt_loc, atom_list := al, atom_dict := ad }

/-- `Fragment.add_atom`, case for case: the six insertion cases of the
source (plain insert; unlabeled name-clash promotion; unlabeled atom into
an existing group; first labeled atom; labeled promotion of a plain atom;
labeled atom into an existing group).  Python `assert` failures and the
`AtomOverwrite` from label exhaustion are `Except.error`s.  The
`atom.fragment = self` back reference is represented by membership. -/
def FragmentS.add_atom (f : FragmentS) (atom : SAtom) :
    Except String FragmentS := do
  if !(atom.chain_id == f.chain_id && atom.fragment_id == f.fragment_id &&
      atom.res_name == f.res_name) then
    .error "AssertionError"
  else
    let name := atom.name
    let alt_loc := atom.alt_loc
    if alt_loc == "" then
      if !(assocHas f.alt_loc_dict name) then
        match assocGet f.atom_dict name with
        | none =>
            -- CASE: add atom without alt_loc partners to the fragment
            pure { f with
              atom_order_list := f.atom_order_list ++ [.atom atom],
              atom_list := f.atom_list ++ [atom],
              atom_dict := assocSet f.atom_dict name atom }
        | some atomA =>
            -- CASE: name clash of two unlabeled atoms (`assert atomA != atom`)
            if atomA = atom then .error "AssertionError"
            else
              match f.atom_order_list.findIdx? (fun e => e = .atom atomA) with
              | none => .error "ValueError"
              | some iA => do
                  let (g1, _) ← Altloc.add_atom [] atomA
                  let (g2, _) ← Altloc.add_atom g1 atom
                  let f := { f with
                    alt_loc_dict := assocSet f.alt_loc_dict name g2,
                    atom_order_list := f.atom_order_list.set iA (.group name) }
                  pure (f.set_default_alt_loc f.default_alt_loc)
      else do
        -- CASE: unlabeled atom, but partners already carry alt_locs
        let g := (assocGet f.alt_loc_dict name).getD []
        let (g', _) ← Altloc.add_atom g atom
        let f := { f with alt_loc_dict := assocSet f.alt_loc_dict name g' }
        pure (f.set_default_alt_loc f.default_alt_loc)
    else
      if !(assocHas f.alt_loc_dict name) then
        match assocGet f.atom_dict name with
        | none => do
            -- CASE: first labeled atom of this name
            let (g', _) ← Altloc.add_atom [] atom
            pure { f with
              alt_loc_dict := assocSet f.alt_loc_dict name g',
              atom_order_list := f.atom_order_list ++ [.group name],
              atom_list := f.atom_list ++ [atom],
              atom_dict := assocSet f.atom_dict name atom }
        | some atomA =>
            -- CASE: labeled atom, plain atom of that name must be promoted
            match f.atom_order_list.findIdx? (fun e => e = .atom atomA) with
            | none => .error "ValueError"
            | some iA => do
                let (g1, _) ← Altloc.add_atom [] atomA
                let (g2, _) ← Altloc.add_atom g1 atom
                let f := { f with
                  alt_loc_dict := assocSet f.alt_loc_dict name g2,
                  atom_order_list := f.atom_order_list.set iA (.group name) }
                pure (f.set_default_alt_loc f.default_alt_loc)
      else do
        -- CASE: labeled atom into the existing group
        let g := (assocGet f.alt_loc_dict name).getD []
        let (g', _) ← Altloc.add_atom g atom
        let f := { f with alt_loc_dict := assocSet f.alt_loc_dict name g' }
        pure (f.set_default_alt_loc f.default_alt_loc)

/-! ## mmCIF.py — tokenizer (`mmCIFElementFile`) -/

/-- The kinds of lexical elements (`"token"` / `"string"`). -/
inductive ElemKind where
  | token
  | string
deriving DecidableEq, Repr

/-- An element of the tokenizer's queue: text plus kind tag. -/
abbrev Element : Type := String × ElemKind

/-- `QUOTES`: the characters considered quotes. -/
def pyQuotes : List Char := ['\'', '"']

/-- The state of `mmCIFElementFile.split`'s character loop.  The
accumulator carries the characters of the pending slice: `line[j..i)` in
the element state, `line[j+1..i)` (opening quote excluded) in the quote
state. -/
inductive SplitState where
  | whitespace
  | element (acc : List Char)
  | quote (acc : List Char)
deriving DecidableEq, Repr

/-- The character loop of `mmCIFElementFile.split`.  A quote character in
the quote state terminates the string only when followed by whitespace
(`line[i+1] not in string.whitespace` ⇒ `continue`) or by nothing at all
(the `except IndexError` arm); at the end of the line, an open element is
flushed as `line[j:]`, an open quote as `line[j+1:-1]` (its last character
dropped). -/
def splitLoop : SplitState → List Char → List Element
  | .whitespace, [] => []
  | .whitespace, c :: cs =>
      if pyIsWhitespace c then splitLoop .whitespace cs
      else if pyQuotes.contains c then splitLoop (.quote []) cs
      else splitLoop (.element [c]) cs
  | .element acc, [] => [(⟨acc⟩, .token)]
  | .element acc, c :: cs =>
      if pyIsWhitespace c then (⟨acc⟩, .token) :: splitLoop .whitespace cs
      else splitLoop (.element (acc ++ [c])) cs
  | .quote acc, [] => [(⟨acc.dropLast⟩, .string)]
  | .quote acc, c :: cs =>
      if pyQuotes.contains c then
        match cs with
        | [] => [(⟨acc⟩, .string)]
        | c2 :: _ =>
            if pyIsWhitespace c2 then (⟨acc⟩, .string) :: splitLoop .whitespace cs
            else splitLoop (.quote (acc ++ [c])) cs
      else splitLoop (.quote (acc ++ [c])) cs

/-- `mmCIFElementFile.split` on one raw line (a line handed over by
`readline` keeps its trailing newline). -/
def split (line : String) : List Element :=
  splitLoop .whitespace line.data

mutual

/-- The element stream `mmCIFElementFile.read_elements` produces from the
file's lines, given without their trailing newlines (`read_elements` sees
each with one, re-appended here).  Comment lines (`#` in column 0) are
skipped; a `;` in column 0 starts a block collected by `semiElements`. -/
def elementsOfLines : List String → List Element
  | [] => []
  | l :: ls =>
      if pyStartsWith l "#" then elementsOfLines ls
      else if pyStartsWith l ";" then
        semiElements ((pyDrop l 1) ++ "\n") ls
      else split (l ++ "\n") ++ elementsOfLines ls

/-- The `read ;string` state: accumulate full lines until one starts with
`;`, then emit the right-stripped text as one string element (the rest of
the terminator line is discarded).  A block still open at end of file dies
in the source's `EOFError` and yields nothing. -/
def semiElements : String → List String → List Element
  | _, [] => []
  | temp, l :: ls =>
      if pyStartsWith l ";" then (pyRstrip temp, .string) :: elementsOfLines ls
      else semiElements (temp ++ l ++ "\n") ls

end

/-- The state of the claim's reading of the tokenizer: the quote state
additionally remembers which quote character opened the string. -/
inductive SplitStateQ where
  | whitespace
  | element (acc : List Char)
  | quote (q : Char) (acc : List Char)
deriving DecidableEq, Repr

/-- C4's spec-side tokenizer, written from the claim's words for
comparison with `splitLoop`: a quoted string is terminated only when *the
same quote character that opened it* is seen, followed by whitespace or
end-of-line; any other quote character is accumulated like an ordinary
character. -/
def splitSameQuoteLoop : SplitStateQ → List Char → List Element
  | .whitespace, [] => []
  | .whitespace, c :: cs =>
      if pyIsWhitespace c then splitSameQuoteLoop .whitespace cs
      else if pyQuotes.contains c then splitSameQuoteLoop (.quote c []) cs
      else splitSameQuoteLoop (.element [c]) cs
  | .element acc, [] => [(⟨acc⟩, .token)]
  | .element acc, c :: cs =>
      if pyIsWhitespace c then (⟨acc⟩, .token) :: splitSameQuoteLoop .whitespace cs
      else splitSameQuoteLoop (.element (acc ++ [c])) cs
  | .quote _ acc, [] => [(⟨acc.dropLast⟩, .string)]
  | .quote q acc, c :: cs =>
      if c = q then
        match cs with
        | [] => [(⟨acc⟩, .string)]
        | c2 :: _ =>
            if pyIsWhitespace c2 then
              (⟨acc⟩, .string) :: splitSameQuoteLoop .whitespace cs
            else splitSameQuoteLoop (.quote q (acc ++ [c])) cs
      else splitSameQuoteLoop (.quote q (acc ++ [c])) cs

/-- The spec-side tokenizer on one raw line. -/
def splitSameQuote (line : String) : List Element :=
  splitSameQuoteLoop .whitespace line.data

/-! ## mmCIF.py — data model (`mmCIFRow`/`mmCIFTable`/`mmCIFData`) -/

/-- `mmCIFRow`: column name → text value, in insertion order. -/
abbrev CIFRow : Type := List (String × String)

/-- `mmCIFTable`: name, ordered columns, ordered rows.  The name is
`Option String` because `read_loop` constructs `mmCIFTable(None, …)` when
a `loop_` is not followed by any `_table.column` declaration. -/
structure CIFTable where
  name : Option String
  columns : List String
  rows : List CIFRow
deriving DecidableEq, Repr

/-- `mmCIFData`: a `data_` section's name and its tables in order. -/
structure CIFData where
  name : String
  tables : List CIFTable
deriving DecidableEq, Repr

/-- `mmCIFFile`'s list of data sections. -/
abbrev CIFFile : Type := List CIFData

/-! ## mmCIF.py — parser (`mmCIFFileParser`) -/

/-- `read_single`: handle one `_<table>.<column>` assignment.  The tag is
split on `"."` into exactly two parts (`ValueError` otherwise); the table
is created when absent *or falsy* (a Python table with zero rows is
falsy, so a fresh one-row table with the same name is appended); the next
element is taken verbatim as the value unless it is a token starting with
`_` (`expected data got section`), with `EOFError` mapped to
`premature end of file`.  Line numbers of the source's messages are
diagnostic only and are not modelled. -/
def readSingle (d : CIFData) (s : String) (es : List Element) :
    Except String (CIFData × List Element) :=
  match pySplitDot (pyDrop s 1) with
  | [tname, cname] =>
      let createNew :=
        match d.tables.findIdx? (fun tb => tb.name = some tname) with
        | none => true
        | some i => ((d.tables.getD i ⟨none, [], []⟩).rows.length = 0 : Bool)
      if createNew then
        match es with
        | [] => .error "premature end of file"
        | (v, k) :: rest =>
            if k = .token ∧ v = "" then .error "IndexError"
            else if k = .token ∧ pyHead v = '_' then
              .error ("expected data got section=" ++ v)
            else
              .ok ({ d with tables :=
                d.tables ++ [⟨some tname, [cname], [[(cname, v)]]⟩] }, rest)
      else
        match d.tables.findIdx? (fun tb => tb.name = some tname) with
        | none => .error "unreachable"
        | some i =>
            let tb := d.tables.getD i ⟨none, [], []⟩
            if tb.columns.contains cname then
              .error ("redefined single column " ++ tname ++ "." ++ cname)
            else
              match es with
              | [] => .error "premature end of file"
              | (v, k) :: rest =>
                  if k = .token ∧ v = "" then .error "IndexError"
                  else if k = .token ∧ pyHead v = '_' then
                    .error ("expected data got section=" ++ v)
                  else
                    let row := tb.rows.getD 0 []
                    let tb' : CIFTable :=
                      ⟨tb.name, tb.columns ++ [cname],
                        assocSet row cname v :: tb.rows.tail⟩
                    .ok ({ d with tables := d.tables.set i tb' }, rest)
  | _ => .error "ValueError"

/-- The column-declaration loop of `read_loop`: consume `_`-prefixed
tokens, all of which must name the same table (`table_name` starts as
`None`; a mismatch with a *truthy* current name is a syntax error — the
Python falsy test lets an empty-string table name be overridden).  A
string element or a non-`_` token ends the declarations and is pushed
back. -/
def readLoopDecls (fuel : ℕ) (table_name : Option String)
    (cnames : List String) (es : List Element) :
    Except String (Option String × List String × List Element) :=
  match fuel with
  | 0 => .error "fuel"
  | fuel + 1 =>
      match es with
      | [] => .error "premature end of file"
      | (s, t) :: rest =>
          if t = .string then .ok (table_name, cnames, (s, t) :: rest)
          else if s = "" then .error "IndexError"
          else if pyHead s ≠ '_' then .ok (table_name, cnames, (s, t) :: rest)
          else
            match pySplitDot (pyDrop s 1) with
            | [tname, cname] =>
                if table_name = some tname then
                  readLoopDecls fuel table_name (cnames ++ [cname]) rest
                else
                  match table_name with
                  | none => readLoopDecls fuel (some tname) (cnames ++ [cname]) rest
                  | some tn =>
                      if tn = "" then
                        readLoopDecls fuel (some tname) (cnames ++ [cname]) rest
                      else .error "section in loop do not match"
            | _ => .error "ValueError"

/-- Read one loop row's worth of values, one element per declared column:
`EOFError` is `loop values incomplete`, and a token starting with `_` is
`expected data got section`. -/
def readRowValues (cols : List String) (row : CIFRow) (es : List Element) :
    Except String (CIFRow × List Element) :=
  match cols with
  | [] => .ok (row, es)
  | cname :: cols' =>
      match es with
      | [] => .error "loop values incomplete"
      | (v, k) :: rest =>
          if k = .token ∧ v = "" then .error "IndexError"
          else if k = .token ∧ pyHead v = '_' then
            .error ("expected data got section=" ++ v)
          else readRowValues cols' (assocSet row cname v) rest

/-- The row loop of `read_loop`: read rows until the peeked next element
is a control token (`_…`, `data_`, `loop_`, `save_`) or the stream ends.
A loop with zero declared columns consumes nothing per iteration; the
source then loops forever unless the lookahead breaks, which the fuel
models. -/
def readLoopRows (fuel : ℕ) (cols : List String) (rows : List CIFRow)
    (es : List Element) : Except String (List CIFRow × List Element) :=
  match fuel with
  | 0 => .error "fuel"
  | fuel + 1 => do
      let (row, es') ← readRowValues cols [] es
      let rows' := rows ++ [row]
      match es' with
      | [] => .ok (rows', [])
      | (s, t) :: _ =>
          if t = .token then
            if s = "" then .error "IndexError"
            else if pyHead s = '_' ∨ pyTake s 5 = "data_" ∨ pyTake s 5 = "loop_" ∨
                pyTake s 5 = "save_" then
              .ok (rows', es')
            else readLoopRows fuel cols rows' es'
          else readLoopRows fuel cols rows' es'

/-- `read_loop`: declarations, then the new table (possibly named `None`),
then its rows. -/
def readLoop (fuel : ℕ) (d : CIFData) (es : List Element) :
    Except String (CIFData × List Element) := do
  let (tn, cnames, es') ← readLoopDecls fuel none [] es
  let (rows, es'') ← readLoopRows fuel cnames [] es'
  .ok ({ d with tables := d.tables ++ [⟨tn, cnames, rows⟩] }, es'')

/-- `read_data`: dispatch on the next element's text (its kind is never
consulted): `_…` → single assignment, `loop_…` → loop, `data_…` → push
back and return to `parseFile`, end of stream → done; anything else is
`bad element`.  Indexing `s[0]` on an empty string is an uncaught
`IndexError`. -/
def readData (fuel : ℕ) (d : CIFData) (es : List Element) :
    Except String (CIFData × List Element) :=
  match fuel with
  | 0 => .error "fuel"
  | fuel + 1 =>
      match es with
      | [] => .ok (d, [])
      | (s, t) :: rest =>
          if s = "" then .error "IndexError"
          else if pyHead s = '_' then do
            let (d', rest') ← readSingle d s rest
            readData fuel d' rest'
          else if pyTake s 5 = "loop_" then do
            let (d', rest') ← readLoop fuel d rest
            readData fuel d' rest'
          else if pyTake s 5 = "data_" then .ok (d, (s, t) :: rest)
          else .error ("bad element=" ++ s)

/-- The top-level loop of `parseFile`: every element at top level must
begin a `data_` section (again the kind is not consulted). -/
def parseLoop (fuel : ℕ) (acc : List CIFData) (es : List Element) :
    Except String (List CIFData) :=
  match fuel with
  | 0 => .error "fuel"
  | fuel + 1 =>
      match es with
      | [] => .ok acc
      | (s, _) :: rest =>
          if pyTake s 5 = "data_" then do
            let (d, rest') ← readData fuel ⟨pyDrop s 5, []⟩ rest
            parseLoop fuel (acc ++ [d]) rest'
          else .error ("unexpected element=" ++ s)

/-- `mmCIFFileParser.parseFile` over an element stream.  The fuel bounds
the recursion; `2 * es.length + 2` strictly dominates every consuming
step, so `fuel` can run out only where the Python itself would loop
forever (a zero-column loop body). -/
def parseElements (es : List Element) : Except String (List CIFData) :=
  parseLoop (2 * es.length + 2) [] es

/-- Parse from raw file lines (tokenizer + parser). -/
def parseLines (ls : List String) : Except String (List CIFData) :=
  parseElements (elementsOfLines ls)

/-! ## mmCIF.py — writer (`mmCIFFileWriter`) -/

/-- `MAX_LINE`. -/
def MAX_LINE : ℕ := 80

/-- Python `str.ljust`. -/
def pyLjust (s : String) (w : ℕ) : String :=
  s ++ ⟨List.replicate (w - s.length) ' '⟩

/-- How `"%s"` renders the table name (`None` prints as `"None"`). -/
def tableNameStr (t : CIFTable) : String := t.name.getD "None"

/-- `fix_value`: empty values become `"?"`, values containing a space are
single-quoted. -/
def fix_value (val : String) : String :=
  if val.length = 0 then "?"
  else if val.data.contains ' ' then "'" ++ val ++ "'"
  else val

/-- The inner `while` of `fix_big_string`: chop a line into
`MAX_LINE - 1`-character pieces. -/
def chopLine (x : List Char) : List String :=
  if h : x.length > MAX_LINE - 1 then
    ⟨x.take (MAX_LINE - 1)⟩ :: chopLine (x.drop (MAX_LINE - 1))
  else [⟨x⟩]
termination_by x.length
decreasing_by
  simp only [List.length_drop, MAX_LINE] at *
  omega

/-- `fix_big_string`: long values are split at newlines, every piece
hard-wrapped at `MAX_LINE - 1`, and re-joined with newlines. -/
def fix_big_string (val : String) : String :=
  if val.length > MAX_LINE - 1 then
    String.intercalate "\n" ((splitOnChar '\n' val.data).flatMap chopLine)
  else val

/-- `row[col]` with the writer's `except KeyError: val = "?"`. -/
def writerVal (row : CIFRow) (col : String) : String :=
  (assocGet row col).getD "?"

/-- `write_one_row_table` as the list of lines it emits: each column tag
left-justified to the common width plus `SPACING = 2`, followed by the
fixed-up value on the same line, on its own line (when too wide for the
padded tag), or as a `;`-block (when wider than a whole line). -/
def write_one_row_table (t : CIFTable) : List String :=
  let row := t.rows.getD 0 []
  let kmax := (t.columns.foldl
    (fun m col => max m ("_" ++ tableNameStr t ++ "." ++ col).length) 0) + 2
  t.columns.flatMap fun col =>
    let key := "_" ++ tableNameStr t ++ "." ++ col
    let val := writerVal row col
    let fval := fix_value val
    if fval.length > MAX_LINE - 1 then
      [pyLjust key kmax, ";" ++ fix_big_string val, ";"]
    else if (fval.length : ℤ) > (MAX_LINE : ℤ) - (kmax : ℤ) - 1 then
      [pyLjust key kmax, fval]
    else [pyLjust key kmax ++ fval]

/-- Per-column maximum fixed-up value width over all rows (`vmax`). -/
def vmaxOf (t : CIFTable) (col : String) : ℕ :=
  t.rows.foldl (fun m row => max m (fix_value (writerVal row col)).length) 0

/-- The `write`/`writeln` buffer state of `write_multi_row_table`:
flushed lines, the open line buffer, and the remaining width `wlen`. -/
structure WriterState where
  lines : List String
  buf : String
  wlen : ℤ
deriving DecidableEq, Repr

/-- `self.write(s)`. -/
def wWrite (st : WriterState) (s : String) : WriterState :=
  { st with buf := st.buf ++ s }

/-- `self.writeln(s)`. -/
def wWriteln (st : WriterState) (s : String) : WriterState :=
  { st with lines := st.lines ++ [st.buf ++ s], buf := "" }

/-- One value of a loop row: wrap to a new line when the column does not
fit, then `;`-block oversized values or write the value left-justified to
the column width (with 2 spaces of leading inter-column spacing when not
at the start of a line). -/
def writeLoopValue (st : WriterState) (vmaxi : ℕ) (val : String) :
    WriterState :=
  let st :=
    if (vmaxi : ℤ) + 2 > st.wlen ∧ st.wlen < (MAX_LINE : ℤ) - 1 then
      { wWriteln st "" with wlen := (MAX_LINE : ℤ) - 1 }
    else st
  if (vmaxi : ℤ) > (MAX_LINE : ℤ) - 1 then
    wWriteln (wWriteln st (";" ++ fix_big_string val)) ";"
  else
    let st :=
      if st.wlen < (MAX_LINE : ℤ) - 1 then
        { wWrite st (pyLjust "" 2) with wlen := st.wlen - 2 }
      else st
    { wWrite st (pyLjust (fix_value val) vmaxi) with wlen := st.wlen - vmaxi }

/-- One loop row: reset `wlen`, write each column's value, and flush the
line when anything was written. -/
def writeLoopRow (t : CIFTable) (st : WriterState) (row : CIFRow) :
    WriterState :=
  let st := { st with wlen := (MAX_LINE : ℤ) - 1 }
  let st := t.columns.foldl
    (fun st col => writeLoopValue st (vmaxOf t col) (writerVal row col)) st
  if st.wlen < (MAX_LINE : ℤ) - 1 then wWriteln st "" else st

/-- `write_multi_row_table` as the list of lines it emits: `loop_`, the
column declarations, then the rows. -/
def write_multi_row_table (t : CIFTable) : List String :=
  let header := "loop_" :: t.columns.map
    (fun col => "_" ++ tableNameStr t ++ "." ++ col)
  let st := t.rows.foldl (writeLoopRow t) ⟨[], "", (MAX_LINE : ℤ) - 1⟩
  header ++ st.lines

/-- `write_cif_data` as lines: the `data_` header, a blank line, then each
table (empty tables are skipped entirely — no `loop_`, no tags, no `#`),
single-row tables in tag/value form, multi-row tables as loops, each
non-empty table followed by a `#` line. -/
def write_cif_data (d : CIFData) : List String :=
  ["data_" ++ d.name, ""] ++
    d.tables.flatMap fun t =>
      if t.rows.length = 0 then []
      else if t.rows.length = 1 then write_one_row_table t ++ ["#"]
      else write_multi_row_table t ++ ["#"]

/-- `mmCIFFileWriter.writeFile` as the list of emitted lines. -/
def writeFileLines (f : CIFFile) : List String :=
  f.flatMap write_cif_data

/-! ## Claim C1 — statement-side predicates and the canonical token
stream of the writer -/

/-- A well-behaved bare token: nonempty, free of whitespace, and not
opening with a quote, comment or block character. -/
def GoodTokC (t : List Char) : Prop :=
  t ≠ [] ∧ (∀ c ∈ t, pyIsWhitespace c = false) ∧
  (∀ c, t.head? = some c →
    pyQuotes.contains c = false ∧ c ≠ '#' ∧ c ≠ ';')

/-- What may follow a token on its line: nothing, or whitespace. -/
def NextWs : List Char → Prop
  | [] => True
  | c :: _ => pyIsWhitespace c = true

/-- `LineForm ts cs`: the characters `cs` consist of the well-behaved
tokens `ts` separated/padded by whitespace. -/
inductive LineForm : List (List Char) → List Char → Prop where
  | nil : LineForm [] []
  | ws {c : Char} {cs : List Char} {ts : List (List Char)} :
      pyIsWhitespace c = true → LineForm ts cs → LineForm ts (c :: cs)
  | tok {t cs ts} : GoodTokC t → NextWs cs → LineForm ts cs →
      LineForm (t :: ts) (t ++ cs)

/-- The loop writer's open line buffer: well-behaved tokens, each followed
by its `ljust` padding, separated by the 2-space inter-column spacing. -/
inductive BufChars : List (List Char) → List Char → Prop where
  | first {t ws} : GoodTokC t → (∀ c ∈ ws, pyIsWhitespace c = true) →
      BufChars [t] (t ++ ws)
  | more {ts cs t ws} : BufChars ts cs → GoodTokC t →
      (∀ c ∈ ws, pyIsWhitespace c = true) →
      BufChars (ts ++ [t]) (cs ++ ' ' :: ' ' :: (t ++ ws))

/-- The canonical element stream of one written (non-empty) table:
tag/value for a single-row table, `loop_`, tags, then row-major values for
a multi-row table. -/
def tableElements (t : CIFTable) : List Element :=
  if t.rows.length = 1 then
    t.columns.flatMap fun col =>
      [("_" ++ tableNameStr t ++ "." ++ col, ElemKind.token),
       (writerVal (t.rows.getD 0 []) col, ElemKind.token)]
  else
    ("loop_", ElemKind.token) ::
      ((t.columns.map fun col =>
          ("_" ++ tableNameStr t ++ "." ++ col, ElemKind.token)) ++
        t.rows.flatMap fun row =>
          t.columns.map fun col => (writerVal row col, ElemKind.token))

/-- The canonical element stream of one written data section. -/
def dataElements (d : CIFData) : List Element :=
  ("data_" ++ d.name, ElemKind.token) ::
    d.tables.flatMap fun t =>
      if t.rows.length = 0 then [] else tableElements t

/-- The canonical element stream of a written file. -/
def fileElements (f : CIFFile) : List Element :=
  f.flatMap dataElements

/-- A name (data-section, table or column) that survives the round trip:
free of whitespace, quote characters and dots. -/
def goodName (s : String) : Prop :=
  ∀ c ∈ s.data, pyIsWhitespace c = false ∧ pyQuotes.contains c = false ∧
    c ≠ '.'

/-- A value that survives the round trip: a nonempty token of at most
`MAX_LINE - 1` characters, free of whitespace and quote characters, not
beginning like a tag, comment or block line, and not carrying a control
marker prefix. -/
def goodValue (v : String) : Prop :=
  v ≠ "" ∧ v.length ≤ MAX_LINE - 1 ∧
  (∀ c ∈ v.data, pyIsWhitespace c = false ∧ pyQuotes.contains c = false) ∧
  pyHead v ≠ '_' ∧ pyHead v ≠ '#' ∧ pyHead v ≠ ';' ∧
  pyTake v 5 ≠ "data_" ∧ pyTake v 5 ≠ "loop_" ∧ pyTake v 5 ≠ "save_"

/-- A table in round-trippable shape: a real (non-`None`) well-behaved
name, at least one column (all distinct and well-behaved), at least one
row, and every row binding exactly the declared columns, in order, to
well-behaved values. -/
def goodTable (t : CIFTable) : Prop :=
  (∃ n, t.name = some n ∧ goodName n) ∧
  t.columns ≠ [] ∧ t.columns.Nodup ∧ (∀ c ∈ t.columns, goodName c) ∧
  t.rows ≠ [] ∧
  ∀ row ∈ t.rows, row.map Prod.fst = t.columns ∧ ∀ e ∈ row, goodValue e.2

/-- A data section in round-trippable shape: well-behaved name, good
tables with pairwise distinct names. -/
def goodData (d : CIFData) : Prop :=
  goodName d.name ∧ (∀ t ∈ d.tables, goodTable t) ∧
  (d.tables.map CIFTable.name).Nodup

/-- A file in round-trippable shape. -/
def goodFile (f : CIFFile) : Prop := ∀ d ∈ f, goodData d

instance (s : String) : Decidable (goodName s) :=
  inferInstanceAs (Decidable (∀ c ∈ s.data, pyIsWhitespace c = false ∧
    pyQuotes.contains c = false ∧ c ≠ '.'))

instance (v : String) : Decidable (goodValue v) :=
  inferInstanceAs (Decidable (v ≠ "" ∧ v.length ≤ MAX_LINE - 1 ∧
    (∀ c ∈ v.data, pyIsWhitespace c = false ∧ pyQuotes.contains c = false) ∧
    pyHead v ≠ '_' ∧ pyHead v ≠ '#' ∧ pyHead v ≠ ';' ∧
    pyTake v 5 ≠ "data_" ∧ pyTake v 5 ≠ "loop_" ∧ pyTake v 5 ≠ "save_"))

/-- The C1 counterexample file: one table whose single value is the empty
string — no control marker anywhere, yet the writer emits `?` for it. -/
def c1File : CIFFile := [⟨"x", [⟨some "a", ["b"], [[("b", "")]]⟩]⟩]

/-- The C1 witness file: a tag/value table and a three-row loop table. -/
def c1wFile : CIFFile :=
  [⟨"x", [⟨some "a", ["b", "c"], [[("b", "1"), ("c", "2")]]⟩,
    ⟨some "t", ["u"], [[("u", "v1")], [("u", "v2")], [("u", "v3")]]⟩]⟩]

/-- `LinesToks ls ts`: the lines `ls` tokenize, line by line, to exactly
the well-behaved tokens `ts`; comment lines contribute nothing. -/
inductive LinesToks : List String → List (List Char) → Prop where
  | nil : LinesToks [] []
  | line {l ls ts1 ts2} :
      LineForm ts1 (l.data ++ ['\n']) →
      pyStartsWith l "#" = false → pyStartsWith l ";" = false →
      LinesToks ls ts2 → LinesToks (l :: ls) (ts1 ++ ts2)
  | comment {l ls ts} : pyStartsWith l "#" = true →
      LinesToks ls ts → LinesToks (l :: ls) ts

/-- The loop writer's open-buffer invariant: the buffer holds the tokens
`toks` in `BufChars` shape and `wlen` counts the remaining width. -/
def BufInv (toks : List (List Char)) (st : WriterState) : Prop :=
  BufChars toks st.buf.data ∧
    st.wlen = (MAX_LINE : ℤ) - 1 - (st.buf.length : ℤ)

/-- Mid-row writer invariant: past `base`, the flushed lines and the open
buffer together carry exactly the tokens `toks`; the buffer is either
empty with full width left, or in `BufInv` shape. -/
def MidInv (base : List String) (toks : List (List Char))
    (st : WriterState) : Prop :=
  ∃ newLines flushedToks bufToks,
    st.lines = base ++ newLines ∧
    LinesToks newLines flushedToks ∧
    toks = flushedToks ++ bufToks ∧
    ((st.buf = "" ∧ bufToks = [] ∧ st.wlen = (MAX_LINE : ℤ) - 1) ∨
      BufInv bufToks st)

/-- Strengthened mid-row invariant: the buffer is known to be open (at
least one value has been written since the last flush). -/
def MidInvB (base : List String) (toks : List (List Char))
    (st : WriterState) : Prop :=
  ∃ newLines flushedToks bufToks,
    st.lines = base ++ newLines ∧
    LinesToks newLines flushedToks ∧
    toks = flushedToks ++ bufToks ∧
    BufInv bufToks st

/-- Between-rows writer invariant: buffer flushed, the emitted lines
tokenize to exactly `toks`. -/
def RowsInv (toks : List (List Char)) (st : WriterState) : Prop :=
  st.buf = "" ∧ LinesToks st.lines toks

/-- The canonical element stream of a list of tables (empty tables emit
nothing). -/
def tablesElems (ts : List CIFTable) : List Element :=
  ts.flatMap fun t => if t.rows.length = 0 then [] else tableElements t

/-- What may follow a table's elements: end of stream, or a control token
(`_…` tag, `data_`, `loop_`, `save_`) the row loop's lookahead breaks
on. -/
def ControlTail (after : List Element) : Prop :=
  after = [] ∨ ∃ s rest', after = (s, ElemKind.token) :: rest' ∧ s ≠ "" ∧
    (pyHead s = '_' ∨ pyTake s 5 = "data_" ∨ pyTake s 5 = "loop_" ∨
      pyTake s 5 = "save_")

/-- What may follow a data section's elements: end of stream, or the next
`data_` header. -/
def AfterData (after : List Element) : Prop :=
  after = [] ∨ ∃ name rest',
    after = ("data_" ++ name, ElemKind.token) :: rest'

/-- The concrete fragment of the C3 witness: a `CA` Altloc group holding
one atom under label `"A"`. -/
def c3Fragment : FragmentS :=
  FragmentS.mk "A" "1" "GLY" "A" [AtomOrAltloc.group "CA"]
    [("CA", [("A", SAtom.mk 1 "CA" "A" "A" "1" "GLY")])]
    [SAtom.mk 1 "CA" "A" "A" "1" "GLY"]
    [("CA", SAtom.mk 1 "CA" "A" "A" "1" "GLY")]

/-- The colliding atom of the C3 witness: a second `CA` with label
`"A"`. -/
def c3Atom : SAtom := SAtom.mk 2 "CA" "A" "A" "1" "GLY"

/-! ## Statement-side predicates -/

/-- `x` occurs strictly before `y` in the list. -/
def occursBefore {β : Type} (x y : β) (l : List β) : Prop :=
  ∃ mid rest, l = mid ++ x :: rest ∧ y ∈ rest

/-- Both `x` and `y` lie in the same half-open interval
`[k*res, (k+1)*res)` for some integer `k` (the cell property claimed of the
spatial hash). -/
def sameCell1 (res x y : ℚ) : Prop :=
  ∃ k : ℤ, ((k : ℚ) * res ≤ x ∧ x < (k + 1) * res) ∧
    ((k : ℚ) * res ≤ y ∧ y < (k + 1) * res)

/-- On nonnegative inputs `pyInt` is the floor. -/
theorem pyInt_eq_floor {q : ℚ} (h : 0 ≤ q) : pyInt q = ⌊q⌋ := by
  simp [pyInt, h]

/-- One axis of the cell-key property: for positive resolution and
nonnegative coordinates, equal truncated keys are exactly the same-interval
relation. -/
theorem pyInt_div_eq_iff_sameCell1 {res x y : ℚ} (hres : 0 < res)
    (hx : 0 ≤ x) (hy : 0 ≤ y) :
    pyInt (x / res) = pyInt (y / res) ↔ sameCell1 res x y := by
  rw [pyInt_eq_floor (div_nonneg hx hres.le),
      pyInt_eq_floor (div_nonneg hy hres.le)]
  constructor
  · intro hfl
    refine ⟨⌊x / res⌋, ⟨?_, ?_⟩, ?_, ?_⟩
    · calc ((⌊x / res⌋ : ℚ)) * res ≤ (x / res) * res :=
            mul_le_mul_of_nonneg_right (Int.floor_le _) hres.le
        _ = x := div_mul_cancel₀ x hres.ne'
    · calc x = (x / res) * res := (div_mul_cancel₀ x hres.ne').symm
        _ < ((⌊x / res⌋ : ℚ) + 1) * res :=
            mul_lt_mul_of_pos_right (Int.lt_floor_add_one _) hres
    · rw [hfl]
      calc ((⌊y / res⌋ : ℚ)) * res ≤ (y / res) * res :=
            mul_le_mul_of_nonneg_right (Int.floor_le _) hres.le
        _ = y := div_mul_cancel₀ y hres.ne'
    · rw [hfl]
      calc y = (y / res) * res := (div_mul_cancel₀ y hres.ne').symm
        _ < ((⌊y / res⌋ : ℚ) + 1) * res :=
            mul_lt_mul_of_pos_right (Int.lt_floor_add_one _) hres
  · rintro ⟨k, ⟨hx1, hx2⟩, hy1, hy2⟩
    have hxk : ⌊x / res⌋ = k := by
      rw [Int.floor_eq_iff]
      constructor
      · rw [le_div_iff₀ hres]; exact hx1
      · rw [div_lt_iff₀ hres]; exact hx2
    have hyk : ⌊y / res⌋ = k := by
      rw [Int.floor_eq_iff]
      constructor
      · rw [le_div_iff₀ hres]; exact hy1
      · rw [div_lt_iff₀ hres]; exact hy2
    rw [hxk, hyk]

/-! ## Claim C7 -/

/-- C7 counterexample: the claim says the cell key is
`floor(coordinate/resolution)` per axis "including positions with negative
coordinates", and that two positions share a cell exactly when they share
the half-open interval on every axis.  But `calc_geom_key` uses Python
`int()`, which truncates toward zero: at resolution 1 the positions
`(-1/2, 0, 0)` and `(1/2, 0, 0)` get the same key `(0,0,0)` even though
their floors (`-1` vs `0`) — and hence their half-open intervals — differ. -/
theorem calc_geom_key_not_floor_counterexample :
    calc_geom_key 1 (-(1 : ℚ)/2, 0, 0) = calc_geom_key 1 ((1 : ℚ)/2, 0, 0) ∧
    calc_geom_key 1 (-(1 : ℚ)/2, 0, 0) = (0, 0, 0) ∧
    ⌊(-(1 : ℚ)/2) / 1⌋ = -1 ∧ ⌊((1 : ℚ)/2) / 1⌋ = 0 ∧
    ¬ sameCell1 1 (-(1 : ℚ)/2) ((1 : ℚ)/2) := by
  refine ⟨by norm_num [calc_geom_key, pyInt], by norm_num [calc_geom_key, pyInt],
    by norm_num, by norm_num, ?_⟩
  rintro ⟨k, ⟨hx1, _⟩, _, hy2⟩
  rw [mul_one] at hx1
  linarith

/-- C7 amended: `calc_geom_key` truncates toward zero
(`int(coordinate/resolution)` per axis); for positive resolution and
positions with nonnegative coordinates this is the floor, and two such
positions fall in the same cell exactly when on every axis their
coordinates lie in the same half-open interval `[k*res, (k+1)*res)`. -/
theorem calc_geom_key_floor_of_nonneg (res : ℚ) (p q : Pos3)
    (hres : 0 < res)
    (hp1 : 0 ≤ p.1) (hp2 : 0 ≤ p.2.1) (hp3 : 0 ≤ p.2.2)
    (hq1 : 0 ≤ q.1) (hq2 : 0 ≤ q.2.1) (hq3 : 0 ≤ q.2.2) :
    calc_geom_key res p = (⌊p.1 / res⌋, ⌊p.2.1 / res⌋, ⌊p.2.2 / res⌋) ∧
    (calc_geom_key res p = calc_geom_key res q ↔
      sameCell1 res p.1 q.1 ∧ sameCell1 res p.2.1 q.2.1 ∧
        sameCell1 res p.2.2 q.2.2) := by
  constructor
  · unfold calc_geom_key
    rw [pyInt_eq_floor (div_nonneg hp1 hres.le),
        pyInt_eq_floor (div_nonneg hp2 hres.le),
        pyInt_eq_floor (div_nonneg hp3 hres.le)]
  · unfold calc_geom_key
    rw [Prod.mk.injEq, Prod.mk.injEq]
    rw [pyInt_div_eq_iff_sameCell1 hres hp1 hq1,
        pyInt_div_eq_iff_sameCell1 hres hp2 hq2,
        pyInt_div_eq_iff_sameCell1 hres hp3 hq3]

/-- Witness for `calc_geom_key_floor_of_nonneg` at resolution 2 and
positions `(3, 0, 5)` and `(2, 1, 4)`. -/
theorem calc_geom_key_floor_of_nonneg_witness :
    calc_geom_key 2 ((3 : ℚ), 0, 5) = (⌊(3 : ℚ) / 2⌋, ⌊(0 : ℚ) / 2⌋, ⌊(5 : ℚ) / 2⌋) ∧
    (calc_geom_key 2 ((3 : ℚ), 0, 5) = calc_geom_key 2 ((2 : ℚ), 1, 4) ↔
      sameCell1 2 3 2 ∧ sameCell1 2 0 1 ∧ sameCell1 2 5 4) :=
  calc_geom_key_floor_of_nonneg 2 ((3 : ℚ), 0, 5) ((2 : ℚ), 1, 4)
    (by norm_num) (by norm_num) (by norm_num) (by norm_num)
    (by norm_num) (by norm_num) (by norm_num)

/-! ## Claim C6 -/

theorem pyOptStrLe_total (a b : Option String) : pyOptStrLe a b ∨ pyOptStrLe b a := by
  cases a <;> cases b <;> simp [pyOptStrLe]
  exact le_total _ _

theorem pyOptStrLe_trans {a b c : Option String} :
    pyOptStrLe a b → pyOptStrLe b c → pyOptStrLe a c := by
  cases a <;> cases b <;> cases c <;> simp [pyOptStrLe]
  exact le_trans

theorem pySplitLe_total (x y : ℤ × Option String) :
    pySplitLe x y ∨ pySplitLe y x := by
  rcases lt_trichotomy x.1 y.1 with h | h | h
  · exact Or.inl (Or.inl h)
  · rcases pyOptStrLe_total x.2 y.2 with h2 | h2
    · exact Or.inl (Or.inr ⟨h, h2⟩)
    · exact Or.inr (Or.inr ⟨h.symm, h2⟩)
  · exact Or.inr (Or.inl h)

theorem pySplitLe_trans {x y z : ℤ × Option String} :
    pySplitLe x y → pySplitLe y z → pySplitLe x z := by
  rintro (h1 | ⟨h1, h1'⟩) (h2 | ⟨h2, h2'⟩)
  · exact Or.inl (h1.trans h2)
  · exact Or.inl (h2 ▸ h1)
  · exact Or.inl (h1 ▸ h2)
  · exact Or.inr ⟨h1.trans h2, pyOptStrLe_trans h1' h2'⟩

instance : IsTotal SFragment fragLe := ⟨fun _ _ => pySplitLe_total _ _⟩

instance : IsTrans SFragment fragLe := ⟨fun _ _ _ => pySplitLe_trans⟩

/-- C6: for fragments whose ids decode, `Segment.sort` succeeds, permutes
the fragment list, and orders it by the decoded
`(sequence_num, insertion_code)` tuples (`fragLe`), not by raw string
comparison; in particular the ids `{"9", "10", "5A", "5", "6"}` sort to
exactly `["5", "5A", "6", "9", "10"]` (raw string sorting would give
`["10", "5", "5A", "6", "9"]`). -/
theorem segment_sort_orders_by_decoded_tuple (l : List SFragment)
    (h : l.all (fun f => (fragment_id_split f.fragment_id).isSome) = true) :
    segment_sort l = .ok (l.insertionSort fragLe) ∧
    (l.insertionSort fragLe).Perm l ∧
    (l.insertionSort fragLe).Pairwise fragLe ∧
    segment_sort [⟨"9"⟩, ⟨"10"⟩, ⟨"5A"⟩, ⟨"5"⟩, ⟨"6"⟩] =
      .ok [⟨"5"⟩, ⟨"5A"⟩, ⟨"6"⟩, ⟨"9"⟩, ⟨"10"⟩] :=
  ⟨by simp only [segment_sort, h, if_true],
    List.perm_insertionSort fragLe l,
    List.sorted_insertionSort fragLe l,
    by rfl⟩

/-- Witness for `segment_sort_orders_by_decoded_tuple` at the concrete
fragment list of the claim. -/
theorem segment_sort_orders_by_decoded_tuple_witness :
    segment_sort [⟨"9"⟩, ⟨"10"⟩, ⟨"5A"⟩, ⟨"5"⟩, ⟨"6"⟩] =
      .ok (([⟨"9"⟩, ⟨"10"⟩, ⟨"5A"⟩, ⟨"5"⟩, ⟨"6"⟩] :
        List SFragment).insertionSort fragLe) ∧
    (([⟨"9"⟩, ⟨"10"⟩, ⟨"5A"⟩, ⟨"5"⟩, ⟨"6"⟩] :
        List SFragment).insertionSort fragLe).Perm
      [⟨"9"⟩, ⟨"10"⟩, ⟨"5A"⟩, ⟨"5"⟩, ⟨"6"⟩] ∧
    (([⟨"9"⟩, ⟨"10"⟩, ⟨"5A"⟩, ⟨"5"⟩, ⟨"6"⟩] :
        List SFragment).insertionSort fragLe).Pairwise fragLe ∧
    segment_sort [⟨"9"⟩, ⟨"10"⟩, ⟨"5A"⟩, ⟨"5"⟩, ⟨"6"⟩] =
      .ok [⟨"5"⟩, ⟨"5A"⟩, ⟨"6"⟩, ⟨"9"⟩, ⟨"10"⟩] :=
  segment_sort_orders_by_decoded_tuple
    [⟨"9"⟩, ⟨"10"⟩, ⟨"5A"⟩, ⟨"5"⟩, ⟨"6"⟩] (by rfl)

/-! ## Claim C3 -/

/-- `Fragment.set_default_alt_loc` rebuilds only the visible projection;
the alt-loc groups themselves are untouched. -/
theorem set_default_alt_loc_alt_loc_dict (f : FragmentS) (l : String) :
    (f.set_default_alt_loc l).alt_loc_dict = f.alt_loc_dict := rfl

theorem assocGet_of_assocHas_false {β : Type} {l : List (String × β)}
    {k : String} (h : assocHas l k = false) : assocGet l k = none := by
  unfold assocGet
  unfold assocHas at h
  cases hf : l.find? (fun kv => kv.1 = k) with
  | none => rfl
  | some kv => rw [hf] at h; simp at h

theorem assocGet_append_single_self {β : Type} (l : List (String × β))
    (k : String) (v : β) (h : assocHas l k = false) :
    assocGet (l ++ [(k, v)]) k = some v := by
  induction l with
  | nil => simp [assocGet, List.find?]
  | cons kv rest ih =>
      unfold assocHas at h ih
      unfold assocGet at ih ⊢
      rw [List.cons_append, List.find?]
      rw [List.find?] at h
      cases hd : (decide (kv.1 = k)) with
      | true => rw [hd] at h; simp at h
      | false => rw [hd] at h; simp only [hd]; exact ih h

theorem assocSet_fresh_append {β : Type} (l : List (String × β)) (k : String)
    (v : β) (h : assocHas l k = false) : assocSet l k v = l ++ [(k, v)] := by
  unfold assocSet
  rw [h]
  simp

/-- `calc_next_alt_loc_id` only ever returns a vacant label. -/
theorem calc_next_alt_loc_id_fresh {g : AltlocT} {c : String}
    (h : Altloc.calc_next_alt_loc_id g = .ok c) : assocHas g c = false := by
  unfold Altloc.calc_next_alt_loc_id at h
  by_cases hg : g.length = 0
  · rw [if_pos hg] at h
    have : g = [] := List.eq_nil_of_length_eq_zero hg
    subst this
    rfl
  · rw [if_neg hg] at h
    cases hf : pyUppercase.find? (fun c => ¬ assocHas g ⟨[c]⟩) with
    | none => rw [hf] at h; exact absurd h (by simp)
    | some c0 =>
        rw [hf] at h
        have h' : Except.ok (ε := String) (⟨[c0]⟩ : String) = .ok c := h
        injection h' with h2
        have := List.find?_some hf
        rw [← h2]
        simpa using this

/-- C3 counterexample: the claim predicts an overwrite error, but adding a
second `CA` atom labelled `"A"` to a fragment whose `CA` Altloc group
already holds label `"A"` succeeds — the incoming atom is silently
re-assigned the next vacant letter `"B"` and the group keeps both atoms. -/
theorem fragment_add_atom_collision_succeeds_counterexample :
    (do
      let f1 ← (FragmentS.mkEmpty "A" "1" "GLY").add_atom
        ⟨1, "CA", "A", "A", "1", "GLY"⟩
      let f2 ← f1.add_atom ⟨2, "CA", "A", "A", "1", "GLY"⟩
      pure (assocGet f2.alt_loc_dict "CA") : Except String _) =
    .ok (some [("A", ⟨1, "CA", "A", "A", "1", "GLY"⟩),
      ("B", ⟨2, "CA", "B", "A", "1", "GLY"⟩)]) := by
  rfl

/-- C3 amended: adding an atom with a non-empty alt-loc label that collides
with an already-used label of the existing Altloc group does not raise an
overwrite error; the incoming atom is silently re-assigned the next vacant
upper-case letter (the group's existing entries are untouched and keep
their labels), and only when all 26 letters are in use does the add raise
`AtomOverwrite`. -/
theorem assocGet_mapSet_self {β : Type} :
    ∀ (l : List (String × β)) (k : String) (v : β), assocHas l k = true →
      assocGet (l.map (fun kv => if kv.1 = k then (k, v) else kv)) k = some v
  | [], k, v, h => by simp [assocHas, List.find?] at h
  | kv :: rest, k, v, h => by
      by_cases hk : kv.1 = k
      · unfold assocGet
        rw [List.map_cons, if_pos hk, List.find?_cons_of_pos _ (by simp)]
        rfl
      · have hrest : assocHas rest k = true := by
          unfold assocHas at h ⊢
          rw [List.find?_cons_of_neg _ (by simp [hk])] at h
          exact h
        unfold assocGet
        rw [List.map_cons, if_neg hk, List.find?_cons_of_neg _ (by simp [hk])]
        exact assocGet_mapSet_self rest k v hrest

theorem assocGet_assocSet_self {β : Type} (l : List (String × β))
    (k : String) (v : β) : assocGet (assocSet l k v) k = some v := by
  unfold assocSet
  by_cases h : assocHas l k
  · rw [if_pos h]
    exact assocGet_mapSet_self l k v h
  · rw [if_neg h]
    exact assocGet_append_single_self l k v (by simpa using h)

theorem fragment_add_atom_label_collision_relabels
    (f : FragmentS) (a : SAtom) (g : AltlocT)
    (hassert : (a.chain_id == f.chain_id && a.fragment_id == f.fragment_id &&
      a.res_name == f.res_name) = true)
    (halt : (a.alt_loc == "") = false)
    (hgrp : assocGet f.alt_loc_dict a.name = some g)
    (hcol : assocHas g a.alt_loc = true) :
    (∀ c, Altloc.calc_next_alt_loc_id g = .ok c →
      ∃ f', f.add_atom a = .ok f' ∧
        assocGet f'.alt_loc_dict a.name =
          some (g ++ [(c, { a with alt_loc := c })])) ∧
    (Altloc.calc_next_alt_loc_id g = .error "AtomOverwrite" →
      f.add_atom a = .error "AtomOverwrite") := by
  have hhas : assocHas f.alt_loc_dict a.name = true := by
    unfold assocGet at hgrp
    unfold assocHas
    cases hf : f.alt_loc_dict.find? (fun kv => kv.1 = a.name) with
    | none => rw [hf] at hgrp; simp at hgrp
    | some kv => simp
  have hgetD : (assocGet f.alt_loc_dict a.name).getD [] = g := by
    rw [hgrp]; rfl
  constructor
  · intro c hc
    have haa : Altloc.add_atom g a =
        .ok (assocSet g c { a with alt_loc := c }, { a with alt_loc := c }) := by
      unfold Altloc.add_atom
      rw [hcol]
      simp only [Bool.true_or, hc, if_true]
      rfl
    have hnew : ∃ fn : FragmentS, fn = FragmentS.set_default_alt_loc
        { f with alt_loc_dict :=
                  assocSet f.alt_loc_dict a.name
                    (assocSet g c { a with alt_loc := c }) }
        f.default_alt_loc := ⟨_, rfl⟩
    obtain ⟨fnew, hfnew⟩ := hnew
    refine ⟨fnew, ?_, ?_⟩
    · rw [hfnew]
      unfold FragmentS.add_atom
      simp only [hassert, halt, hhas, hgetD, haa, Bool.not_true, Bool.not_false,
        Bool.false_eq_true, if_false, if_true]
      rfl
    · rw [hfnew, set_default_alt_loc_alt_loc_dict]
      show assocGet (assocSet f.alt_loc_dict a.name
          (assocSet g c { a with alt_loc := c })) a.name = _
      rw [assocGet_assocSet_self,
        assocSet_fresh_append g c _ (calc_next_alt_loc_id_fresh hc)]
  · intro hc
    have haa : Altloc.add_atom g a = .error "AtomOverwrite" := by
      unfold Altloc.add_atom
      rw [hcol]
      simp only [Bool.true_or, hc, if_true]
      rfl
    unfold FragmentS.add_atom
    simp only [hassert, halt, hhas, hgetD, haa, Bool.not_true, Bool.not_false,
      Bool.false_eq_true, if_false, if_true]
    rfl

/-- Witness for `fragment_add_atom_label_collision_relabels`: the fragment
holding a `CA` Altloc group with label `"A"`, receiving a second `CA`
labelled `"A"`; the next vacant letter is `"B"`. -/
theorem fragment_add_atom_label_collision_relabels_witness :
    ∃ f', c3Fragment.add_atom c3Atom = .ok f' ∧
      assocGet f'.alt_loc_dict c3Atom.name =
        some ([("A", SAtom.mk 1 "CA" "A" "A" "1" "GLY")] ++
          [("B", { c3Atom with alt_loc := "B" })]) :=
  (fragment_add_atom_label_collision_relabels c3Fragment c3Atom
      [("A", SAtom.mk 1 "CA" "A" "A" "1" "GLY")]
      (by rfl) (by rfl) (by rfl) (by rfl)).1 "B" (by rfl)

/-! ## Claim C2 — spatial-hash infrastructure -/

theorem pyInt_mono {a b : ℚ} (h : a ≤ b) : pyInt a ≤ pyInt b := by
  unfold pyInt
  by_cases ha : 0 ≤ a
  · rw [if_pos ha, if_pos (le_trans ha h)]
    exact Int.floor_le_floor h
  · rw [if_neg ha]
    by_cases hb : 0 ≤ b
    · rw [if_pos hb]
      have h1 : ⌈a⌉ ≤ 0 := by
        rw [Int.ceil_le]
        push_cast
        exact le_of_lt (lt_of_not_le ha)
      have h2 : 0 ≤ ⌊b⌋ := Int.floor_nonneg.mpr hb
      omega
    · rw [if_neg hb]
      exact Int.ceil_le_ceil h

/-- `pyInt` of a nonnegative rational is its floor (restated for rewriting
convenience). -/
theorem pyInt_nonneg_eq {q : ℚ} (h : 0 ≤ q) : pyInt q = ⌊q⌋ := pyInt_eq_floor h

/-- The central arithmetic fact behind the cube search's over-inclusion:
truncated keys of points at most `δ` apart differ by at most
`⌊δ⌋ + 1`. -/
theorem pyInt_sub_le {a b δ : ℚ} (hab : a ≤ b) (hd : b - a ≤ δ) :
    pyInt b - pyInt a ≤ ⌊δ⌋ + 1 := by
  have key : (pyInt b : ℚ) - pyInt a < b - a + 1 := by
    unfold pyInt
    by_cases hb : 0 ≤ b
    · rw [if_pos hb]
      have h1 : (⌊b⌋ : ℚ) ≤ b := Int.floor_le b
      by_cases ha : 0 ≤ a
      · rw [if_pos ha]
        have h2 : a < ⌊a⌋ + 1 := Int.lt_floor_add_one a
        linarith
      · rw [if_neg ha]
        have h2 : a ≤ ⌈a⌉ := Int.le_ceil a
        linarith
    · have hb' : b < 0 := lt_of_not_le hb
      have ha' : ¬ 0 ≤ a := fun h => hb (le_trans h hab)
      rw [if_neg hb, if_neg ha']
      have h1 : (⌈b⌉ : ℚ) < b + 1 := Int.ceil_lt_add_one b
      have h2 : a ≤ ⌈a⌉ := Int.le_ceil a
      linarith
  have h3 : (pyInt b - pyInt a : ℚ) < δ + 1 := by
    push_cast at key ⊢
    linarith
  have h4 : pyInt b - pyInt a - 1 ≤ ⌊δ⌋ := by
    rw [Int.le_floor]
    push_cast
    linarith
  omega

/-- Absolute-value form of `pyInt_sub_le`, at the scale of the hash. -/
theorem pyInt_key_axis_bound {res x y D : ℚ} (hres : 0 < res) (hD : 0 < D)
    (h : |x - y| ≤ D) :
    |pyInt (x / res) - pyInt (y / res)| ≤ pyInt (D / res) + 1 := by
  have hD' : pyInt (D / res) = ⌊D / res⌋ :=
    pyInt_nonneg_eq (div_nonneg hD.le hres.le)
  have hfl : (0 : ℤ) ≤ ⌊D / res⌋ :=
    Int.floor_nonneg.mpr (div_nonneg hD.le hres.le)
  rcases abs_le.mp h with ⟨h1, h2⟩
  rw [hD', abs_le]
  rcases le_total x y with hxy | hxy
  · have hab : x / res ≤ y / res := by
      apply div_le_div_of_nonneg_right hxy hres.le
    have hdelta : y / res - x / res ≤ D / res := by
      rw [← sub_div]
      exact div_le_div_of_nonneg_right (by linarith) hres.le
    have hb := pyInt_sub_le hab hdelta
    have hm := pyInt_mono hab
    omega
  · have hab : y / res ≤ x / res := by
      apply div_le_div_of_nonneg_right hxy hres.le
    have hdelta : x / res - y / res ≤ D / res := by
      rw [← sub_div]
      exact div_le_div_of_nonneg_right (by linarith) hres.le
    have hb := pyInt_sub_le hab hdelta
    have hm := pyInt_mono hab
    omega

/-- Within a squared-distance bound, every single axis is within the
linear bound. -/
theorem dist2_axis_bounds {p q : Pos3} {D : ℚ} (hD : 0 ≤ D)
    (h : dist2 p q ≤ D ^ 2) :
    |p.1 - q.1| ≤ D ∧ |p.2.1 - q.2.1| ≤ D ∧ |p.2.2 - q.2.2| ≤ D := by
  unfold dist2 at h
  refine ⟨abs_le.mpr ⟨by nlinarith [sq_nonneg (p.2.1 - q.2.1), sq_nonneg (p.2.2 - q.2.2)], by nlinarith [sq_nonneg (p.2.1 - q.2.1), sq_nonneg (p.2.2 - q.2.2)]⟩,
    abs_le.mpr ⟨by nlinarith [sq_nonneg (p.1 - q.1), sq_nonneg (p.2.2 - q.2.2)], by nlinarith [sq_nonneg (p.1 - q.1), sq_nonneg (p.2.2 - q.2.2)]⟩,
    abs_le.mpr ⟨by nlinarith [sq_nonneg (p.1 - q.1), sq_nonneg (p.2.1 - q.2.1)], by nlinarith [sq_nonneg (p.1 - q.1), sq_nonneg (p.2.1 - q.2.1)]⟩⟩

theorem mem_offsetRange {n x : ℤ} (hn : 0 ≤ n) :
    x ∈ offsetRange n ↔ -n ≤ x ∧ x ≤ n := by
  unfold offsetRange
  rw [List.mem_map]
  constructor
  · rintro ⟨i, hi, rfl⟩
    rw [List.mem_range] at hi
    omega
  · rintro ⟨h1, h2⟩
    refine ⟨(x + n).toNat, ?_, by omega⟩
    rw [List.mem_range]
    omega

theorem offsetRange_nodup (n : ℤ) : (offsetRange n).Nodup := by
  unfold offsetRange
  apply List.Nodup.map
  · intro i j hij
    dsimp only at hij
    omega
  · exact List.nodup_range _

theorem bucketInsert_cons_eq {α : Type} (k : ℤ × ℤ × ℤ) (gt : Pos3 × α)
    (l' : List (Pos3 × α)) (rest : List ((ℤ × ℤ × ℤ) × List (Pos3 × α))) :
    bucketInsert k gt ((k, l') :: rest) = (k, l' ++ [gt]) :: rest := by
  simp [bucketInsert]

theorem bucketInsert_cons_ne {α : Type} {k k' : ℤ × ℤ × ℤ} (gt : Pos3 × α)
    (l' : List (Pos3 × α)) (rest : List ((ℤ × ℤ × ℤ) × List (Pos3 × α)))
    (h : k' ≠ k) :
    bucketInsert k gt ((k', l') :: rest) =
      (k', l') :: bucketInsert k gt rest := by
  simp [bucketInsert, h]

/-- Keys after a bucket insert: membership. -/
theorem bucketInsert_keys_mem {α : Type} (k : ℤ × ℤ × ℤ) (gt : Pos3 × α)
    (l : List ((ℤ × ℤ × ℤ) × List (Pos3 × α))) (j : ℤ × ℤ × ℤ) :
    j ∈ (bucketInsert k gt l).map Prod.fst ↔
      j ∈ l.map Prod.fst ∨ j = k := by
  induction l with
  | nil => simp [bucketInsert]
  | cons kl rest ih =>
      obtain ⟨k', l'⟩ := kl
      by_cases hk : k' = k
      · subst hk
        rw [bucketInsert_cons_eq]
        simp only [List.map_cons, List.mem_cons]
        tauto
      · rw [bucketInsert_cons_ne _ _ _ hk]
        simp only [List.map_cons, List.mem_cons, ih]
        tauto

/-- A bucket insert keeps the keys distinct. -/
theorem bucketInsert_keys_nodup {α : Type} (k : ℤ × ℤ × ℤ) (gt : Pos3 × α)
    (l : List ((ℤ × ℤ × ℤ) × List (Pos3 × α)))
    (h : (l.map Prod.fst).Nodup) :
    ((bucketInsert k gt l).map Prod.fst).Nodup := by
  induction l with
  | nil => simp [bucketInsert]
  | cons kl rest ih =>
      obtain ⟨k', l'⟩ := kl
      simp only [List.map_cons, List.nodup_cons] at h
      by_cases hk : k' = k
      · subst hk
        rw [bucketInsert_cons_eq]
        simp only [List.map_cons, List.nodup_cons]
        exact ⟨h.1, h.2⟩
      · rw [bucketInsert_cons_ne _ _ _ hk]
        simp only [List.map_cons, List.nodup_cons]
        refine ⟨?_, ih h.2⟩
        rw [bucketInsert_keys_mem]
        rintro (hm | rfl)
        · exact h.1 hm
        · exact hk rfl

/-- A bucket insert under the tuple's own key preserves the
key-correctness of every stored tuple. -/
theorem bucketInsert_wf {α : Type} (res : ℚ) (gt : Pos3 × α)
    (l : List ((ℤ × ℤ × ℤ) × List (Pos3 × α)))
    (h : ∀ kc ∈ l, ∀ e ∈ kc.2, calc_geom_key res e.1 = kc.1) :
    ∀ kc ∈ bucketInsert (calc_geom_key res gt.1) gt l, ∀ e ∈ kc.2,
      calc_geom_key res e.1 = kc.1 := by
  induction l with
  | nil =>
      intro kc hkc e he
      simp only [bucketInsert, List.mem_singleton] at hkc
      subst hkc
      simp only [List.mem_singleton] at he
      subst he
      rfl
  | cons kl rest ih =>
      obtain ⟨k', l'⟩ := kl
      intro kc hkc e he
      by_cases hk : k' = calc_geom_key res gt.1
      · subst hk
        rw [bucketInsert_cons_eq] at hkc
        rcases List.mem_cons.mp hkc with hkc' | hkc'
        · subst hkc'
          rcases List.mem_append.mp he with he' | he'
          · exact h _ (List.mem_cons_self _ _) e he'
          · rw [List.mem_singleton] at he'
            subst he'
            rfl
        · exact h _ (List.mem_cons_of_mem _ hkc') e he
      · rw [bucketInsert_cons_ne _ _ _ hk] at hkc
        rcases List.mem_cons.mp hkc with hkc' | hkc'
        · subst hkc'
          exact h _ (List.mem_cons_self _ _) e he
        · exact ih (fun kc h' => h kc (List.mem_cons_of_mem _ h')) kc hkc' e he

/-- The flattened contents after a bucket insert: the new tuple joins the
old contents (as a permutation). -/
theorem bucketInsert_flatten_perm {α : Type} (k : ℤ × ℤ × ℤ)
    (gt : Pos3 × α) (l : List ((ℤ × ℤ × ℤ) × List (Pos3 × α))) :
    ((bucketInsert k gt l).flatMap Prod.snd).Perm
      (gt :: l.flatMap Prod.snd) := by
  induction l with
  | nil => simp [bucketInsert]
  | cons kl rest ih =>
      obtain ⟨k', l'⟩ := kl
      by_cases hk : k' = k
      · subst hk
        rw [bucketInsert_cons_eq]
        simp only [List.flatMap_cons]
        have h1 : ((l' ++ [gt]) ++ rest.flatMap Prod.snd).Perm
            ((gt :: l') ++ rest.flatMap Prod.snd) :=
          (List.perm_append_singleton gt l').append_right _
        exact h1.trans (by rw [List.cons_append])
      · rw [bucketInsert_cons_ne _ _ _ hk]
        simp only [List.flatMap_cons]
        have h1 : (l' ++ (bucketInsert k gt rest).flatMap Prod.snd).Perm
            (l' ++ (gt :: rest.flatMap Prod.snd)) := ih.append_left l'
        exact h1.trans List.perm_middle

/-- `add` preserves the resolution, well-formedness, and content (up to
permutation, with the new tuple in front). -/
theorem XYZDict.add_invariants {α : Type} (d : XYZDict α) (p : Pos3)
    (i : α) (hwf : d.WF) :
    (d.add p i).resolution = d.resolution ∧ (d.add p i).WF ∧
      ((d.add p i).iter_all).Perm ((p, i) :: d.iter_all) := by
  obtain ⟨hnd, hkeys⟩ := hwf
  refine ⟨rfl, ⟨?_, ?_⟩, ?_⟩
  · exact bucketInsert_keys_nodup _ _ _ hnd
  · exact bucketInsert_wf d.resolution (p, i) d.geom_dict hkeys
  · exact bucketInsert_flatten_perm _ _ _

/-- Invariants of a dict built from an entry list. -/
theorem XYZDict.ofEntries_invariants {α : Type} (res : ℚ)
    (entries : List (Pos3 × α)) :
    (XYZDict.ofEntries res entries).resolution = res ∧
    (XYZDict.ofEntries res entries).WF ∧
    ((XYZDict.ofEntries res entries).iter_all).Perm entries := by
  suffices h : ∀ (es : List (Pos3 × α)) (d : XYZDict α), d.WF →
      (es.foldl (fun d e => d.add e.1 e.2) d).resolution = d.resolution ∧
      (es.foldl (fun d e => d.add e.1 e.2) d).WF ∧
      ((es.foldl (fun d e => d.add e.1 e.2) d).iter_all).Perm
        (es ++ d.iter_all) by
    have hempty : (XYZDict.empty α res).WF := ⟨List.nodup_nil, by simp [XYZDict.empty]⟩
    obtain ⟨h1, h2, h3⟩ := h entries (XYZDict.empty α res) hempty
    refine ⟨h1, h2, ?_⟩
    simpa [XYZDict.empty, XYZDict.iter_all] using h3
  intro es
  induction es with
  | nil => intro d hd; exact ⟨rfl, hd, by simp⟩
  | cons e rest ih =>
      intro d hd
      obtain ⟨ha1, ha2, ha3⟩ := XYZDict.add_invariants d e.1 e.2 hd
      obtain ⟨h1, h2, h3⟩ := ih (d.add e.1 e.2) ha2
      refine ⟨by rw [List.foldl_cons, h1, ha1], by simpa using h2, ?_⟩
      have hstep : (rest ++ (d.add e.1 e.2).iter_all).Perm
          (rest ++ ((e.1, e.2) :: d.iter_all)) := ha3.append_left rest
      have hmid : (rest ++ ((e.1, e.2) :: d.iter_all)).Perm
          ((e.1, e.2) :: (rest ++ d.iter_all)) := List.perm_middle
      exact (h3.trans (hstep.trans hmid)).trans (by rfl)

/-- With distinct bucket keys, `find?` returns exactly the member bucket. -/
theorem find?_key_unique {β : Type} {l : List ((ℤ × ℤ × ℤ) × β)}
    (hnd : (l.map Prod.fst).Nodup) {kc : (ℤ × ℤ × ℤ) × β} (hm : kc ∈ l) :
    l.find? (fun x => x.1 = kc.1) = some kc := by
  induction l with
  | nil => cases hm
  | cons a rest ih =>
      simp only [List.map_cons, List.nodup_cons] at hnd
      rcases List.mem_cons.mp hm with rfl | hm'
      · rw [List.find?_cons_of_pos _ (by simp)]
      · have hne : ¬ (a.1 = kc.1) := fun h =>
          hnd.1 (h ▸ List.mem_map_of_mem Prod.fst hm')
        rw [List.find?_cons_of_neg _ (by simpa using hne)]
        exact ih hnd.2 hm'

/-- Membership in a looked-up bucket is membership in the hash contents
with the matching cube key. -/
theorem XYZDict.mem_cell_iff {α : Type} {d : XYZDict α} (hwf : d.WF)
    {e : Pos3 × α} {k : ℤ × ℤ × ℤ} :
    e ∈ d.cell k ↔ e ∈ d.iter_all ∧ calc_geom_key d.resolution e.1 = k := by
  obtain ⟨hnd, hkeys⟩ := hwf
  unfold XYZDict.cell XYZDict.iter_all
  constructor
  · intro he
    cases hf : d.geom_dict.find? (fun kl => kl.1 = k) with
    | none => rw [hf] at he; cases he
    | some kc =>
        rw [hf] at he
        have hmem : kc ∈ d.geom_dict := List.mem_of_find?_eq_some hf
        have hkey : kc.1 = k := by simpa using List.find?_some hf
        exact ⟨List.mem_flatMap.mpr ⟨kc, hmem, he⟩,
          (hkeys kc hmem e he).trans hkey⟩
  · rintro ⟨hmem, hkey⟩
    obtain ⟨kc, hkc, he⟩ := List.mem_flatMap.mp hmem
    have hk1 : kc.1 = k := (hkeys kc hkc e he).symm.trans hkey
    subst hk1
    rw [find?_key_unique hnd hkc]
    exact he

/-- Each bucket of a hash with duplicate-free contents is itself
duplicate-free. -/
theorem XYZDict.cell_nodup {α : Type} {d : XYZDict α}
    (hall : d.iter_all.Nodup) (k : ℤ × ℤ × ℤ) : (d.cell k).Nodup := by
  unfold XYZDict.cell
  cases hf : d.geom_dict.find? (fun kl => kl.1 = k) with
  | none => exact List.nodup_nil
  | some kc =>
      have hmem : kc ∈ d.geom_dict := List.mem_of_find?_eq_some hf
      obtain ⟨s, t, hst⟩ := List.append_of_mem hmem
      have hsub : kc.2.Sublist d.iter_all := by
        unfold XYZDict.iter_all
        rw [hst, List.flatMap_append, List.flatMap_cons]
        exact ((List.sublist_append_left kc.2 (t.flatMap Prod.snd)).trans
          (List.sublist_append_right (s.flatMap Prod.snd) _))
      exact hsub.nodup hall

/-- A `flatMap` over a duplicate-free index list with duplicate-free,
pairwise-disjoint images is duplicate-free. -/
theorem nodup_flatMap_of {β γ : Type} (l : List β) (f : β → List γ)
    (hl : l.Nodup) (hf : ∀ x ∈ l, (f x).Nodup)
    (hdisj : ∀ x ∈ l, ∀ y ∈ l, x ≠ y → ∀ e ∈ f x, e ∉ f y) :
    (l.flatMap f).Nodup := by
  induction l with
  | nil => exact List.nodup_nil
  | cons a rest ih =>
      rw [List.flatMap_cons, List.nodup_append]
      rcases List.nodup_cons.mp hl with ⟨hna, hnr⟩
      refine ⟨hf a (List.mem_cons_self _ _), ?_, ?_⟩
      · exact ih hnr (fun x hx => hf x (List.mem_cons_of_mem _ hx))
          (fun x hx y hy => hdisj x (List.mem_cons_of_mem _ hx) y
            (List.mem_cons_of_mem _ hy))
      · intro e hea her
        obtain ⟨y, hy, hey⟩ := List.mem_flatMap.mp her
        exact hdisj a (List.mem_cons_self _ _) y (List.mem_cons_of_mem _ hy)
          (fun h => hna (h ▸ hy)) e hea hey

/-- Membership in the cube search: the tuple is stored and its cube key is
within `int(radius/resolution) + 1` of the center key on each axis. -/
theorem XYZDict.mem_cube_iff {α : Type} {d : XYZDict α} (hwf : d.WF)
    {e : Pos3 × α} {p : Pos3} {r : ℚ}
    (hn : 0 ≤ pyInt (r / d.resolution) + 1) :
    e ∈ d.iter_cube_intersection p r ↔
      e ∈ d.iter_all ∧
      |(calc_geom_key d.resolution e.1).1 -
          (calc_geom_key d.resolution p).1| ≤ pyInt (r / d.resolution) + 1 ∧
      |(calc_geom_key d.resolution e.1).2.1 -
          (calc_geom_key d.resolution p).2.1| ≤ pyInt (r / d.resolution) + 1 ∧
      |(calc_geom_key d.resolution e.1).2.2 -
          (calc_geom_key d.resolution p).2.2| ≤ pyInt (r / d.resolution) + 1 := by
  unfold XYZDict.iter_cube_intersection
  simp only [List.mem_flatMap]
  constructor
  · rintro ⟨i, hi, j, hj, k, hk, he⟩
    rw [mem_offsetRange hn] at hi hj hk
    obtain ⟨hmem, hkey⟩ := (XYZDict.mem_cell_iff hwf).mp he
    refine ⟨hmem, ?_, ?_, ?_⟩ <;>
      · rw [hkey]
        simp only [Prod.fst, Prod.snd]
        rw [abs_le]
        omega
  · rintro ⟨hmem, h1, h2, h3⟩
    rw [abs_le] at h1 h2 h3
    refine ⟨(calc_geom_key d.resolution e.1).1 -
        (calc_geom_key d.resolution p).1, ?_,
      (calc_geom_key d.resolution e.1).2.1 -
        (calc_geom_key d.resolution p).2.1, ?_,
      (calc_geom_key d.resolution e.1).2.2 -
        (calc_geom_key d.resolution p).2.2, ?_, ?_⟩
    · rw [mem_offsetRange hn]; omega
    · rw [mem_offsetRange hn]; omega
    · rw [mem_offsetRange hn]; omega
    · rw [XYZDict.mem_cell_iff hwf]
      refine ⟨hmem, ?_⟩
      obtain ⟨k1, k2, k3⟩ := (calc_geom_key d.resolution e.1)
      obtain ⟨c1, c2, c3⟩ := (calc_geom_key d.resolution p)
      simp only [Prod.mk.injEq]
      omega

/-- The cube search never yields the same stored tuple twice (when the
contents are duplicate-free). -/
theorem XYZDict.cube_nodup {α : Type} {d : XYZDict α} (hwf : d.WF)
    (hall : d.iter_all.Nodup) (p : Pos3) (r : ℚ) :
    (d.iter_cube_intersection p r).Nodup := by
  unfold XYZDict.iter_cube_intersection
  have hcellkey : ∀ (k : ℤ × ℤ × ℤ) (e : Pos3 × α), e ∈ d.cell k →
      calc_geom_key d.resolution e.1 = k :=
    fun k e he => ((XYZDict.mem_cell_iff hwf).mp he).2
  apply nodup_flatMap_of _ _ (offsetRange_nodup _)
  · intro i _
    apply nodup_flatMap_of _ _ (offsetRange_nodup _)
    · intro j _
      apply nodup_flatMap_of _ _ (offsetRange_nodup _)
      · intro k _
        exact XYZDict.cell_nodup hall _
      · intro k _ k' _ hkk e he he'
        have h1 := hcellkey _ _ he
        have h2 := hcellkey _ _ he'
        rw [h1] at h2
        exact hkk (by simpa using h2)
    · intro j _ j' _ hjj e he he'
      obtain ⟨k, _, hek⟩ := List.mem_flatMap.mp he
      obtain ⟨k', _, hek'⟩ := List.mem_flatMap.mp he'
      have h1 := hcellkey _ _ hek
      have h2 := hcellkey _ _ hek'
      rw [h1] at h2
      apply hjj
      have := congrArg (fun q : ℤ × ℤ × ℤ => q.2.1) h2
      simpa using this
  · intro i _ i' _ hii e he he'
    obtain ⟨j, _, he2⟩ := List.mem_flatMap.mp he
    obtain ⟨k, _, hek⟩ := List.mem_flatMap.mp he2
    obtain ⟨j', _, he2'⟩ := List.mem_flatMap.mp he'
    obtain ⟨k', _, hek'⟩ := List.mem_flatMap.mp he2'
    have h1 := hcellkey _ _ hek
    have h2 := hcellkey _ _ hek'
    rw [h1] at h2
    apply hii
    have := congrArg (fun q : ℤ × ℤ × ℤ => q.1) h2
    simpa using this

theorem occursBefore_cons_iff {β : Type} (a x y : β) (l : List β) :
    occursBefore x y (a :: l) ↔
      (x = a ∧ y ∈ l) ∨ occursBefore x y l := by
  constructor
  · rintro ⟨mid, rest, heq, hy⟩
    cases mid with
    | nil =>
        simp only [List.nil_append, List.cons.injEq] at heq
        exact Or.inl ⟨heq.1.symm, heq.2 ▸ hy⟩
    | cons m ms =>
        simp only [List.cons_append, List.cons.injEq] at heq
        exact Or.inr ⟨ms, rest, heq.2, hy⟩
  · rintro (⟨rfl, hy⟩ | ⟨mid, rest, heq, hy⟩)
    · exact ⟨[], l, rfl, hy⟩
    · exact ⟨a :: mid, rest, by rw [heq, List.cons_append], hy⟩

theorem occursBefore_mem_left {β : Type} {x y : β} {l : List β}
    (h : occursBefore x y l) : x ∈ l := by
  obtain ⟨mid, rest, rfl, _⟩ := h
  exact List.mem_append.mpr (Or.inr (List.mem_cons_self _ _))

theorem occursBefore_mem_right {β : Type} {x y : β} {l : List β}
    (h : occursBefore x y l) : y ∈ l := by
  obtain ⟨mid, rest, rfl, hy⟩ := h
  exact List.mem_append.mpr (Or.inr (List.mem_cons_of_mem _ hy))

/-- In a duplicate-free list the before-relation is asymmetric. -/
theorem occursBefore_asymm {β : Type} :
    ∀ (l : List β), l.Nodup → ∀ x y : β,
      occursBefore x y l → occursBefore y x l → False := by
  intro l
  induction l with
  | nil =>
      rintro _ x y ⟨mid, rest, heq, _⟩
      cases mid <;> simp at heq
  | cons a l' ih =>
      intro hnd x y hxy hyx
      obtain ⟨hna, hnl⟩ := List.nodup_cons.mp hnd
      rcases (occursBefore_cons_iff a x y l').mp hxy with ⟨hxa, hy⟩ | hxy'
      · rcases (occursBefore_cons_iff a y x l').mp hyx with ⟨hya, hx⟩ | hyx'
        · exact hna (hya ▸ hy)
        · exact hna (hxa ▸ occursBefore_mem_right hyx')
      · rcases (occursBefore_cons_iff a y x l').mp hyx with ⟨hya, hx⟩ | hyx'
        · exact hna (hya ▸ occursBefore_mem_right hxy')
        · exact ih hnl x y hxy' hyx'

/-- Two distinct members of a list are ordered one way or the other. -/
theorem occursBefore_total {β : Type} :
    ∀ (l : List β) (x y : β), x ∈ l → y ∈ l → x ≠ y →
      occursBefore x y l ∨ occursBefore y x l := by
  intro l
  induction l with
  | nil => intro x y hx; cases hx
  | cons a l' ih =>
      intro x y hx hy hne
      rcases List.mem_cons.mp hx with rfl | hx'
      · rcases List.mem_cons.mp hy with rfl | hy'
        · exact absurd rfl hne
        · exact Or.inl ((occursBefore_cons_iff x x y l').mpr
            (Or.inl ⟨rfl, hy'⟩))
      · rcases List.mem_cons.mp hy with rfl | hy'
        · exact Or.inr ((occursBefore_cons_iff y y x l').mpr
            (Or.inl ⟨rfl, hx'⟩))
        · rcases ih x y hx' hy' hne with h | h
          · exact Or.inl ((occursBefore_cons_iff a x y l').mpr (Or.inr h))
          · exact Or.inr ((occursBefore_cons_iff a y x l').mpr (Or.inr h))

/-- `dist2` is symmetric. -/
theorem dist2_comm (p q : Pos3) : dist2 p q = dist2 q p := by
  unfold dist2
  ring

/-- Membership in the brute-force pair list: the first component occurs
strictly earlier than the second, and the pair is within the distance. -/
theorem bruteForcePairs_mem {α : Type} (l : List (Pos3 × α)) (D : ℚ)
    (pq : (Pos3 × α) × (Pos3 × α)) :
    pq ∈ bruteForcePairs l D ↔
      occursBefore pq.1 pq.2 l ∧ dist2 pq.1.1 pq.2.1 ≤ D^2 := by
  induction l with
  | nil =>
      simp only [bruteForcePairs, List.not_mem_nil, false_iff]
      rintro ⟨⟨mid, rest, heq, _⟩, _⟩
      cases mid <;> simp at heq
  | cons e rest ih =>
      simp only [bruteForcePairs, List.mem_append, List.mem_map,
        List.mem_filter, occursBefore_cons_iff, ih]
      constructor
      · rintro (⟨e2, ⟨he2, hd⟩, rfl⟩ | ⟨hb, hd⟩)
        · exact ⟨Or.inl ⟨rfl, he2⟩, by simpa using hd⟩
        · exact ⟨Or.inr hb, hd⟩
      · rintro ⟨(⟨h1, hy⟩ | hb), hd⟩
        · refine Or.inl ⟨pq.2, ⟨hy, by simpa [h1] using hd⟩, ?_⟩
          rw [← h1]
        · exact Or.inr ⟨hb, hd⟩

/-- The brute-force pair list over a duplicate-free entry list has no
repeated ordered pair. -/
theorem bruteForcePairs_nodup {α : Type} {l : List (Pos3 × α)} (D : ℚ)
    (hl : l.Nodup) : (bruteForcePairs l D).Nodup := by
  induction l with
  | nil => exact List.nodup_nil
  | cons e rest ih =>
      obtain ⟨hne, hnr⟩ := List.nodup_cons.mp hl
      rw [bruteForcePairs, List.nodup_append]
      refine ⟨?_, ih hnr, ?_⟩
      · apply List.Nodup.map
        · intro a b hab
          exact (Prod.mk.injEq _ _ _ _ ▸ hab).2
        · exact List.Nodup.filter _ hnr
      · intro pq hpq hpq'
        obtain ⟨e2, _, rfl⟩ := List.mem_map.mp hpq
        have := ((bruteForcePairs_mem rest D _).mp hpq').1
        exact hne (occursBefore_mem_left this)

/-- Items listed after the split point are neither the split entry's item
nor an earlier item (extracted from global item distinctness). -/
theorem split_item_facts {α : Type} {pre rest : List (Pos3 × α)}
    {gt1 : Pos3 × α}
    (hN : (((pre ++ gt1 :: rest)).map Prod.snd).Nodup) :
    ∀ gt2 ∈ rest, gt2.2 ≠ gt1.2 ∧ gt2.2 ∉ pre.map Prod.snd := by
  intro gt2 hgt2
  rw [List.map_append, List.map_cons, List.nodup_append] at hN
  obtain ⟨_, hcons, hdisj⟩ := hN
  obtain ⟨hg1, _⟩ := List.nodup_cons.mp hcons
  have hmem : gt2.2 ∈ rest.map Prod.snd := List.mem_map_of_mem _ hgt2
  constructor
  · intro h
    exact hg1 (h ▸ hmem)
  · intro h
    exact hdisj h (List.mem_cons_of_mem _ hmem)

/-- Membership in the contact iteration: exactly the pairs whose first
entry is stored strictly earlier than the second and whose squared
separation is within the threshold. -/
theorem contactGo_mem {α : Type} [DecidableEq α] {d : XYZDict α} {D : ℚ}
    (hwf : d.WF) (hres : 0 < d.resolution) (hD : 0 < D)
    (hnodup : (d.iter_all.map Prod.snd).Nodup) :
    ∀ (post pre : List (Pos3 × α)) (visited : List α),
      d.iter_all = pre ++ post →
      (∀ a : α, visited.contains a = true ↔ a ∈ pre.map Prod.snd) →
      ∀ pq : (Pos3 × α) × (Pos3 × α),
        pq ∈ contactGo d D visited post ↔
          occursBefore pq.1 pq.2 post ∧ dist2 pq.1.1 pq.2.1 ≤ D ^ 2 := by
  have hn : (0 : ℤ) ≤ pyInt (D / d.resolution) + 1 := by
    have h0 : (0 : ℤ) ≤ pyInt (D / d.resolution) := by
      rw [pyInt_nonneg_eq (div_nonneg hD.le hres.le)]
      exact Int.floor_nonneg.mpr (div_nonneg hD.le hres.le)
    omega
  intro post
  induction post with
  | nil =>
      intro pre visited _ _ pq
      constructor
      · intro h
        cases h
      · rintro ⟨⟨mid, rest, heq, _⟩, _⟩
        cases mid <;> simp at heq
  | cons gt1 rest ih =>
      intro pre visited hsplit hvis pq
      have hN : ((pre ++ gt1 :: rest).map Prod.snd).Nodup := hsplit ▸ hnodup
      have hvis' : ∀ a : α, ((gt1.2 :: visited).contains a = true) ↔
          a ∈ (pre ++ [gt1]).map Prod.snd := by
        intro a
        rw [List.contains_cons]
        simp only [Bool.or_eq_true, beq_iff_eq, hvis a, List.map_append,
          List.mem_append, List.map_cons, List.map_nil, List.mem_singleton]
        tauto
      have hstep : ∀ gt2 : Pos3 × α,
          gt2 ∈ (d.iter_cube_intersection gt1.1 D).filter
            (fun gt2 => ¬ ((gt1.2 :: visited).contains gt2.2) ∧
              dist2 gt1.1 gt2.1 ≤ D ^ 2) ↔
          gt2 ∈ rest ∧ dist2 gt1.1 gt2.1 ≤ D ^ 2 := by
        intro gt2
        rw [List.mem_filter]
        simp only [decide_eq_true_eq]
        constructor
        · rintro ⟨hcube, hnv, hdist⟩
          have hmem := ((XYZDict.mem_cube_iff hwf hn).mp hcube).1
          rw [hsplit] at hmem
          rcases List.mem_append.mp hmem with hpre | hgt
          · exact absurd ((hvis' gt2.2).mpr (by
              rw [List.map_append]
              exact List.mem_append.mpr
                (Or.inl (List.mem_map_of_mem _ hpre)))) hnv
          · rcases List.mem_cons.mp hgt with heq | hrest
            · exact absurd ((hvis' gt2.2).mpr (by
                rw [List.map_append]
                exact List.mem_append.mpr (Or.inr (by simp [heq])))) hnv
            · exact ⟨hrest, hdist⟩
        · rintro ⟨hrest, hdist⟩
          obtain ⟨hne, hnpre⟩ := split_item_facts hN gt2 hrest
          refine ⟨?_, ?_, hdist⟩
          · rw [XYZDict.mem_cube_iff hwf hn]
            obtain ⟨b1, b2, b3⟩ := dist2_axis_bounds hD.le hdist
            refine ⟨by
              rw [hsplit]
              exact List.mem_append.mpr
                (Or.inr (List.mem_cons_of_mem _ hrest)), ?_, ?_, ?_⟩
            · exact pyInt_key_axis_bound hres hD (by rw [abs_sub_comm]; exact b1)
            · exact pyInt_key_axis_bound hres hD (by rw [abs_sub_comm]; exact b2)
            · exact pyInt_key_axis_bound hres hD (by rw [abs_sub_comm]; exact b3)
          · intro hcv
            have hmm := (hvis' gt2.2).mp hcv
            rw [List.map_append] at hmm
            rcases List.mem_append.mp hmm with hp | hg
            · exact hnpre hp
            · exact hne (by simpa using hg)
      rw [contactGo]
      rw [List.mem_append, List.mem_map]
      constructor
      · rintro (⟨gt2, hgt2, rfl⟩ | hrec)
        · obtain ⟨hrest, hdist⟩ := (hstep gt2).mp hgt2
          exact ⟨(occursBefore_cons_iff gt1 gt1 gt2 rest).mpr
            (Or.inl ⟨rfl, hrest⟩), hdist⟩
        · obtain ⟨hb, hd⟩ := (ih (pre ++ [gt1]) (gt1.2 :: visited)
            (by rw [hsplit, List.append_assoc]; rfl) hvis' pq).mp hrec
          exact ⟨(occursBefore_cons_iff gt1 pq.1 pq.2 rest).mpr (Or.inr hb),
            hd⟩
      · rintro ⟨hb, hd⟩
        rcases (occursBefore_cons_iff gt1 pq.1 pq.2 rest).mp hb with
          ⟨h1, hrest⟩ | hb'
        · refine Or.inl ⟨pq.2, (hstep pq.2).mpr ⟨hrest, by rw [← h1]; exact hd⟩, ?_⟩
          rw [← h1]
        · exact Or.inr ((ih (pre ++ [gt1]) (gt1.2 :: visited)
            (by rw [hsplit, List.append_assoc]; rfl) hvis' pq).mpr ⟨hb', hd⟩)

/-- The contact iteration never reports an ordered pair twice. -/
theorem contactGo_nodup {α : Type} [DecidableEq α] {d : XYZDict α} {D : ℚ}
    (hwf : d.WF) (hres : 0 < d.resolution) (hD : 0 < D)
    (hnodup : (d.iter_all.map Prod.snd).Nodup) :
    ∀ (post pre : List (Pos3 × α)) (visited : List α),
      d.iter_all = pre ++ post →
      (∀ a : α, visited.contains a = true ↔ a ∈ pre.map Prod.snd) →
      (contactGo d D visited post).Nodup := by
  have hall : d.iter_all.Nodup := hnodup.of_map
  intro post
  induction post with
  | nil => intro _ _ _ _; exact List.nodup_nil
  | cons gt1 rest ih =>
      intro pre visited hsplit hvis
      have hvis' : ∀ a : α, ((gt1.2 :: visited).contains a = true) ↔
          a ∈ (pre ++ [gt1]).map Prod.snd := by
        intro a
        rw [List.contains_cons]
        simp only [Bool.or_eq_true, beq_iff_eq, hvis a, List.map_append,
          List.mem_append, List.map_cons, List.map_nil, List.mem_singleton]
        tauto
      have hsplit' : d.iter_all = (pre ++ [gt1]) ++ rest := by
        rw [hsplit, List.append_assoc]
        rfl
      rw [contactGo, List.nodup_append]
      refine ⟨?_, ih (pre ++ [gt1]) (gt1.2 :: visited) hsplit' hvis', ?_⟩
      · apply List.Nodup.map
        · intro a b hab
          exact (Prod.mk.injEq _ _ _ _ ▸ hab).2
        · exact List.Nodup.filter _ (XYZDict.cube_nodup hwf hall gt1.1 D)
      · intro pq hpq hpq'
        obtain ⟨gt2, _, rfl⟩ := List.mem_map.mp hpq
        have hb := ((contactGo_mem hwf hres hD hnodup rest (pre ++ [gt1])
          (gt1.2 :: visited) hsplit' hvis' _).mp hpq').1
        have hg1rest : gt1 ∈ rest := occursBefore_mem_left hb
        have : ((pre ++ gt1 :: rest)).Nodup := hsplit ▸ hall
        rw [List.nodup_append] at this
        exact (List.nodup_cons.mp this.2.1).1 hg1rest

theorem occursBefore_ne {β : Type} {l : List β} (hl : l.Nodup) {x y : β}
    (h : occursBefore x y l) : x ≠ y := by
  obtain ⟨mid, rest, rfl, hy⟩ := h
  rintro rfl
  rw [List.nodup_append] at hl
  exact (List.nodup_cons.mp hl.2.1).1 hy

/-- Unordered-pair membership in the brute-force enumeration: two distinct
stored entries within the threshold. -/
theorem bruteForcePairs_sym2_mem {α : Type} {l : List (Pos3 × α)}
    (hl : l.Nodup) (D : ℚ) (x y : Pos3 × α) :
    s(x, y) ∈ (bruteForcePairs l D).map (fun pq => s(pq.1, pq.2)) ↔
      x ≠ y ∧ x ∈ l ∧ y ∈ l ∧ dist2 x.1 y.1 ≤ D ^ 2 := by
  rw [List.mem_map]
  constructor
  · rintro ⟨pq, hpq, heq⟩
    obtain ⟨hb, hd⟩ := (bruteForcePairs_mem l D pq).mp hpq
    rcases Sym2.eq_iff.mp heq with ⟨h1, h2⟩ | ⟨h1, h2⟩
    · rw [← h1, ← h2]
      exact ⟨occursBefore_ne hl hb, occursBefore_mem_left hb,
        occursBefore_mem_right hb, hd⟩
    · rw [← h1, ← h2]
      exact ⟨(occursBefore_ne hl hb).symm, occursBefore_mem_right hb,
        occursBefore_mem_left hb, by rw [dist2_comm]; exact hd⟩
  · rintro ⟨hne, hx, hy, hd⟩
    rcases occursBefore_total l x y hx hy hne with h | h
    · exact ⟨(x, y), (bruteForcePairs_mem l D (x, y)).mpr ⟨h, hd⟩, rfl⟩
    · exact ⟨(y, x), (bruteForcePairs_mem l D (y, x)).mpr
        ⟨h, by rw [dist2_comm]; exact hd⟩,
        Sym2.eq_iff.mpr (Or.inr ⟨rfl, rfl⟩)⟩

/-- The brute-force enumeration reports each unordered pair at most
once. -/
theorem bruteForcePairs_sym2_nodup {α : Type} {l : List (Pos3 × α)}
    (hl : l.Nodup) (D : ℚ) :
    ((bruteForcePairs l D).map (fun pq => s(pq.1, pq.2))).Nodup := by
  apply List.Nodup.map_on ?_ (bruteForcePairs_nodup D hl)
  intro pq hpq pq' hpq' heq
  rcases Sym2.eq_iff.mp heq with ⟨h1, h2⟩ | ⟨h1, h2⟩
  · exact Prod.ext h1 h2
  · obtain ⟨hb, _⟩ := (bruteForcePairs_mem l D pq).mp hpq
    obtain ⟨hb', _⟩ := (bruteForcePairs_mem l D pq').mp hpq'
    rw [← h1, ← h2] at hb'
    exact (occursBefore_asymm l hl _ _ hb hb').elim

/-- C2: for distinct items placed at rational 3-D positions and a positive
contact distance, the spatial hash's contact-pair iteration yields, as
unordered pairs, exactly the pairs of distinct stored entries within the
distance — the same set the brute-force all-pairs check finds — with no
duplicates and no omissions.  (The source's `sqrt(d2) <= distance` test is
embedded as `d2 <= distance^2`.) -/
theorem iter_contact_distance_matches_brute_force {α : Type} [DecidableEq α]
    (res D : ℚ) (entries : List (Pos3 × α)) (hres : 0 < res) (hD : 0 < D)
    (hnodup : (entries.map Prod.snd).Nodup) :
    (((XYZDict.ofEntries res entries).iter_contact_distance D).map
        (fun pq => s(pq.1, pq.2))).Nodup ∧
    (((XYZDict.ofEntries res entries).iter_contact_distance D).map
        (fun pq => s(pq.1, pq.2))).Perm
      ((bruteForcePairs entries D).map (fun pq => s(pq.1, pq.2))) := by
  obtain ⟨hr, hwf, hperm⟩ := XYZDict.ofEntries_invariants res entries
  have hres' : 0 < (XYZDict.ofEntries res entries).resolution := by
    rw [hr]; exact hres
  have hilitems :
      ((XYZDict.ofEntries res entries).iter_all.map Prod.snd).Nodup := by
    rw [(hperm.map Prod.snd).nodup_iff]
    exact hnodup
  have hil : (XYZDict.ofEntries res entries).iter_all.Nodup :=
    List.Nodup.of_map Prod.snd hilitems
  have hentries : entries.Nodup := List.Nodup.of_map Prod.snd hnodup
  have hvis0 : ∀ a : α, (([] : List α).contains a = true) ↔
      a ∈ (([] : List (Pos3 × α)).map Prod.snd) := by simp
  have hmemc : ∀ pq, pq ∈ (XYZDict.ofEntries res entries).iter_contact_distance D ↔
      pq ∈ bruteForcePairs (XYZDict.ofEntries res entries).iter_all D := by
    intro pq
    rw [XYZDict.iter_contact_distance,
      contactGo_mem hwf hres' hD hilitems
        (XYZDict.ofEntries res entries).iter_all [] [] (by simp) hvis0 pq,
      bruteForcePairs_mem]
  have hnodc : ((XYZDict.ofEntries res entries).iter_contact_distance D).Nodup := by
    rw [XYZDict.iter_contact_distance]
    exact contactGo_nodup hwf hres' hD hilitems
      (XYZDict.ofEntries res entries).iter_all [] [] (by simp) hvis0
  have hperm1 : ((XYZDict.ofEntries res entries).iter_contact_distance D).Perm
      (bruteForcePairs (XYZDict.ofEntries res entries).iter_all D) :=
    (List.perm_ext_iff_of_nodup hnodc (bruteForcePairs_nodup D hil)).mpr hmemc
  have hperm2 : ((bruteForcePairs (XYZDict.ofEntries res entries).iter_all D).map
      (fun pq => s(pq.1, pq.2))).Perm
      ((bruteForcePairs entries D).map (fun pq => s(pq.1, pq.2))) := by
    rw [List.perm_ext_iff_of_nodup (bruteForcePairs_sym2_nodup hil D)
      (bruteForcePairs_sym2_nodup hentries D)]
    intro z
    refine Sym2.inductionOn z (fun x y => ?_)
    rw [bruteForcePairs_sym2_mem hil, bruteForcePairs_sym2_mem hentries]
    simp only [hperm.mem_iff]
  refine ⟨?_, (hperm1.map _).trans hperm2⟩
  rw [((hperm1.map _).trans hperm2).nodup_iff]
  exact bruteForcePairs_sym2_nodup hentries D

/-- Witness for `iter_contact_distance_matches_brute_force`: two items at
distance 1, resolution 2, threshold 3. -/
theorem iter_contact_distance_matches_brute_force_witness :
    (((XYZDict.ofEntries 2
        [(((0 : ℚ), (0 : ℚ), (0 : ℚ)), (0 : ℕ)),
         (((1 : ℚ), (0 : ℚ), (0 : ℚ)), 1)]).iter_contact_distance 3).map
        (fun pq => s(pq.1, pq.2))).Nodup ∧
    (((XYZDict.ofEntries 2
        [(((0 : ℚ), (0 : ℚ), (0 : ℚ)), (0 : ℕ)),
         (((1 : ℚ), (0 : ℚ), (0 : ℚ)), 1)]).iter_contact_distance 3).map
        (fun pq => s(pq.1, pq.2))).Perm
      ((bruteForcePairs
        [(((0 : ℚ), (0 : ℚ), (0 : ℚ)), (0 : ℕ)),
         (((1 : ℚ), (0 : ℚ), (0 : ℚ)), 1)] 3).map
        (fun pq => s(pq.1, pq.2))) :=
  iter_contact_distance_matches_brute_force 2 3
    [(((0 : ℚ), (0 : ℚ), (0 : ℚ)), (0 : ℕ)),
     (((1 : ℚ), (0 : ℚ), (0 : ℚ)), 1)]
    (by norm_num) (by norm_num) (by simp)

/-! ## Claim C4 -/

/-- C4 counterexample: the claim says only the *same* quote character that
opened the string can terminate it.  But the tokenizer checks membership
in `QUOTES`: on the line `'ab" cd'` the embedded double quote (followed by
a space) terminates the single-quoted string, yielding the string `ab`
and then the token `cd'`, where the claim's same-quote tokenizer yields
the single string `ab" cd`. -/
theorem split_terminates_on_any_quote_counterexample :
    split "'ab\" cd'\n" = [("ab", .string), ("cd'", .token)] ∧
    splitSameQuote "'ab\" cd'\n" = [("ab\" cd", .string)] ∧
    split "'ab\" cd'\n" ≠ splitSameQuote "'ab\" cd'\n" :=
  ⟨by rfl, by rfl, by decide⟩

/-- C4 amended: in the quote state, *any* quote character (not only the
one that opened the string) terminates the string when it is followed by
whitespace or ends the line; a quote character followed by a
non-whitespace character — a literal quote embedded mid-word — does not
terminate the string and is accumulated, as is every non-quote
character. -/
theorem split_quote_step_characterization (acc : List Char) (c : Char)
    (cs : List Char) :
    (pyQuotes.contains c = true →
      (∀ c2 cs', cs = c2 :: cs' → pyIsWhitespace c2 = false →
        splitLoop (.quote acc) (c :: cs) = splitLoop (.quote (acc ++ [c])) cs) ∧
      (∀ c2 cs', cs = c2 :: cs' → pyIsWhitespace c2 = true →
        splitLoop (.quote acc) (c :: cs) =
          (⟨acc⟩, .string) :: splitLoop .whitespace cs) ∧
      (cs = [] → splitLoop (.quote acc) (c :: cs) = [(⟨acc⟩, .string)])) ∧
    (pyQuotes.contains c = false →
      splitLoop (.quote acc) (c :: cs) = splitLoop (.quote (acc ++ [c])) cs) := by
  constructor
  · intro hq
    have hq' : c ∈ pyQuotes := by simpa using hq
    refine ⟨?_, ?_, ?_⟩
    · rintro c2 cs' rfl hw
      simp [splitLoop, hq', hw]
    · rintro c2 cs' rfl hw
      simp [splitLoop, hq', hw]
    · rintro rfl
      simp [splitLoop, hq']
  · intro hq
    have hq' : c ∉ pyQuotes := by simpa using hq
    cases cs with
    | nil => simp [splitLoop, hq']
    | cons c2 cs' => simp [splitLoop, hq']

/-- Witness for `split_quote_step_characterization`: a double quote inside
a (conceptually single-quoted) string, followed by a space, terminates
it. -/
theorem split_quote_step_characterization_witness :
    splitLoop (.quote ['a']) ('"' :: [' ']) =
      (⟨['a']⟩, .string) :: splitLoop .whitespace [' '] :=
  ((split_quote_step_characterization ['a'] '"' [' ']).1 (by rfl)).2.1
    ' ' [] rfl (by rfl)

/-! ## Claim C5 -/

/-- C5 counterexample: after the single assignment tag `_a.b`, the claim
says a following `loop_` (or `data_`) marker must be rejected as a missing
value.  The parser instead accepts it verbatim: the stream
`data_x  _a.b  loop_` parses successfully with `"loop_"` stored as the
value of column `b`. -/
theorem read_single_accepts_loop_marker_counterexample :
    parseElements [("data_x", .token), ("_a.b", .token), ("loop_", .token)] =
      .ok [⟨"x", [⟨some "a", ["b"], [[("b", "loop_")]]⟩]⟩] := by
  rfl

/-- C5 amended: `read_single` takes the next element verbatim as the
value, raising `expected data got section` *only* when that element is a
plain token beginning with `_`; a `data_…` or `loop_…` token, and any
quoted string (even one beginning with `_`), is accepted as the value.
End of input is `premature end of file`. -/
theorem read_single_value_handling (d : CIFData) (s tname cname : String)
    (htag : pySplitDot (pyDrop s 1) = [tname, cname])
    (hnew : d.tables.findIdx? (fun tb => tb.name = some tname) = none) :
    readSingle d s [] = .error "premature end of file" ∧
    (∀ v es, readSingle d s ((v, .token) :: es) =
      if v = "" then .error "IndexError"
      else if pyHead v = '_' then .error ("expected data got section=" ++ v)
      else .ok ({ d with tables :=
        d.tables ++ [⟨some tname, [cname], [[(cname, v)]]⟩] }, es)) ∧
    (∀ v es, readSingle d s ((v, .string) :: es) =
      .ok ({ d with tables :=
        d.tables ++ [⟨some tname, [cname], [[(cname, v)]]⟩] }, es)) := by
  refine ⟨?_, ?_, ?_⟩
  · unfold readSingle
    rw [htag]
    simp only [hnew]
    simp
  · intro v es
    unfold readSingle
    rw [htag]
    simp only [hnew]
    by_cases hv : v = ""
    · simp [hv]
    · by_cases hu : pyHead v = '_' <;> simp [hv, hu]
  · intro v es
    unfold readSingle
    rw [htag]
    simp only [hnew]
    simp

/-- Witness for `read_single_value_handling`: the tag `_a.b` in a fresh
section, followed by the token `loop_`, which is accepted as the value. -/
theorem read_single_value_handling_witness :
    readSingle ⟨"x", []⟩ "_a.b" [("loop_", .token)] =
      (if ("loop_" : String) = "" then .error "IndexError"
       else if pyHead "loop_" = '_' then
         .error ("expected data got section=" ++ "loop_")
       else .ok ({ name := "x", tables :=
         [] ++ [⟨some "a", ["b"], [[("b", "loop_")]]⟩] }, [])) :=
  (read_single_value_handling ⟨"x", []⟩ "_a.b" "a" "b" (by rfl) (by rfl)).2.1
    "loop_" []

/-! ## Claim C10 -/

/-- C10: the writer emits nothing at all for a zero-row table — removing
such a table from its section leaves the emitted lines (of the section and
of any file containing it) unchanged, so a write/parse round trip of a
file with an empty table reproduces the file without it; concretely, a
file whose only table is empty writes as just the `data_` header and
re-parses to a section with no tables. -/
theorem empty_table_not_written (fpre fpost : CIFFile) (dname : String)
    (tpre tpost : List CIFTable) (t : CIFTable) (h : t.rows = []) :
    write_cif_data ⟨dname, tpre ++ t :: tpost⟩ =
      write_cif_data ⟨dname, tpre ++ tpost⟩ ∧
    writeFileLines (fpre ++ ⟨dname, tpre ++ t :: tpost⟩ :: fpost) =
      writeFileLines (fpre ++ ⟨dname, tpre ++ tpost⟩ :: fpost) ∧
    parseLines (writeFileLines [⟨"x", [⟨some "a", ["b"], []⟩]⟩]) =
      .ok [⟨"x", []⟩] := by
  have h1 : write_cif_data ⟨dname, tpre ++ t :: tpost⟩ =
      write_cif_data ⟨dname, tpre ++ tpost⟩ := by
    unfold write_cif_data
    simp [h]
  refine ⟨h1, ?_, by rfl⟩
  unfold writeFileLines
  simp only [List.flatMap_append, List.flatMap_cons]
  rw [h1]

/-- Witness for `empty_table_not_written` at a one-section file holding
one empty table. -/
theorem empty_table_not_written_witness :
    write_cif_data ⟨"x", [] ++ (⟨some "a", ["b"], []⟩ : CIFTable) :: []⟩ =
      write_cif_data ⟨"x", [] ++ []⟩ ∧
    writeFileLines ([] ++ ⟨"x", [] ++ (⟨some "a", ["b"], []⟩ : CIFTable) :: []⟩ :: []) =
      writeFileLines ([] ++ ⟨"x", ([] : List CIFTable) ++ []⟩ :: []) ∧
    parseLines (writeFileLines [⟨"x", [⟨some "a", ["b"], []⟩]⟩]) =
      .ok [⟨"x", []⟩] :=
  empty_table_not_written [] [] "x" [] [] ⟨some "a", ["b"], []⟩ (by rfl)

/-! ## Claim C9 -/

/-- C9: `Structure.set_default_model` returns `False` in every case — both
when no model with the given id exists (the `KeyError` branch) and when the
lookup succeeds and the default model is installed — so the return value
never distinguishes success from failure. -/
theorem set_default_model_always_false (st : SStructure) (model_id : ℤ) :
    (st.set_default_model model_id).2 = false ∧
    (st.set_default_model model_id).1.default_model =
      (if (st.model_dict.find? (fun kv => kv.1 = model_id)).isSome
        then some model_id else st.default_model) := by
  unfold SStructure.set_default_model
  cases h : st.model_dict.find? (fun kv => kv.1 = model_id) <;> simp [h]

/-- Witness for `set_default_model_always_false` (no hypotheses; included
for the concrete two-model structure with ids 1 and 2). -/
theorem set_default_model_always_false_witness :
    (SStructure.set_default_model
        ⟨[⟨1, true⟩, ⟨2, true⟩], [(1, ⟨1, true⟩), (2, ⟨2, true⟩)], some 1⟩
        2).2 = false ∧
    (SStructure.set_default_model
        ⟨[⟨1, true⟩, ⟨2, true⟩], [(1, ⟨1, true⟩), (2, ⟨2, true⟩)], some 1⟩
        2).1.default_model =
      (if (([( (1 : ℤ), SModel.mk 1 true), (2, SModel.mk 2 true)]).find?
            (fun kv => kv.1 = 2)).isSome
        then some 2 else some 1) :=
  set_default_model_always_false
    ⟨[⟨1, true⟩, ⟨2, true⟩], [(1, ⟨1, true⟩), (2, ⟨2, true⟩)], some 1⟩ 2

/-! ## Claim C8 -/

/-- C8: the code of `remove_model` contradicts its own docstring ("choose
the Model with the lowest model_id as the new default Model") on reachable
delay-sorted states: after adding models 2, 3, 1 with the default
`delay_sort=True` and removing the default model 2, the code re-elects
`model_list[0]`, which is model 3, although the lowest remaining id is 1.
Both directions of the parent/child link of the removed model are severed
(`structure_ref = false`, and the model is gone from list and dict). -/
theorem remove_model_picks_first_not_lowest :
    (do
      let s1 ← SStructure.empty.add_model 2 true
      let s2 ← s1.add_model 3 true
      let s3 ← s2.add_model 1 true
      let (s4, removed) ← s3.remove_model 2
      pure (s4.default_model, s4.model_list.map SModel.model_id,
        s4.model_dict.map Prod.fst, removed.structure_ref)
      : Except String _) =
    .ok (some 3, [3, 1], [3, 1], false) := by
  rfl

/-! ## Claim C1 — tokenizer lemmas -/

theorem splitLoop_element_append (acc t' cs)
    (ht : ∀ c ∈ t', pyIsWhitespace c = false) (hcs : NextWs cs) :
    splitLoop (.element acc) (t' ++ cs) =
      (⟨acc ++ t'⟩, .token) :: splitLoop .whitespace cs := by
  induction t' generalizing acc with
  | nil =>
      cases cs with
      | nil => simp [splitLoop]
      | cons c cs' =>
          have hc : pyIsWhitespace c = true := hcs
          simp [splitLoop, hc]
  | cons c0 t'' ih =>
      have h0 : pyIsWhitespace c0 = false := ht c0 (List.mem_cons_self _ _)
      rw [List.cons_append]
      show splitLoop (.element acc) (c0 :: (t'' ++ cs)) = _
      rw [splitLoop]
      simp only [h0, Bool.false_eq_true, if_false]
      rw [ih (acc ++ [c0]) (fun c hc => ht c (List.mem_cons_of_mem _ hc))]
      simp

theorem lineForm_tokens {ts cs} (h : LineForm ts cs) :
    splitLoop .whitespace cs =
      ts.map (fun t => ((⟨t⟩ : String), ElemKind.token)) := by
  induction h with
  | nil => rfl
  | ws hc _ ih =>
      rw [splitLoop]
      simp only [hc, if_true]
      exact ih
  | @tok t cs' ts' ht hnext _ ih =>
      obtain ⟨hne, hall, hhead⟩ := ht
      cases t with
      | nil => exact absurd rfl hne
      | cons c0 t'' =>
          have h0 : pyIsWhitespace c0 = false :=
            hall c0 (List.mem_cons_self _ _)
          have hq : pyQuotes.contains c0 = false := (hhead c0 rfl).1
          rw [List.cons_append]
          show splitLoop .whitespace (c0 :: (t'' ++ cs')) = _
          rw [splitLoop]
          simp only [h0, hq, Bool.false_eq_true, if_false]
          rw [splitLoop_element_append [c0] t'' cs'
            (fun c hc => hall c (List.mem_cons_of_mem _ hc)) hnext]
          simp only [List.map_cons, List.singleton_append, ih]

theorem lineForm_ws_prepend {ws cs ts}
    (hws : ∀ c ∈ ws, pyIsWhitespace c = true) (h : LineForm ts cs) :
    LineForm ts (ws ++ cs) := by
  induction ws with
  | nil => exact h
  | cons c ws' ih =>
      exact LineForm.ws (hws c (List.mem_cons_self _ _))
        (ih (fun c hc => hws c (List.mem_cons_of_mem _ hc)))

theorem lineForm_all_ws {ws} (hws : ∀ c ∈ ws, pyIsWhitespace c = true) :
    LineForm [] ws := by
  have := lineForm_ws_prepend hws LineForm.nil
  simpa using this

/-- `split` of a line (with its newline) in `LineForm` is its token
list. -/
theorem split_of_lineForm {ts : List (List Char)} {l : String}
    (h : LineForm ts (l.data ++ ['\n'])) :
    split (l ++ "\n") = ts.map (fun t => ((⟨t⟩ : String), ElemKind.token)) := by
  unfold split
  have hdata : (l ++ "\n").data = l.data ++ ['\n'] := by
    simp [String.data_append]
  rw [hdata]
  exact lineForm_tokens h

/-- Away from comment and block lines, the element stream is the
concatenation of the per-line `split`s. -/
theorem elementsOfLines_eq_flatMap {ls : List String}
    (h : ∀ l ∈ ls, pyStartsWith l "#" = false ∧ pyStartsWith l ";" = false) :
    elementsOfLines ls = ls.flatMap (fun l => split (l ++ "\n")) := by
  induction ls with
  | nil => rfl
  | cons l ls' ih =>
      obtain ⟨h1, h2⟩ := h l (List.mem_cons_self _ _)
      rw [elementsOfLines]
      simp only [h1, h2, Bool.false_eq_true, if_false, List.flatMap_cons]
      rw [ih (fun l hl => h l (List.mem_cons_of_mem _ hl))]

theorem bufChars_ext {ts cs} (h : BufChars ts cs) :
    ∀ (tail : List Char) (tstail : List (List Char)),
      NextWs tail → LineForm tstail tail →
      LineForm (ts ++ tstail) (cs ++ tail) := by
  induction h with
  | @first t ws ht hws =>
      intro tail tstail hnext hlf
      rw [List.append_assoc]
      refine LineForm.tok ht ?_ (lineForm_ws_prepend hws hlf)
      cases ws with
      | nil => simpa using hnext
      | cons c ws' => exact hws c (List.mem_cons_self _ _)
  | @more ts cs t ws hbc ht hws ih =>
      intro tail tstail hnext hlf
      have hinner : LineForm (t :: tstail) (t ++ (ws ++ tail)) := by
        refine LineForm.tok ht ?_ (lineForm_ws_prepend hws hlf)
        cases ws with
        | nil => simpa using hnext
        | cons c ws' => exact hws c (List.mem_cons_self _ _)
      have hsp : LineForm (t :: tstail)
          (' ' :: ' ' :: (t ++ (ws ++ tail))) :=
        LineForm.ws (by decide) (LineForm.ws (by decide) hinner)
      have := ih (' ' :: ' ' :: (t ++ (ws ++ tail))) (t :: tstail)
        (by simp [NextWs]; decide) hsp
      have hassoc : cs ++ (' ' :: ' ' :: (t ++ (ws ++ tail))) =
          (cs ++ ' ' :: ' ' :: (t ++ ws)) ++ tail := by
        simp
      rw [hassoc] at this
      simpa using this

theorem bufChars_flush {ts cs} (h : BufChars ts cs) :
    LineForm ts (cs ++ ['\n']) := by
  have := bufChars_ext h ['\n'] [] (by show pyIsWhitespace '\n' = true; decide)
    (lineForm_all_ws (by intro c hc; simp at hc; subst hc; decide))
  simpa using this

theorem bufChars_starts {ts cs} (h : BufChars ts cs) :
    ∃ c, cs.head? = some c ∧ pyQuotes.contains c = false ∧
      c ≠ '#' ∧ c ≠ ';' := by
  induction h with
  | @first t ws ht _ =>
      obtain ⟨hne, _, hhead⟩ := ht
      cases t with
      | nil => exact absurd rfl hne
      | cons c0 t' =>
          exact ⟨c0, by simp, (hhead c0 rfl).1, (hhead c0 rfl).2.1,
            (hhead c0 rfl).2.2⟩
  | more _ _ _ ih =>
      obtain ⟨c, hc, hprops⟩ := ih
      refine ⟨c, ?_, hprops⟩
      rename_i cs' _ _ _ _ _
      cases cs' with
      | nil => simp at hc
      | cons a l => simpa using hc

theorem pyStartsWith_head_ne {s : String} {c0 p : Char}
    (h : s.data.head? = some c0) (hne : c0 ≠ p) :
    pyStartsWith s ⟨[p]⟩ = false := by
  unfold pyStartsWith
  cases hd : s.data with
  | nil => rw [hd] at h; simp at h
  | cons a l =>
      rw [hd] at h
      simp only [List.head?_cons, Option.some.injEq] at h
      subst h
      simp [hne]

/-- On a round-trippable value `fix_value` is the identity. -/
theorem fix_value_eq_self {v : String} (hv : goodValue v) : fix_value v = v := by
  obtain ⟨hne, _, hchars, _⟩ := hv
  unfold fix_value
  have hlen : v.length ≠ 0 := by
    intro h
    exact hne (by
      cases v with
      | mk data => cases data with
        | nil => rfl
        | cons a l => simp [String.length] at h)
  rw [if_neg hlen]
  have hmem : ' ' ∉ v.data := by
    intro hm
    have := (hchars ' ' hm).1
    simp [pyIsWhitespace, pyWhitespaceChars] at this
  simp [hmem]

/-- A round-trippable value is a well-behaved token. -/
theorem goodValue_tokC {v : String} (hv : goodValue v) : GoodTokC v.data := by
  obtain ⟨hne, _, hchars, hu, hh, hs, _⟩ := hv
  refine ⟨?_, fun c hc => (hchars c hc).1, ?_⟩
  · intro h
    exact hne (by cases v; simp_all)
  · intro c hc
    have hhd : pyHead v = c := by
      unfold pyHead
      cases hd : v.data with
      | nil => rw [hd] at hc; simp at hc
      | cons a l =>
          rw [hd] at hc
          simp only [List.head?_cons, Option.some.injEq] at hc
          simp [hc]
    refine ⟨(hchars c ?_).2, hhd ▸ hh, hhd ▸ hs⟩
    · cases hd : v.data with
      | nil => rw [hd] at hc; simp at hc
      | cons a l =>
          rw [hd] at hc
          simp only [List.head?_cons, Option.some.injEq] at hc
          subst hc
          exact List.mem_cons_self _ _

/-- A tag `_table.column` over well-behaved names is a well-behaved
token. -/
theorem tag_tokC {tn c : String} (h1 : goodName tn) (h2 : goodName c) :
    GoodTokC ("_" ++ tn ++ "." ++ c).data := by
  have hdata : ("_" ++ tn ++ "." ++ c).data =
      '_' :: (tn.data ++ '.' :: c.data) := by
    simp [String.data_append]
  rw [hdata]
  refine ⟨by simp, ?_, ?_⟩
  · intro ch hch
    rcases List.mem_cons.mp hch with rfl | hch'
    · decide
    · rcases List.mem_append.mp hch' with h | h
      · exact (h1 ch h).1
      · rcases List.mem_cons.mp h with rfl | h'
        · decide
        · exact (h2 ch h').1
  · intro ch hch
    simp only [List.head?_cons, Option.some.injEq] at hch
    subst hch
    refine ⟨by decide, by decide, by decide⟩

/-- A `data_<name>` header over a well-behaved name is a well-behaved
token. -/
theorem dataHeader_tokC {n : String} (h : goodName n) :
    GoodTokC ("data_" ++ n).data := by
  have hdata : ("data_" ++ n).data =
      'd' :: 'a' :: 't' :: 'a' :: '_' :: n.data := by
    simp [String.data_append]
  rw [hdata]
  refine ⟨by simp, ?_, ?_⟩
  · intro ch hch
    rcases List.mem_cons.mp hch with rfl | hch'
    · decide
    · rcases List.mem_cons.mp hch' with rfl | hch'
      · decide
      · rcases List.mem_cons.mp hch' with rfl | hch'
        · decide
        · rcases List.mem_cons.mp hch' with rfl | hch'
          · decide
          · rcases List.mem_cons.mp hch' with rfl | hch'
            · decide
            · exact (h ch hch').1
  · intro ch hch
    simp only [List.head?_cons, Option.some.injEq] at hch
    subst hch
    refine ⟨by decide, by decide, by decide⟩

/-- `pyLjust` appends spaces. -/
theorem pyLjust_data (s : String) (w : ℕ) :
    (pyLjust s w).data = s.data ++ List.replicate (w - s.length) ' ' := by
  simp [pyLjust, String.data_append]

theorem mkData (s : String) : (⟨s.data⟩ : String) = s := rfl

theorem linesToks_append {ls1 ls2 ts1 ts2}
    (h1 : LinesToks ls1 ts1) (h2 : LinesToks ls2 ts2) :
    LinesToks (ls1 ++ ls2) (ts1 ++ ts2) := by
  induction h1 with
  | nil => simpa using h2
  | line hf hh hs _ ih =>
      rw [List.cons_append, List.append_assoc]
      exact LinesToks.line hf hh hs ih
  | comment hh _ ih => exact LinesToks.comment hh ih

theorem linesToks_single {l ts} (hf : LineForm ts (l.data ++ ['\n']))
    (hh : pyStartsWith l "#" = false) (hs : pyStartsWith l ";" = false) :
    LinesToks [l] ts := by
  have := LinesToks.line hf hh hs LinesToks.nil
  simpa using this

/-- The element stream of tokenized lines. -/
theorem elementsOfLines_of_linesToks {ls ts} (h : LinesToks ls ts) :
    elementsOfLines ls =
      ts.map (fun t => ((⟨t⟩ : String), ElemKind.token)) := by
  induction h with
  | nil => rfl
  | @line l ls' ts1 ts2 hf hh hs _ ih =>
      rw [elementsOfLines]
      simp only [hh, hs, Bool.false_eq_true, if_false]
      rw [ih, split_of_lineForm hf, List.map_append]
  | comment hh _ ih =>
      rw [elementsOfLines]
      simp only [hh, if_true]
      exact ih

theorem foldl_max_le {α : Type} (f : α → ℕ) (b : ℕ) :
    ∀ (l : List α) (a : ℕ), a ≤ b → (∀ x ∈ l, f x ≤ b) →
      l.foldl (fun m x => max m (f x)) a ≤ b := by
  intro l
  induction l with
  | nil => intro a ha _; simpa using ha
  | cons x l' ih =>
      intro a ha hl
      rw [List.foldl_cons]
      exact ih _ (max_le ha (hl x (List.mem_cons_self _ _)))
        (fun y hy => hl y (List.mem_cons_of_mem _ hy))

theorem le_foldl_max_init {α : Type} (f : α → ℕ) :
    ∀ (l : List α) (a : ℕ), a ≤ l.foldl (fun m x => max m (f x)) a := by
  intro l
  induction l with
  | nil => intro a; simp
  | cons x l' ih =>
      intro a
      rw [List.foldl_cons]
      exact le_trans (le_max_left _ _) (ih (max a (f x)))

theorem le_foldl_max {α : Type} (f : α → ℕ) :
    ∀ (l : List α) (a : ℕ) (x : α), x ∈ l →
      f x ≤ l.foldl (fun m x => max m (f x)) a := by
  intro l
  induction l with
  | nil => intro a x hx; simp at hx
  | cons y l' ih =>
      intro a x hx
      rw [List.foldl_cons]
      rcases List.mem_cons.mp hx with rfl | hx'
      · exact le_trans (le_max_right _ _) (le_foldl_max_init f l' _)
      · exact ih _ x hx'

/-- When a row binds a column, the writer reads that binding. -/
theorem writerVal_mem {row : CIFRow} {col : String}
    (h : col ∈ row.map Prod.fst) : (col, writerVal row col) ∈ row := by
  induction row with
  | nil => simp at h
  | cons kv rest ih =>
      obtain ⟨k, v⟩ := kv
      by_cases hk : k = col
      · subst hk
        have heq : writerVal ((k, v) :: rest) k = v := by
          unfold writerVal assocGet
          rw [List.find?_cons_of_pos _ (by simp)]
          rfl
        rw [heq]
        exact List.mem_cons_self _ _
      · have hmem : col ∈ rest.map Prod.fst := by
          simp only [List.map_cons, List.mem_cons] at h
          rcases h with h' | h'
          · exact absurd h'.symm hk
          · exact h'
        have heq : writerVal ((k, v) :: rest) col = writerVal rest col := by
          unfold writerVal assocGet
          rw [List.find?_cons_of_neg _ (by simp [hk])]
        rw [heq]
        exact List.mem_cons_of_mem _ (ih hmem)

theorem lineForm_token_ws {t ws : List Char} (ht : GoodTokC t)
    (hws : ∀ c ∈ ws, pyIsWhitespace c = true) : LineForm [t] (t ++ ws) := by
  refine LineForm.tok ht ?_ (lineForm_all_ws hws)
  cases ws with
  | nil => trivial
  | cons c ws' => exact hws c (List.mem_cons_self _ _)

theorem tokC_starts {l : String} (h : GoodTokC l.data) :
    pyStartsWith l "#" = false ∧ pyStartsWith l ";" = false := by
  obtain ⟨hne, _, hhd⟩ := h
  cases hd : l.data with
  | nil => exact absurd hd hne
  | cons c rest =>
      have hc : l.data.head? = some c := by rw [hd]; rfl
      have := hhd c (by rw [hd]; rfl)
      exact ⟨pyStartsWith_head_ne hc this.2.1, pyStartsWith_head_ne hc this.2.2⟩

/-- A single well-behaved token on its own line. -/
theorem linesToks_token_line {l : String} (h : GoodTokC l.data) :
    LinesToks [l] [l.data] := by
  have hlf : LineForm [l.data] (l.data ++ ['\n']) :=
    lineForm_token_ws h (by intro c hc; simp at hc; subst hc; decide)
  exact linesToks_single hlf (tokC_starts h).1 (tokC_starts h).2

/-- A single well-behaved token, left-justified, on its own line. -/
theorem linesToks_ljust_line {l : String} (w : ℕ) (h : GoodTokC l.data) :
    LinesToks [pyLjust l w] [l.data] := by
  have hws : ∀ c ∈ List.replicate (w - l.length) ' ' ++ ['\n'],
      pyIsWhitespace c = true := by
    intro c hc
    rcases List.mem_append.mp hc with h' | h'
    · rw [List.eq_of_mem_replicate h']; decide
    · simp at h'; subst h'; decide
  have hlf : LineForm [l.data] ((pyLjust l w).data ++ ['\n']) := by
    rw [pyLjust_data, List.append_assoc]
    exact lineForm_token_ws h hws
  obtain ⟨hne, _, hhd⟩ := h
  cases hd : l.data with
  | nil => exact absurd hd hne
  | cons c rest =>
      rw [hd] at hlf
      have hc : (pyLjust l w).data.head? = some c := by
        rw [pyLjust_data, hd]; rfl
      have := hhd c (by rw [hd]; rfl)
      exact linesToks_single hlf (pyStartsWith_head_ne hc this.2.1)
        (pyStartsWith_head_ne hc this.2.2)

theorem bufChars_ne_nil {ts cs} (h : BufChars ts cs) : cs ≠ [] := by
  obtain ⟨c, hc, _⟩ := bufChars_starts h
  intro he
  rw [he] at hc
  simp at hc

theorem mkLength (l : List Char) : (⟨l⟩ : String).length = l.length := rfl

theorem pyLjust_length {s : String} {w : ℕ} (h : s.length ≤ w) :
    (pyLjust s w).length = w := by
  unfold pyLjust
  rw [String.length_append]
  show s.data.length + (List.replicate (w - s.data.length) ' ').length = w
  rw [List.length_replicate]
  have h' : s.data.length ≤ w := h
  omega

/-- `writeLoopValue`, plain path: full width left, value written at the
start of the line. -/
theorem writeLoopValue_plain {st : WriterState} {vmaxi : ℕ} (val : String)
    (h1 : ¬ ((vmaxi : ℤ) + 2 > st.wlen ∧ st.wlen < (MAX_LINE : ℤ) - 1))
    (h2 : ¬ ((vmaxi : ℤ) > (MAX_LINE : ℤ) - 1))
    (h3 : ¬ (st.wlen < (MAX_LINE : ℤ) - 1)) :
    writeLoopValue st vmaxi val =
      ⟨st.lines, st.buf ++ pyLjust (fix_value val) vmaxi,
        st.wlen - (vmaxi : ℤ)⟩ := by
  unfold writeLoopValue
  rw [if_neg h1, if_neg h2, if_neg h3]
  rfl

/-- `writeLoopValue`, mid-line path: the value fits after the 2-space
inter-column spacing. -/
theorem writeLoopValue_spaced {st : WriterState} {vmaxi : ℕ} (val : String)
    (h1 : ¬ ((vmaxi : ℤ) + 2 > st.wlen ∧ st.wlen < (MAX_LINE : ℤ) - 1))
    (h2 : ¬ ((vmaxi : ℤ) > (MAX_LINE : ℤ) - 1))
    (h3 : st.wlen < (MAX_LINE : ℤ) - 1) :
    writeLoopValue st vmaxi val =
      ⟨st.lines, st.buf ++ pyLjust "" 2 ++ pyLjust (fix_value val) vmaxi,
        st.wlen - 2 - (vmaxi : ℤ)⟩ := by
  unfold writeLoopValue
  rw [if_neg h1, if_neg h2, if_pos h3]
  rfl

/-- `writeLoopValue`, wrap path: the column does not fit, the open line is
flushed first. -/
theorem writeLoopValue_wrap {st : WriterState} {vmaxi : ℕ} (val : String)
    (h1 : (vmaxi : ℤ) + 2 > st.wlen ∧ st.wlen < (MAX_LINE : ℤ) - 1)
    (h2 : ¬ ((vmaxi : ℤ) > (MAX_LINE : ℤ) - 1)) :
    writeLoopValue st vmaxi val =
      ⟨st.lines ++ [st.buf ++ ""], "" ++ pyLjust (fix_value val) vmaxi,
        (MAX_LINE : ℤ) - 1 - (vmaxi : ℤ)⟩ := by
  unfold writeLoopValue
  rw [if_pos h1, if_neg h2]
  simp only [wWriteln, wWrite]
  rw [if_neg (by simp)]

/-- One good value through `writeLoopValue` preserves the mid-row
invariant and leaves the buffer open. -/
theorem writeLoopValue_inv {base : List String} {toks : List (List Char)}
    {st : WriterState} {vmaxi : ℕ} {val : String}
    (hst : MidInv base toks st) (hval : goodValue val)
    (hle : val.length ≤ vmaxi) (hvm : vmaxi ≤ MAX_LINE - 1) :
    MidInvB base (toks ++ [val.data]) (writeLoopValue st vmaxi val) := by
  obtain ⟨newLines, fts, bts, hlines, hlt, htoks, hcase⟩ := hst
  have hfix : fix_value val = val := fix_value_eq_self hval
  have htok : GoodTokC val.data := goodValue_tokC hval
  have hvmz : (vmaxi : ℤ) ≤ (MAX_LINE : ℤ) - 1 := by
    simp only [MAX_LINE] at hvm ⊢
    omega
  have h2 : ¬ ((vmaxi : ℤ) > (MAX_LINE : ℤ) - 1) := not_lt.mpr hvmz
  have hwsrep : ∀ c ∈ List.replicate (vmaxi - val.length) ' ',
      pyIsWhitespace c = true := by
    intro c hc
    rw [List.eq_of_mem_replicate hc]
    decide
  have hljdata : (pyLjust (fix_value val) vmaxi).data =
      val.data ++ List.replicate (vmaxi - val.length) ' ' := by
    rw [hfix, pyLjust_data]
  have hljlen : (pyLjust (fix_value val) vmaxi).length = vmaxi := by
    rw [hfix]
    exact pyLjust_length hle
  rcases hcase with ⟨hbe, hbte, hwl⟩ | ⟨hbc, hwl⟩
  · have h1 : ¬ (((vmaxi : ℤ) + 2 > st.wlen) ∧
        st.wlen < (MAX_LINE : ℤ) - 1) := by
      rw [hwl]; simp
    have h3 : ¬ (st.wlen < (MAX_LINE : ℤ) - 1) := by rw [hwl]; simp
    rw [writeLoopValue_plain val h1 h2 h3]
    refine ⟨newLines, fts, [val.data], by simpa using hlines, hlt,
      by rw [htoks, hbte]; simp, ?_, ?_⟩
    · show BufChars [val.data] (st.buf ++ pyLjust (fix_value val) vmaxi).data
      rw [String.data_append, hbe, hljdata]
      exact (List.nil_append _) ▸ BufChars.first htok hwsrep
    · show st.wlen - (vmaxi : ℤ) = (MAX_LINE : ℤ) - 1 -
        ((st.buf ++ pyLjust (fix_value val) vmaxi).length : ℤ)
      rw [hwl, String.length_append, hbe, hljlen]
      simp
  · have hbne : st.buf.data ≠ [] := bufChars_ne_nil hbc
    have hblen1 : 1 ≤ st.buf.length :=
      Nat.one_le_iff_ne_zero.mpr (fun h0 =>
        hbne (List.eq_nil_of_length_eq_zero h0))
    have hblen1z : (1 : ℤ) ≤ (st.buf.length : ℤ) := by exact_mod_cast hblen1
    have hwl79 : st.wlen < (MAX_LINE : ℤ) - 1 := by rw [hwl]; omega
    by_cases hwrap : (vmaxi : ℤ) + 2 > st.wlen
    · rw [writeLoopValue_wrap val ⟨hwrap, hwl79⟩ h2]
      have hdata : (st.buf ++ "").data = st.buf.data := by
        simp [String.data_append]
      obtain ⟨c, hc, _, hh, hs⟩ := bufChars_starts hbc
      have hc' : (st.buf ++ "").data.head? = some c := by
        rw [hdata]; exact hc
      have hlineBuf : LinesToks [st.buf ++ ""] bts :=
        linesToks_single (by rw [hdata]; exact bufChars_flush hbc)
          (pyStartsWith_head_ne hc' hh) (pyStartsWith_head_ne hc' hs)
      refine ⟨newLines ++ [st.buf ++ ""], fts ++ bts, [val.data],
        by rw [hlines]; simp, linesToks_append hlt hlineBuf,
        by rw [htoks], ?_, ?_⟩
      · show BufChars [val.data] ("" ++ pyLjust (fix_value val) vmaxi).data
        rw [String.data_append, hljdata]
        exact (List.nil_append _) ▸ BufChars.first htok hwsrep
      · show (MAX_LINE : ℤ) - 1 - (vmaxi : ℤ) = (MAX_LINE : ℤ) - 1 -
          ((("" ++ pyLjust (fix_value val) vmaxi)).length : ℤ)
        rw [String.length_append, hljlen]
        simp
    · have h1 : ¬ (((vmaxi : ℤ) + 2 > st.wlen) ∧
          st.wlen < (MAX_LINE : ℤ) - 1) := fun hcon => hwrap hcon.1
      rw [writeLoopValue_spaced val h1 h2 hwl79]
      refine ⟨newLines, fts, bts ++ [val.data], by simpa using hlines, hlt,
        by rw [htoks]; simp, ?_, ?_⟩
      · show BufChars (bts ++ [val.data])
          (st.buf ++ pyLjust "" 2 ++ pyLjust (fix_value val) vmaxi).data
        have hsp : (pyLjust "" 2).data = [' ', ' '] := by
          rw [pyLjust_data]
          rfl
        have hd2 : (st.buf ++ pyLjust "" 2 ++
            pyLjust (fix_value val) vmaxi).data =
            st.buf.data ++ ' ' :: ' ' ::
              (val.data ++ List.replicate (vmaxi - val.length) ' ') := by
          rw [String.data_append, String.data_append, hsp, hljdata]
          simp
        rw [hd2]
        exact BufChars.more hbc htok hwsrep
      · show st.wlen - 2 - (vmaxi : ℤ) = (MAX_LINE : ℤ) - 1 -
          (((st.buf ++ pyLjust "" 2 ++
            pyLjust (fix_value val) vmaxi)).length : ℤ)
        have hsplen : (pyLjust "" 2).length = 2 := rfl
        rw [String.length_append, String.length_append, hsplen, hljlen, hwl]
        push_cast
        ring

theorem midInvB_midInv {base toks st} (h : MidInvB base toks st) :
    MidInv base toks st := by
  obtain ⟨a, b, c, h1, h2, h3, h4⟩ := h
  exact ⟨a, b, c, h1, h2, h3, Or.inr h4⟩

/-- A whole row of good values through the column fold. -/
theorem writeLoopValue_foldl {t : CIFTable} {row : CIFRow} :
    ∀ (cols : List String) {toks : List (List Char)} {base : List String}
      {st : WriterState},
      MidInv base toks st →
      (∀ col ∈ cols, goodValue (writerVal row col) ∧
        (writerVal row col).length ≤ vmaxOf t col ∧
        vmaxOf t col ≤ MAX_LINE - 1) →
      cols ≠ [] →
      MidInvB base
        (toks ++ cols.map fun col => (writerVal row col).data)
        (cols.foldl (fun st col =>
          writeLoopValue st (vmaxOf t col) (writerVal row col)) st) := by
  intro cols
  induction cols with
  | nil => intro toks base st _ _ hne; exact absurd rfl hne
  | cons c cols' ih =>
      intro toks base st hst hcols _
      obtain ⟨hg, hle, hvm⟩ := hcols c (List.mem_cons_self _ _)
      have hstep := writeLoopValue_inv hst hg hle hvm
      rw [List.foldl_cons]
      cases cols' with
      | nil => simpa using hstep
      | cons d cols'' =>
          have hrest := ih (midInvB_midInv hstep)
            (fun col hcol => hcols col (List.mem_cons_of_mem _ hcol))
            (by simp)
          have he : (toks ++ [(writerVal row c).data]) ++
              (d :: cols'').map (fun col => (writerVal row col).data) =
              toks ++ (c :: d :: cols'').map
                (fun col => (writerVal row col).data) := by
            simp
          rw [← he]
          exact hrest

/-- A flushed open buffer is a tokenizable emitted line. -/
theorem bufChars_linesToks {b : String} {ts} (h : BufChars ts b.data) :
    LinesToks [b ++ ""] ts := by
  have hdata : (b ++ "").data = b.data := by simp [String.data_append]
  obtain ⟨c, hc, _, hh, hs⟩ := bufChars_starts h
  have hc' : (b ++ "").data.head? = some c := by rw [hdata]; exact hc
  exact linesToks_single (by rw [hdata]; exact bufChars_flush h)
    (pyStartsWith_head_ne hc' hh) (pyStartsWith_head_ne hc' hs)

/-- One row of good values through `writeLoopRow` preserves the
between-rows invariant and appends exactly the row's values. -/
theorem writeLoopRow_inv {t : CIFTable} {toks : List (List Char)}
    {st : WriterState} {row : CIFRow}
    (hst : RowsInv toks st)
    (hcols : ∀ col ∈ t.columns, goodValue (writerVal row col) ∧
      (writerVal row col).length ≤ vmaxOf t col ∧
      vmaxOf t col ≤ MAX_LINE - 1)
    (hne : t.columns ≠ []) :
    RowsInv (toks ++ t.columns.map fun col => (writerVal row col).data)
      (writeLoopRow t st row) := by
  obtain ⟨hbe, hlt⟩ := hst
  have hst1 : MidInv st.lines []
      ({ st with wlen := (MAX_LINE : ℤ) - 1 }) :=
    ⟨[], [], [], by simp, LinesToks.nil, by simp,
      Or.inl ⟨by simp [hbe], rfl, rfl⟩⟩
  have hfold := writeLoopValue_foldl t.columns hst1 hcols hne
  obtain ⟨newLines, fts, bts, hlines2, hlt2, htoks2, hbc2, hwl2⟩ := hfold
  have hmap : t.columns.map (fun col => (writerVal row col).data) =
      fts ++ bts := by simpa using htoks2
  unfold writeLoopRow
  have hbufne : (t.columns.foldl (fun st col =>
      writeLoopValue st (vmaxOf t col) (writerVal row col))
        { st with wlen := (MAX_LINE : ℤ) - 1 }).buf.data ≠ [] :=
    bufChars_ne_nil hbc2
  have hblen1 : (1 : ℤ) ≤ ((t.columns.foldl (fun st col =>
      writeLoopValue st (vmaxOf t col) (writerVal row col))
        { st with wlen := (MAX_LINE : ℤ) - 1 }).buf.length : ℤ) := by
    have := Nat.one_le_iff_ne_zero.mpr (fun h0 =>
      hbufne (List.eq_nil_of_length_eq_zero h0))
    exact_mod_cast this
  have hw : (t.columns.foldl (fun st col =>
      writeLoopValue st (vmaxOf t col) (writerVal row col))
        { st with wlen := (MAX_LINE : ℤ) - 1 }).wlen <
      (MAX_LINE : ℤ) - 1 := by
    rw [hwl2]; omega
  rw [if_pos hw]
  refine ⟨rfl, ?_⟩
  show LinesToks ((t.columns.foldl (fun st col =>
      writeLoopValue st (vmaxOf t col) (writerVal row col))
        { st with wlen := (MAX_LINE : ℤ) - 1 }).lines ++ [_ ++ ""]) _
  rw [hlines2, hmap]
  have hlast := bufChars_linesToks hbc2
  have := linesToks_append (linesToks_append hlt hlt2) hlast
  simp only [List.append_assoc] at this ⊢
  exact this

/-- All rows of good values through the row fold. -/
theorem writeLoopRow_foldl {t : CIFTable} :
    ∀ (rows : List CIFRow) {toks : List (List Char)} {st : WriterState},
      RowsInv toks st →
      (∀ row ∈ rows, ∀ col ∈ t.columns, goodValue (writerVal row col) ∧
        (writerVal row col).length ≤ vmaxOf t col ∧
        vmaxOf t col ≤ MAX_LINE - 1) →
      t.columns ≠ [] →
      RowsInv (toks ++ rows.flatMap fun row =>
          t.columns.map fun col => (writerVal row col).data)
        (rows.foldl (writeLoopRow t) st) := by
  intro rows
  induction rows with
  | nil => intro toks st hst _ _; simpa using hst
  | cons r rows' ih =>
      intro toks st hst hrows hne
      have hstep := writeLoopRow_inv hst
        (hrows r (List.mem_cons_self _ _)) hne
      have hrest := ih hstep
        (fun row hrow => hrows row (List.mem_cons_of_mem _ hrow)) hne
      rw [List.foldl_cons]
      have he : (toks ++ t.columns.map fun col => (writerVal r col).data) ++
          rows'.flatMap (fun row =>
            t.columns.map fun col => (writerVal row col).data) =
          toks ++ (r :: rows').flatMap (fun row =>
            t.columns.map fun col => (writerVal row col).data) := by
        simp
      rw [← he]
      exact hrest

/-- The per-value side conditions a good table guarantees the loop
writer. -/
theorem goodTable_val_facts {t : CIFTable} (hg : goodTable t) :
    ∀ row ∈ t.rows, ∀ col ∈ t.columns, goodValue (writerVal row col) ∧
      (writerVal row col).length ≤ vmaxOf t col ∧
      vmaxOf t col ≤ MAX_LINE - 1 := by
  obtain ⟨_, _, _, _, _, hrows⟩ := hg
  intro row hrow col hcol
  have hgood : ∀ row' ∈ t.rows, goodValue (writerVal row' col) := by
    intro row' hrow'
    obtain ⟨hmapfst', hvals'⟩ := hrows row' hrow'
    exact hvals' _ (writerVal_mem (by rw [hmapfst']; exact hcol))
  have hgv := hgood row hrow
  refine ⟨hgv, ?_, ?_⟩
  · have hle := le_foldl_max
      (fun row => (fix_value (writerVal row col)).length) t.rows 0 row hrow
    have hle2 : (fix_value (writerVal row col)).length ≤ vmaxOf t col := hle
    rw [fix_value_eq_self hgv] at hle2
    exact hle2
  · apply foldl_max_le (fun row => (fix_value (writerVal row col)).length)
      (MAX_LINE - 1) t.rows 0 (by simp [MAX_LINE])
    intro row' hrow'
    have hgv' := hgood row' hrow'
    rw [fix_value_eq_self hgv']
    exact hgv'.2.1

/-- A list of single-token lines. -/
theorem linesToks_token_lines {ls : List String}
    (h : ∀ l ∈ ls, GoodTokC l.data) :
    LinesToks ls (ls.map String.data) := by
  induction ls with
  | nil => exact LinesToks.nil
  | cons l ls' ih =>
      have := linesToks_append (linesToks_token_line
        (h l (List.mem_cons_self _ _)))
        (ih (fun x hx => h x (List.mem_cons_of_mem _ hx)))
      simpa using this

theorem linesToks_flatMap {α : Type} {g : α → List String}
    {h : α → List (List Char)} {l : List α}
    (H : ∀ x ∈ l, LinesToks (g x) (h x)) :
    LinesToks (l.flatMap g) (l.flatMap h) := by
  induction l with
  | nil => exact LinesToks.nil
  | cons x l' ih =>
      simp only [List.flatMap_cons]
      exact linesToks_append (H x (List.mem_cons_self _ _))
        (ih (fun y hy => H y (List.mem_cons_of_mem _ hy)))

theorem map_mk_data (l : List String) :
    (l.map String.data).map
        (fun t => ((⟨t⟩ : String), ElemKind.token)) =
      l.map (fun s => (s, ElemKind.token)) := by
  rw [List.map_map]
  rfl

theorem loop_tokC : GoodTokC "loop_".data := by
  refine ⟨by decide, by decide, ?_⟩
  intro c hc
  have h0 : ("loop_".data).head? = some 'l' := rfl
  rw [h0] at hc
  have := Option.some.inj hc
  subst this
  refine ⟨by decide, by decide, by decide⟩

/-- The tags of a good table are well-behaved tokens. -/
theorem goodTable_tag_tokC {t : CIFTable} (hg : goodTable t) {col : String}
    (hcol : col ∈ t.columns) :
    GoodTokC ("_" ++ tableNameStr t ++ "." ++ col).data := by
  obtain ⟨⟨n, hn, hgn⟩, _, _, hcols, _, _⟩ := hg
  have hname : tableNameStr t = n := by rw [tableNameStr, hn]; rfl
  rw [hname]
  exact tag_tokC hgn (hcols col hcol)

/-- The lines of a written multi-row good table tokenize to `loop_`, the
tags, then the row-major values. -/
theorem write_multi_row_table_linesToks {t : CIFTable} (hg : goodTable t) :
    LinesToks (write_multi_row_table t)
      ("loop_".data ::
        ((t.columns.map fun col =>
            ("_" ++ tableNameStr t ++ "." ++ col).data) ++
          t.rows.flatMap fun row =>
            t.columns.map fun col => (writerVal row col).data)) := by
  have hcolsne := hg.2.1
  have hstart : RowsInv []
      (⟨[], "", (MAX_LINE : ℤ) - 1⟩ : WriterState) := ⟨rfl, LinesToks.nil⟩
  have hrowsinv := writeLoopRow_foldl t.rows hstart
    (fun row hrow => goodTable_val_facts hg row hrow) hcolsne
  obtain ⟨_, hlt⟩ := hrowsinv
  simp only [List.nil_append] at hlt
  have hgoodhdr : ∀ l ∈ ("loop_" ::
      t.columns.map fun col => "_" ++ tableNameStr t ++ "." ++ col),
      GoodTokC l.data := by
    intro l hl
    rcases List.mem_cons.mp hl with rfl | hl'
    · exact loop_tokC
    · obtain ⟨col, hcol, rfl⟩ := List.mem_map.mp hl'
      exact goodTable_tag_tokC hg hcol
  have hheader := linesToks_token_lines hgoodhdr
  have hall := linesToks_append hheader hlt
  unfold write_multi_row_table
  rw [List.map_cons, List.map_map] at hall
  have hfeq : List.map
      (String.data ∘ fun col => "_" ++ tableNameStr t ++ "." ++ col)
      t.columns =
      List.map (fun col => ("_" ++ tableNameStr t ++ "." ++ col).data)
        t.columns :=
    List.map_congr_left (fun a _ => rfl)
  rw [hfeq] at hall
  exact hall

/-- A padded tag followed by a value on one line holds exactly those two
tokens. -/
theorem linesToks_keyval_one_line {key val : String} {kmax : ℕ}
    (hkey : GoodTokC key.data) (hval : GoodTokC val.data)
    (hkm : key.length + 2 ≤ kmax) :
    LinesToks [pyLjust key kmax ++ val] [key.data, val.data] := by
  obtain ⟨m, hm⟩ : ∃ m, kmax - key.length = m + 2 :=
    ⟨kmax - key.length - 2, by omega⟩
  have hws : ∀ c ∈ List.replicate (kmax - key.length) ' ',
      pyIsWhitespace c = true := by
    intro c hc
    rw [List.eq_of_mem_replicate hc]
    decide
  have hdata : (pyLjust key kmax ++ val).data =
      key.data ++ (List.replicate (kmax - key.length) ' ' ++ val.data) := by
    rw [String.data_append, pyLjust_data, List.append_assoc]
  have hlf : LineForm [key.data, val.data]
      ((pyLjust key kmax ++ val).data ++ ['\n']) := by
    rw [hdata, List.append_assoc]
    refine LineForm.tok hkey ?_ ?_
    · rw [List.append_assoc, hm, List.replicate_succ]
      show pyIsWhitespace ' ' = true
      decide
    · rw [List.append_assoc]
      refine lineForm_ws_prepend hws ?_
      exact lineForm_token_ws hval
        (by intro c hc; simp at hc; subst hc; decide)
  obtain ⟨hne, _, hhd⟩ := hkey
  cases hd : key.data with
  | nil => exact absurd hd hne
  | cons c rest =>
      rw [hd] at hlf
      have hc : (pyLjust key kmax ++ val).data.head? = some c := by
        rw [hdata, hd]; rfl
      have hprops := hhd c (by rw [hd]; rfl)
      exact linesToks_single hlf (pyStartsWith_head_ne hc hprops.2.1)
        (pyStartsWith_head_ne hc hprops.2.2)

/-- The lines of a written single-row good table tokenize to the
tag/value pairs in column order. -/
theorem write_one_row_table_linesToks {t : CIFTable} (hg : goodTable t) :
    LinesToks (write_one_row_table t)
      (t.columns.flatMap fun col =>
        [("_" ++ tableNameStr t ++ "." ++ col).data,
         (writerVal (t.rows.getD 0 []) col).data]) := by
  have hrowmem : t.rows.getD 0 [] ∈ t.rows := by
    cases hr : t.rows with
    | nil => exact absurd hr hg.2.2.2.2.1
    | cons r rest => exact List.mem_cons_self _ _
  unfold write_one_row_table
  apply linesToks_flatMap
  intro col hcol
  have hkey := goodTable_tag_tokC hg hcol
  have hgv : goodValue (writerVal (t.rows.getD 0 []) col) := by
    obtain ⟨hmapfst, hvals⟩ := hg.2.2.2.2.2 _ hrowmem
    exact hvals _ (writerVal_mem (by rw [hmapfst]; exact hcol))
  have hfix := fix_value_eq_self hgv
  have hvtok := goodValue_tokC hgv
  have hkm : ("_" ++ tableNameStr t ++ "." ++ col).length + 2 ≤
      (t.columns.foldl
        (fun m col => max m ("_" ++ tableNameStr t ++ "." ++ col).length)
        0) + 2 := by
    have hb : ("_" ++ tableNameStr t ++ "." ++ col).length ≤
        t.columns.foldl
          (fun m col => max m ("_" ++ tableNameStr t ++ "." ++ col).length)
          0 :=
      le_foldl_max (fun col => ("_" ++ tableNameStr t ++ "." ++ col).length)
        t.columns 0 col hcol
    omega
  have h1 : ¬ ((fix_value (writerVal (t.rows.getD 0 []) col)).length >
      MAX_LINE - 1) := by
    rw [hfix]
    exact not_lt.mpr hgv.2.1
  rw [if_neg h1]
  by_cases h2 : ((fix_value (writerVal (t.rows.getD 0 []) col)).length : ℤ) >
      (MAX_LINE : ℤ) - ((t.columns.foldl
        (fun m col => max m ("_" ++ tableNameStr t ++ "." ++ col).length)
        0) + 2 : ℕ) - 1
  · rw [if_pos h2]
    have hvtok' : GoodTokC
        (fix_value (writerVal (t.rows.getD 0 []) col)).data := by
      rw [hfix]; exact hvtok
    have hthis := linesToks_append
      (linesToks_ljust_line ((t.columns.foldl
        (fun m col => max m ("_" ++ tableNameStr t ++ "." ++ col).length)
        0) + 2) hkey)
      (linesToks_token_line hvtok')
    nth_rewrite 2 [hfix] at hthis
    simpa using hthis
  · rw [if_neg h2]
    have hvtok' : GoodTokC
        (fix_value (writerVal (t.rows.getD 0 []) col)).data := by
      rw [hfix]; exact hvtok
    have hthis := linesToks_keyval_one_line hkey hvtok' hkm
    nth_rewrite 2 [hfix] at hthis
    exact hthis

theorem map_fst_data_flatMap {α : Type} (g : α → List Element)
    (l : List α) :
    (l.flatMap g).map (fun e => e.1.data) =
      l.flatMap (fun x => (g x).map (fun e => e.1.data)) := by
  induction l with
  | nil => rfl
  | cons x l' ih => simp only [List.flatMap_cons, List.map_append, ih]

/-- The lines of a written good data section tokenize to the `data_`
header and the element stream of its non-empty tables. -/
theorem write_cif_data_linesToks {d : CIFData} (hd : goodData d) :
    LinesToks (write_cif_data d)
      (("data_" ++ d.name).data ::
        d.tables.flatMap fun t =>
          if t.rows.length = 0 then []
          else (tableElements t).map (fun e => e.1.data)) := by
  obtain ⟨hname, htables, _⟩ := hd
  unfold write_cif_data
  have hblank : LinesToks [""] [] :=
    linesToks_single (lineForm_all_ws (by decide)) (by decide) (by decide)
  have hhdr : LinesToks ["data_" ++ d.name, ""]
      [("data_" ++ d.name).data] := by
    have h1 := linesToks_token_line (dataHeader_tokC hname)
    have h12 := linesToks_append h1 hblank
    simpa using h12
  have htab : LinesToks
      (d.tables.flatMap fun t =>
        if t.rows.length = 0 then []
        else if t.rows.length = 1 then write_one_row_table t ++ ["#"]
        else write_multi_row_table t ++ ["#"])
      (d.tables.flatMap fun t =>
        if t.rows.length = 0 then []
        else (tableElements t).map (fun e => e.1.data)) := by
    apply linesToks_flatMap
    intro t ht
    have hgt := htables t ht
    have hrne : ¬ (t.rows.length = 0) := by
      intro h0
      exact hgt.2.2.2.2.1 (List.eq_nil_of_length_eq_zero h0)
    rw [if_neg hrne, if_neg hrne]
    have hsharp : LinesToks ["#"] [] :=
      LinesToks.comment (by decide) LinesToks.nil
    by_cases h1 : t.rows.length = 1
    · rw [if_pos h1]
      have hte : (tableElements t).map (fun e => e.1.data) =
          t.columns.flatMap fun col =>
            [("_" ++ tableNameStr t ++ "." ++ col).data,
             (writerVal (t.rows.getD 0 []) col).data] := by
        unfold tableElements
        rw [if_pos h1, map_fst_data_flatMap]
        rfl
      rw [hte]
      have hjoin := linesToks_append (write_one_row_table_linesToks hgt)
        hsharp
      simpa using hjoin
    · rw [if_neg h1]
      have hte : (tableElements t).map (fun e => e.1.data) =
          "loop_".data ::
            ((t.columns.map fun col =>
                ("_" ++ tableNameStr t ++ "." ++ col).data) ++
              t.rows.flatMap fun row =>
                t.columns.map fun col => (writerVal row col).data) := by
        unfold tableElements
        rw [if_neg h1]
        simp only [List.map_cons, List.map_append, map_fst_data_flatMap,
          List.map_map]
        rfl
      rw [hte]
      have hjoin := linesToks_append (write_multi_row_table_linesToks hgt)
        hsharp
      simpa using hjoin
  have hall := linesToks_append hhdr htab
  simpa using hall

/-- The lines of a written good file tokenize to the file's canonical
element stream. -/
theorem writeFileLines_linesToks {f : CIFFile} (hf : goodFile f) :
    LinesToks (writeFileLines f)
      ((fileElements f).map (fun e => e.1.data)) := by
  unfold writeFileLines fileElements
  rw [map_fst_data_flatMap]
  apply linesToks_flatMap
  intro d hd
  have hlt := write_cif_data_linesToks (hf d hd)
  have hte : (dataElements d).map (fun e => e.1.data) =
      ("data_" ++ d.name).data ::
        d.tables.flatMap fun t =>
          if t.rows.length = 0 then []
          else (tableElements t).map (fun e => e.1.data) := by
    unfold dataElements
    rw [List.map_cons, map_fst_data_flatMap]
    congr 1
    apply List.flatMap_congr
    intro t _
    by_cases h0 : t.rows.length = 0
    · rw [if_pos h0, if_pos h0]
      rfl
    · rw [if_neg h0, if_neg h0]
  rw [hte]
  exact hlt

/-- Every canonical element is a plain token, so mapping back through
`String.mk` restores the stream. -/
theorem map_data_roundtrip {es : List Element}
    (h : ∀ e ∈ es, e.2 = ElemKind.token) :
    (es.map (fun e => e.1.data)).map
        (fun t => ((⟨t⟩ : String), ElemKind.token)) = es := by
  induction es with
  | nil => rfl
  | cons e es' ih =>
      obtain ⟨s, k⟩ := e
      have hk : k = ElemKind.token := h (s, k) (List.mem_cons_self _ _)
      subst hk
      simp only [List.map_cons]
      rw [ih (fun x hx => h x (List.mem_cons_of_mem _ hx))]

theorem tableElements_kinds {t : CIFTable} :
    ∀ e ∈ tableElements t, e.2 = ElemKind.token := by
  intro e he
  unfold tableElements at he
  by_cases h1 : t.rows.length = 1
  · rw [if_pos h1] at he
    obtain ⟨col, _, hcol⟩ := List.mem_flatMap.mp he
    simp only [List.mem_cons, List.not_mem_nil, or_false] at hcol
    rcases hcol with rfl | rfl
    · rfl
    · rfl
  · rw [if_neg h1] at he
    rcases List.mem_cons.mp he with rfl | he'
    · rfl
    · rcases List.mem_append.mp he' with h | h
      · obtain ⟨col, _, rfl⟩ := List.mem_map.mp h
        rfl
      · obtain ⟨row, _, hrow⟩ := List.mem_flatMap.mp h
        obtain ⟨col, _, rfl⟩ := List.mem_map.mp hrow
        rfl

theorem fileElements_kinds {f : CIFFile} :
    ∀ e ∈ fileElements f, e.2 = ElemKind.token := by
  intro e he
  unfold fileElements at he
  obtain ⟨d, _, hd⟩ := List.mem_flatMap.mp he
  unfold dataElements at hd
  rcases List.mem_cons.mp hd with rfl | hd'
  · rfl
  · obtain ⟨t, _, ht⟩ := List.mem_flatMap.mp hd'
    by_cases h0 : t.rows.length = 0
    · rw [if_pos h0] at ht
      simp at ht
    · rw [if_neg h0] at ht
      exact tableElements_kinds e ht

/-- The tokenizer inverts the writer on good files: reading back the
written lines yields exactly the canonical element stream. -/
theorem elementsOfLines_writeFileLines {f : CIFFile} (hf : goodFile f) :
    elementsOfLines (writeFileLines f) = fileElements f := by
  rw [elementsOfLines_of_linesToks (writeFileLines_linesToks hf)]
  exact map_data_roundtrip fileElements_kinds

theorem ne_empty_of_data {s : String} (h : s.data ≠ []) : s ≠ "" :=
  fun he => h (by rw [he])

theorem tag_data (n c : String) :
    ("_" ++ n ++ "." ++ c).data = '_' :: (n.data ++ '.' :: c.data) := by
  simp [String.data_append]

theorem header_data (n : String) :
    ("data_" ++ n).data = 'd' :: 'a' :: 't' :: 'a' :: '_' :: n.data := by
  simp [String.data_append]

theorem tag_ne_empty (n c : String) : ("_" ++ n ++ "." ++ c) ≠ "" :=
  ne_empty_of_data (by rw [tag_data]; simp)

theorem header_ne_empty (n : String) : ("data_" ++ n) ≠ "" :=
  ne_empty_of_data (by rw [header_data]; simp)

theorem pyHead_tag (n c : String) : pyHead ("_" ++ n ++ "." ++ c) = '_' := by
  unfold pyHead
  rw [tag_data]
  rfl

theorem pyHead_header (n : String) : pyHead ("data_" ++ n) = 'd' := by
  unfold pyHead
  rw [header_data]
  rfl

theorem pyTake_header (n : String) : pyTake ("data_" ++ n) 5 = "data_" := by
  unfold pyTake
  rw [header_data]
  rfl

theorem pyDrop_header (n : String) : pyDrop ("data_" ++ n) 5 = n := by
  unfold pyDrop
  rw [header_data]
  rfl

theorem pyTake_tag_ne_header (n c : String) :
    pyTake ("_" ++ n ++ "." ++ c) 5 ≠ "data_" := by
  unfold pyTake
  rw [tag_data]
  intro h
  have := congrArg (fun s => s.data.head?) h
  cases hd : (n.data ++ '.' :: c.data) with
  | nil => rw [hd] at this; simp at this
  | cons a l =>
      rw [hd] at this
      simp only [List.take_succ_cons, List.head?_cons] at this
      exact absurd (Option.some.inj this) (by decide)

theorem splitOnChar_ne_nil (sep : Char) (l : List Char) :
    splitOnChar sep l ≠ [] := by
  induction l with
  | nil => simp [splitOnChar]
  | cons c rest ih =>
      rw [splitOnChar]
      by_cases h : c = sep
      · simp [h]
      · simp only [h, if_false]
        cases hr : splitOnChar sep rest with
        | nil => simp
        | cons a t => simp

theorem splitOnChar_no_sep {sep : Char} :
    ∀ {l : List Char}, sep ∉ l → splitOnChar sep l = [l] := by
  intro l
  induction l with
  | nil => intro _; rfl
  | cons c rest ih =>
      intro h
      have hc : ¬ (c = sep) := fun he => h (he ▸ List.mem_cons_self _ _)
      have hrest : sep ∉ rest := fun hm => h (List.mem_cons_of_mem _ hm)
      rw [splitOnChar]
      simp only [hc, if_false]
      rw [ih hrest]

theorem splitOnChar_sep_append {sep : Char} :
    ∀ {a : List Char} (b : List Char), sep ∉ a →
      splitOnChar sep (a ++ sep :: b) = a :: splitOnChar sep b := by
  intro a
  induction a with
  | nil =>
      intro b _
      rw [List.nil_append, splitOnChar]
      simp
  | cons c a' ih =>
      intro b h
      have hc : ¬ (c = sep) := fun he => h (he ▸ List.mem_cons_self _ _)
      have ha' : sep ∉ a' := fun hm => h (List.mem_cons_of_mem _ hm)
      rw [List.cons_append, splitOnChar]
      simp only [hc, if_false]
      rw [ih b ha']

/-- Splitting a written tag at the dot recovers the table and column
names. -/
theorem pySplitDot_tag {n c : String} (hn : goodName n) (hc : goodName c) :
    pySplitDot (pyDrop ("_" ++ n ++ "." ++ c) 1) = [n, c] := by
  have hdrop : pyDrop ("_" ++ n ++ "." ++ c) 1 =
      ⟨n.data ++ '.' :: c.data⟩ := by
    unfold pyDrop
    rw [tag_data]
    rfl
  rw [hdrop]
  unfold pySplitDot
  have hn' : '.' ∉ n.data := fun hm => (hn '.' hm).2.2 rfl
  have hc' : '.' ∉ c.data := fun hm => (hc '.' hm).2.2 rfl
  show (splitOnChar '.' (n.data ++ '.' :: c.data)).map
    (fun cs => (⟨cs⟩ : String)) = [n, c]
  rw [splitOnChar_sep_append c.data hn', splitOnChar_no_sep hc']
  rfl

theorem assocHas_false_of_not_mem {β : Type} {l : List (String × β)}
    {k : String} (h : k ∉ l.map Prod.fst) : assocHas l k = false := by
  unfold assocHas
  rw [List.find?_eq_none.mpr]
  · rfl
  · intro x hx
    simp only [decide_eq_true_eq]
    intro heq
    exact h (heq ▸ List.mem_map_of_mem Prod.fst hx)

theorem writerVal_cons_self (k v : String) (rest : CIFRow) :
    writerVal ((k, v) :: rest) k = v := by
  unfold writerVal assocGet
  rw [List.find?_cons_of_pos _ (by simp)]
  rfl

theorem writerVal_cons_ne {k c : String} (v : String) (rest : CIFRow)
    (h : k ≠ c) : writerVal ((k, v) :: rest) c = writerVal rest c := by
  unfold writerVal assocGet
  rw [List.find?_cons_of_neg _ (by simp [h])]

/-- A row whose keys are the (distinct) columns, in order, is recovered
by reading each column back. -/
theorem row_rebuild :
    ∀ (row : CIFRow) {cols : List String},
      row.map Prod.fst = cols → cols.Nodup →
      cols.map (fun c => (c, writerVal row c)) = row := by
  intro row
  induction row with
  | nil =>
      intro cols hmap _
      rw [← hmap]
      rfl
  | cons kv rest ih =>
      intro cols hmap hnd
      obtain ⟨k, v⟩ := kv
      rw [← hmap]
      simp only [List.map_cons]
      rw [← hmap] at hnd
      simp only [List.map_cons, List.nodup_cons] at hnd
      have hcong : (rest.map Prod.fst).map
          (fun c => (c, writerVal ((k, v) :: rest) c)) =
          (rest.map Prod.fst).map (fun c => (c, writerVal rest c)) := by
        apply List.map_congr_left
        intro c hc
        have hkc : k ≠ c := fun he => hnd.1 (he ▸ hc)
        rw [writerVal_cons_ne v rest hkc]
      rw [writerVal_cons_self, hcong, ih rfl hnd.2]

/-- Reading one row's worth of good values rebuilds the row by appending
one binding per column. -/
theorem readRowValues_ok :
    ∀ (cols : List String) (acc : CIFRow) (v : String → String)
      (rest : List Element),
      (∀ c ∈ cols, goodValue (v c)) →
      (∀ c ∈ cols, c ∉ acc.map Prod.fst) →
      cols.Nodup →
      readRowValues cols acc
        ((cols.map fun c => (v c, ElemKind.token)) ++ rest) =
        .ok (acc ++ cols.map (fun c => (c, v c)), rest) := by
  intro cols
  induction cols with
  | nil =>
      intro acc v rest _ _ _
      simp [readRowValues]
  | cons c cols' ih =>
      intro acc v rest hgood hfresh hnd
      have hgv := hgood c (List.mem_cons_self _ _)
      rw [List.map_cons, List.cons_append, readRowValues]
      rw [if_neg (fun hcon => hgv.1 hcon.2),
          if_neg (fun hcon => hgv.2.2.2.1 hcon.2)]
      have hset : assocSet acc c (v c) = acc ++ [(c, v c)] :=
        assocSet_fresh_append acc c (v c)
          (assocHas_false_of_not_mem (hfresh c (List.mem_cons_self _ _)))
      rw [hset]
      have hfresh' : ∀ c' ∈ cols', c' ∉ (acc ++ [(c, v c)]).map Prod.fst := by
        intro c' hc'
        rw [List.map_append]
        intro hmem
        rcases List.mem_append.mp hmem with h | h
        · exact hfresh c' (List.mem_cons_of_mem _ hc') h
        · simp only [List.map_cons, List.map_nil, List.mem_singleton] at h
          exact (List.nodup_cons.mp hnd).1 (h ▸ hc')
      rw [ih (acc ++ [(c, v c)]) v rest
        (fun c' hc' => hgood c' (List.mem_cons_of_mem _ hc'))
        hfresh' (List.nodup_cons.mp hnd).2]
      rw [List.append_assoc]
      rfl

/-- `readLoopRows` stops after the last row when the lookahead sees a
control token or the end of the stream. -/
theorem readLoopRows_last {f : ℕ} {cols : List String}
    {accRows : List CIFRow} {es : List Element} {row : CIFRow}
    {after : List Element}
    (h : readRowValues cols [] es = .ok (row, after))
    (hct : ControlTail after) :
    readLoopRows (f + 1) cols accRows es = .ok (accRows ++ [row], after) := by
  rw [readLoopRows, h]
  rcases hct with rfl | ⟨s, rest', rfl, hsne, hctl⟩
  · rfl
  · show (if s = "" then (.error "IndexError" :
        Except String (List CIFRow × List Element))
      else if pyHead s = '_' ∨ pyTake s 5 = "data_" ∨
          pyTake s 5 = "loop_" ∨ pyTake s 5 = "save_" then
        .ok (accRows ++ [row], (s, ElemKind.token) :: rest')
      else readLoopRows f cols (accRows ++ [row])
        ((s, ElemKind.token) :: rest')) =
      .ok (accRows ++ [row], (s, ElemKind.token) :: rest')
    rw [if_neg hsne, if_pos hctl]

/-- `readLoopRows` continues into the next row when the lookahead sees an
ordinary value token. -/
theorem readLoopRows_more {f : ℕ} {cols : List String}
    {accRows : List CIFRow} {es : List Element} {row : CIFRow} {s : String}
    {rest' : List Element}
    (h : readRowValues cols [] es = .ok (row, (s, ElemKind.token) :: rest'))
    (hsne : s ≠ "") (h1 : pyHead s ≠ '_') (h2 : pyTake s 5 ≠ "data_")
    (h3 : pyTake s 5 ≠ "loop_") (h4 : pyTake s 5 ≠ "save_") :
    readLoopRows (f + 1) cols accRows es =
      readLoopRows f cols (accRows ++ [row])
        ((s, ElemKind.token) :: rest') := by
  rw [readLoopRows, h]
  show (if s = "" then (.error "IndexError" :
      Except String (List CIFRow × List Element))
    else if pyHead s = '_' ∨ pyTake s 5 = "data_" ∨
        pyTake s 5 = "loop_" ∨ pyTake s 5 = "save_" then
      .ok (accRows ++ [row], (s, ElemKind.token) :: rest')
    else readLoopRows f cols (accRows ++ [row])
      ((s, ElemKind.token) :: rest')) =
    readLoopRows f cols (accRows ++ [row]) ((s, ElemKind.token) :: rest')
  rw [if_neg hsne, if_neg ?hcond]
  case hcond =>
    rintro (hc | hc | hc | hc)
    · exact h1 hc
    · exact h2 hc
    · exact h3 hc
    · exact h4 hc

/-- The row loop over the written value stream of good rows rebuilds
exactly those rows. -/
theorem readLoopRows_ok :
    ∀ (rows : List CIFRow) (fuel : ℕ) (cols : List String)
      (accRows : List CIFRow) (after : List Element),
      rows ≠ [] →
      rows.length ≤ fuel →
      cols ≠ [] →
      cols.Nodup →
      (∀ row ∈ rows, row.map Prod.fst = cols ∧ ∀ e ∈ row, goodValue e.2) →
      ControlTail after →
      readLoopRows fuel cols accRows
        ((rows.flatMap fun row =>
          cols.map fun c => (writerVal row c, ElemKind.token)) ++ after) =
        .ok (accRows ++ rows, after) := by
  intro rows
  induction rows with
  | nil => intro fuel cols accRows after hne; exact absurd rfl hne
  | cons row rows' ih =>
      intro fuel cols accRows after _ hfuel hcne hnd hgood hct
      obtain ⟨f, rfl⟩ : ∃ f, fuel = f + 1 :=
        ⟨fuel - 1, by simp at hfuel; omega⟩
      have hrow := hgood row (List.mem_cons_self _ _)
      have hvgood : ∀ c ∈ cols, goodValue (writerVal row c) := by
        intro c hc
        exact hrow.2 _ (writerVal_mem (by rw [hrow.1]; exact hc))
      have hread : readRowValues cols []
          ((cols.map fun c => (writerVal row c, ElemKind.token)) ++
            (rows'.flatMap (fun row =>
              cols.map fun c => (writerVal row c, ElemKind.token)) ++
              after)) =
          .ok (row, rows'.flatMap (fun row =>
            cols.map fun c => (writerVal row c, ElemKind.token)) ++
            after) := by
        rw [readRowValues_ok cols [] (fun c => writerVal row c) _ hvgood
          (by simp) hnd]
        rw [List.nil_append, row_rebuild row hrow.1 hnd]
      have hstream : ((row :: rows').flatMap fun row =>
          cols.map fun c => (writerVal row c, ElemKind.token)) ++ after =
          (cols.map fun c => (writerVal row c, ElemKind.token)) ++
            (rows'.flatMap (fun row =>
              cols.map fun c => (writerVal row c, ElemKind.token)) ++
              after) := by
        rw [List.flatMap_cons, List.append_assoc]
      rw [hstream]
      cases hrows' : rows' with
      | nil =>
          subst hrows'
          simp only [List.flatMap_nil, List.nil_append] at hread ⊢
          exact readLoopRows_last hread hct
      | cons r2 rows'' =>
          obtain ⟨c0, cols', rfl⟩ : ∃ c0 cols', cols = c0 :: cols' := by
            cases cols with
            | nil => exact absurd rfl hcne
            | cons a b => exact ⟨a, b, rfl⟩
          subst hrows'
          have hr2 := hgood r2 (List.mem_cons_of_mem _
            (List.mem_cons_self _ _))
          have hv2 : goodValue (writerVal r2 c0) :=
            hr2.2 _ (writerVal_mem (by
              rw [hr2.1]; exact List.mem_cons_self _ _))
          have hstream2 : ((r2 :: rows'').flatMap fun row =>
              (c0 :: cols').map fun c =>
                (writerVal row c, ElemKind.token)) ++ after =
              (writerVal r2 c0, ElemKind.token) ::
                ((cols'.map fun c => (writerVal r2 c, ElemKind.token)) ++
                  ((rows''.flatMap fun row =>
                    (c0 :: cols').map fun c =>
                      (writerVal row c, ElemKind.token)) ++ after)) := by
            rw [List.flatMap_cons, List.map_cons]
            simp [List.append_assoc]
          rw [hstream2] at hread
          rw [hstream2]
          rw [readLoopRows_more hread hv2.1 hv2.2.2.2.1
            hv2.2.2.2.2.2.2.1 hv2.2.2.2.2.2.2.2.1 hv2.2.2.2.2.2.2.2.2]
          rw [← hstream2]
          have hih := ih f (c0 :: cols') (accRows ++ [row]) after
            (by simp) (by simp at hfuel ⊢; omega) hcne hnd
            (fun r hr => hgood r (List.mem_cons_of_mem _ hr)) hct
          rw [hih, List.append_assoc]
          rfl

/-- One declaration step of `readLoopDecls` on a written tag. -/
theorem readLoopDecls_step {f : ℕ} {tn : Option String}
    {acc : List String} {n c : String} (rest : List Element)
    (hn : goodName n) (hc : goodName c) (htn : tn = none ∨ tn = some n) :
    readLoopDecls (f + 1) tn acc
      (("_" ++ n ++ "." ++ c, ElemKind.token) :: rest) =
      readLoopDecls f (some n) (acc ++ [c]) rest := by
  rw [readLoopDecls]
  rw [if_neg (by decide : ¬ (ElemKind.token = ElemKind.string))]
  rw [if_neg (tag_ne_empty n c)]
  rw [if_neg (fun h => h (pyHead_tag n c))]
  rw [pySplitDot_tag hn hc]
  rcases htn with rfl | rfl
  · rfl
  · show (if (some n = some n) then
        readLoopDecls f (some n) (acc ++ [c]) rest
      else match (some n : Option String) with
        | none => readLoopDecls f (some n) (acc ++ [c]) rest
        | some tn =>
            if tn = "" then readLoopDecls f (some n) (acc ++ [c]) rest
            else .error "section in loop do not match") =
      readLoopDecls f (some n) (acc ++ [c]) rest
    rw [if_pos rfl]

/-- `readLoopDecls` stops and pushes back an ordinary value token. -/
theorem readLoopDecls_stop {f : ℕ} {tn : Option String}
    {acc : List String} {s : String} (rest : List Element)
    (hsne : s ≠ "") (hsh : pyHead s ≠ '_') :
    readLoopDecls (f + 1) tn acc ((s, ElemKind.token) :: rest) =
      .ok (tn, acc, (s, ElemKind.token) :: rest) := by
  rw [readLoopDecls]
  rw [if_neg (by decide : ¬ (ElemKind.token = ElemKind.string))]
  rw [if_neg hsne]
  rw [if_pos hsh]

/-- The declaration loop over the written tags collects the column names
and the table name. -/
theorem readLoopDecls_ok :
    ∀ (cols : List String) (f : ℕ) (tn : Option String) (acc : List String)
      {n s : String} (rest : List Element),
      goodName n → (∀ c ∈ cols, goodName c) →
      cols.length + 1 ≤ f →
      (tn = none ∨ tn = some n) →
      s ≠ "" → pyHead s ≠ '_' →
      readLoopDecls f tn acc
        ((cols.map fun c => ("_" ++ n ++ "." ++ c, ElemKind.token)) ++
          (s, ElemKind.token) :: rest) =
        .ok (if cols = [] then tn else some n, acc ++ cols,
          (s, ElemKind.token) :: rest) := by
  intro cols
  induction cols with
  | nil =>
      intro f tn acc n s rest _ _ hf _ hsne hsh
      obtain ⟨g, rfl⟩ : ∃ g, f = g + 1 := ⟨f - 1, by omega⟩
      rw [List.map_nil, List.nil_append, readLoopDecls_stop rest hsne hsh]
      simp
  | cons c cols' ih =>
      intro f tn acc n s rest hn hcols hf htn hsne hsh
      obtain ⟨g, rfl⟩ : ∃ g, f = g + 1 := ⟨f - 1, by omega⟩
      rw [List.map_cons, List.cons_append]
      rw [readLoopDecls_step _ hn (hcols c (List.mem_cons_self _ _)) htn]
      rw [ih g (some n) (acc ++ [c]) rest hn
        (fun x hx => hcols x (List.mem_cons_of_mem _ hx))
        (by simp at hf ⊢; omega) (Or.inr rfl) hsne hsh]
      rw [ite_self, if_neg (by simp : ¬ (c :: cols' = [])),
        List.append_assoc]
      rfl

theorem bind_ok_eq {ε α β : Type} (a : α) (f : α → Except ε β) :
    ((Except.ok a : Except ε α) >>= f) = f a := rfl

theorem findIdx?_go_append_last {α : Type} {p : α → Bool} {tb : α}
    (hp : p tb = true) :
    ∀ {done : List α} (i : ℕ), (∀ x ∈ done, ¬ (p x = true)) →
      List.findIdx? p (done ++ [tb]) i = some (done.length + i) := by
  intro done
  induction done with
  | nil =>
      intro i _
      simp [List.findIdx?_cons, hp]
  | cons a l ih =>
      intro i h
      rw [List.cons_append, List.findIdx?_cons]
      rw [if_neg (by
        have := h a (List.mem_cons_self _ _)
        simpa using this)]
      rw [ih (i + 1) (fun x hx => h x (List.mem_cons_of_mem _ hx))]
      congr 1
      simp
      omega

theorem findIdx?_append_last {α : Type} {p : α → Bool} {tb : α}
    (hp : p tb = true) {done : List α}
    (h : ∀ x ∈ done, ¬ (p x = true)) :
    List.findIdx? p (done ++ [tb]) = some done.length := by
  have := findIdx?_go_append_last hp 0 h
  simpa using this

theorem findIdx?_go_none {α : Type} {p : α → Bool} :
    ∀ {l : List α} (i : ℕ), (∀ x ∈ l, ¬ (p x = true)) →
      l.findIdx? p i = none := by
  intro l
  induction l with
  | nil => intro i _; rfl
  | cons a l' ih =>
      intro i h
      rw [List.findIdx?_cons]
      rw [if_neg (by
        have := h a (List.mem_cons_self _ _)
        simpa using this)]
      exact ih (i + 1) (fun x hx => h x (List.mem_cons_of_mem _ hx))

theorem findIdx?_none {α : Type} {p : α → Bool} {l : List α}
    (h : ∀ x ∈ l, ¬ (p x = true)) : l.findIdx? p = none :=
  findIdx?_go_none 0 h

theorem getD_last {α : Type} :
    ∀ (l : List α) (tb dflt : α), (l ++ [tb]).getD l.length dflt = tb := by
  intro l
  induction l with
  | nil => intro tb dflt; rfl
  | cons a l' ih =>
      intro tb dflt
      rw [List.cons_append, List.length_cons]
      show (l' ++ [tb]).getD l'.length dflt = tb
      exact ih tb dflt

theorem set_last {α : Type} :
    ∀ (l : List α) (tb tb' : α), (l ++ [tb]).set l.length tb' = l ++ [tb'] := by
  intro l
  induction l with
  | nil => intro tb tb'; rfl
  | cons a l' ih =>
      intro tb tb'
      rw [List.cons_append, List.length_cons, List.set_cons_succ,
        ih tb tb', List.cons_append]

/-- `read_single`, first column of a fresh table: the table is created
with one column and one row. -/
theorem readSingle_create {d : CIFData} {n c v : String}
    {rest : List Element}
    (hn : goodName n) (hc : goodName c) (hv : goodValue v)
    (hnone : ∀ tb ∈ d.tables, ¬ (tb.name = some n)) :
    readSingle d ("_" ++ n ++ "." ++ c) ((v, ElemKind.token) :: rest) =
      .ok ({ d with tables :=
        d.tables ++ [⟨some n, [c], [[(c, v)]]⟩] }, rest) := by
  unfold readSingle
  rw [pySplitDot_tag hn hc]
  have hfind : d.tables.findIdx? (fun tb => tb.name = some n) = none :=
    findIdx?_none (by
      intro x hx
      simpa using hnone x hx)
  simp [hfind, hv.1, hv.2.2.2.1]

/-- `read_single`, later column of the table under construction: the
column and its value are appended. -/
theorem readSingle_extend {dname : String} {done : List CIFTable}
    {n c v : String} {bCols : List String} {bRow : CIFRow}
    {rest : List Element}
    (hn : goodName n) (hc : goodName c) (hv : goodValue v)
    (hnone : ∀ tb ∈ done, ¬ (tb.name = some n))
    (hfreshc : c ∉ bCols) (hrowkeys : bRow.map Prod.fst = bCols) :
    readSingle ⟨dname, done ++ [⟨some n, bCols, [bRow]⟩]⟩
        ("_" ++ n ++ "." ++ c) ((v, ElemKind.token) :: rest) =
      .ok (⟨dname, done ++ [⟨some n, bCols ++ [c], [bRow ++ [(c, v)]]⟩]⟩,
        rest) := by
  unfold readSingle
  rw [pySplitDot_tag hn hc]
  have hfind : (done ++ [(⟨some n, bCols, [bRow]⟩ : CIFTable)]).findIdx?
      (fun tb => tb.name = some n) = some done.length :=
    findIdx?_append_last (by simp) (by
      intro x hx
      simpa using hnone x hx)
  have hget : (done ++ [(⟨some n, bCols, [bRow]⟩ : CIFTable)]).getD
      done.length ⟨none, [], []⟩ = ⟨some n, bCols, [bRow]⟩ :=
    getD_last done _ _
  have hcontains : bCols.contains c = false := by
    rw [List.contains_eq_any_beq, List.any_eq_false]
    intro x hx
    simp only [beq_iff_eq]
    intro he
    exact hfreshc (he ▸ hx)
  have hset : assocSet bRow c v = bRow ++ [(c, v)] :=
    assocSet_fresh_append bRow c v
      (assocHas_false_of_not_mem (hrowkeys ▸ hfreshc))
  simp [hfind, hget, hcontains, hset, hv.1, hv.2.2.2.1, set_last, hfreshc]

/-- `read_data` dispatches a `_`-tag to `read_single` and continues. -/
theorem readData_step_single {f : ℕ} {d d' : CIFData} {n c : String}
    {rest rest' : List Element}
    (hsingle : readSingle d ("_" ++ n ++ "." ++ c) rest = .ok (d', rest')) :
    readData (f + 1) d (("_" ++ n ++ "." ++ c, ElemKind.token) :: rest) =
      readData f d' rest' := by
  rw [readData]
  rw [if_neg (tag_ne_empty n c), if_pos (pyHead_tag n c)]
  rw [hsingle]
  rfl

/-- `read_data` dispatches a `loop_` token to `read_loop` and
continues. -/
theorem readData_step_loop {f : ℕ} {d d' : CIFData}
    {rest rest' : List Element}
    (hloop : readLoop f d rest = .ok (d', rest')) :
    readData (f + 1) d (("loop_", ElemKind.token) :: rest) =
      readData f d' rest' := by
  rw [readData]
  rw [if_neg (by decide : ¬ (("loop_" : String) = "")),
    if_neg (by decide : ¬ (pyHead "loop_" = '_')),
    if_pos (by decide : pyTake "loop_" 5 = "loop_")]
  rw [hloop]
  rfl

/-- `read_data` pushes a `data_` header back and returns. -/
theorem readData_stop_header {f : ℕ} {d : CIFData} {n : String}
    {rest : List Element} :
    readData (f + 1) d (("data_" ++ n, ElemKind.token) :: rest) =
      .ok (d, ("data_" ++ n, ElemKind.token) :: rest) := by
  rw [readData]
  rw [if_neg (header_ne_empty n),
    if_neg (by rw [pyHead_header n]; decide),
    if_neg (by rw [pyTake_header n]; decide),
    if_pos (pyTake_header n)]

/-- `read_data` returns at end of stream. -/
theorem readData_stop_end {f : ℕ} {d : CIFData} :
    readData (f + 1) d [] = .ok (d, []) := by
  rw [readData]

/-- The column-by-column reconstruction of a single-row table under
construction. -/
theorem readData_single_cols :
    ∀ (cols : List String) (f : ℕ) (dname n : String)
      (done : List CIFTable) (bCols : List String) (bRow : CIFRow)
      (v : String → String) (after : List Element),
      goodName n → (∀ c ∈ cols, goodName c) →
      (∀ c ∈ cols, goodValue (v c)) →
      cols.length ≤ f →
      (∀ tb ∈ done, ¬ (tb.name = some n)) →
      (bCols ++ cols).Nodup →
      bRow.map Prod.fst = bCols →
      readData f ⟨dname, done ++ [⟨some n, bCols, [bRow]⟩]⟩
        ((cols.flatMap fun c =>
          [("_" ++ n ++ "." ++ c, ElemKind.token),
           (v c, ElemKind.token)]) ++ after) =
        readData (f - cols.length) ⟨dname, done ++
          [⟨some n, bCols ++ cols,
            [bRow ++ cols.map (fun c => (c, v c))]⟩]⟩ after := by
  intro cols
  induction cols with
  | nil =>
      intro f dname n done bCols bRow v after _ _ _ _ _ _ _
      simp
  | cons c cols' ih =>
      intro f dname n done bCols bRow v after hn hcols hvals hf hnone
        hnd hkeys
      obtain ⟨g, rfl⟩ : ∃ g, f = g + 1 := ⟨f - 1, by simp at hf; omega⟩
      have hcfresh : c ∉ bCols := by
        intro hcb
        have hdisj := List.disjoint_of_nodup_append hnd
        exact hdisj hcb (List.mem_cons_self _ _)
      have hsingle : readSingle ⟨dname, done ++ [⟨some n, bCols, [bRow]⟩]⟩
          ("_" ++ n ++ "." ++ c)
          ((v c, ElemKind.token) ::
            ((cols'.flatMap fun x =>
              [("_" ++ n ++ "." ++ x, ElemKind.token),
               (v x, ElemKind.token)]) ++ after)) =
          .ok (⟨dname,
            done ++ [⟨some n, bCols ++ [c], [bRow ++ [(c, v c)]]⟩]⟩,
            (cols'.flatMap fun x =>
              [("_" ++ n ++ "." ++ x, ElemKind.token),
               (v x, ElemKind.token)]) ++ after) :=
        readSingle_extend hn (hcols c (List.mem_cons_self _ _))
          (hvals c (List.mem_cons_self _ _)) hnone hcfresh hkeys
      simp only [List.flatMap_cons, List.cons_append, List.nil_append,
        List.append_assoc]
      rw [readData_step_single hsingle]
      have hnd' : ((bCols ++ [c]) ++ cols').Nodup := by
        rw [List.append_assoc]
        exact hnd
      have hkeys' : (bRow ++ [(c, v c)]).map Prod.fst = bCols ++ [c] := by
        rw [List.map_append, hkeys]
        rfl
      rw [ih g dname n done (bCols ++ [c]) (bRow ++ [(c, v c)]) v after hn
        (fun x hx => hcols x (List.mem_cons_of_mem _ hx))
        (fun x hx => hvals x (List.mem_cons_of_mem _ hx))
        (by simp at hf ⊢; omega) hnone hnd' hkeys']
      simp only [List.length_cons, Nat.succ_sub_succ, List.append_assoc,
        List.map_cons, List.cons_append, List.nil_append]

/-- A whole written single-row good table through `read_data`: the table
is recreated exactly. -/
theorem readData_single_table {cols : List String} {f : ℕ}
    {dname n : String} {done : List CIFTable} {v : String → String}
    {after : List Element}
    (hn : goodName n) (hcols : ∀ c ∈ cols, goodName c)
    (hvals : ∀ c ∈ cols, goodValue (v c))
    (hne : cols ≠ []) (hf : cols.length ≤ f)
    (hnone : ∀ tb ∈ done, ¬ (tb.name = some n)) (hnd : cols.Nodup) :
    readData f ⟨dname, done⟩
      ((cols.flatMap fun c =>
        [("_" ++ n ++ "." ++ c, ElemKind.token),
         (v c, ElemKind.token)]) ++ after) =
      readData (f - cols.length) ⟨dname, done ++
        [⟨some n, cols, [cols.map (fun c => (c, v c))]⟩]⟩ after := by
  cases cols with
  | nil => exact absurd rfl hne
  | cons c cols' =>
      obtain ⟨g, rfl⟩ : ∃ g, f = g + 1 := ⟨f - 1, by simp at hf; omega⟩
      have hsingle : readSingle ⟨dname, done⟩ ("_" ++ n ++ "." ++ c)
          ((v c, ElemKind.token) ::
            ((cols'.flatMap fun x =>
              [("_" ++ n ++ "." ++ x, ElemKind.token),
               (v x, ElemKind.token)]) ++ after)) =
          .ok (⟨dname, done ++ [⟨some n, [c], [[(c, v c)]]⟩]⟩,
            (cols'.flatMap fun x =>
              [("_" ++ n ++ "." ++ x, ElemKind.token),
               (v x, ElemKind.token)]) ++ after) :=
        readSingle_create hn (hcols c (List.mem_cons_self _ _))
          (hvals c (List.mem_cons_self _ _)) hnone
      simp only [List.flatMap_cons, List.cons_append, List.nil_append,
        List.append_assoc]
      rw [readData_step_single hsingle]
      rw [readData_single_cols cols' g dname n done [c] [(c, v c)] v after
        hn (fun x hx => hcols x (List.mem_cons_of_mem _ hx))
        (fun x hx => hvals x (List.mem_cons_of_mem _ hx))
        (by simp at hf ⊢; omega) hnone (by simpa using hnd) (by rfl)]
      simp only [List.length_cons, Nat.succ_sub_succ, List.map_cons,
        List.cons_append, List.nil_append]

/-- `read_loop` over the written tags and values of a good table rebuilds
the table exactly. -/
theorem readLoop_ok {t : CIFTable} {g : ℕ} {d : CIFData} {n : String}
    {after : List Element}
    (hname : t.name = some n) (hgn : goodName n)
    (hcne : t.columns ≠ []) (hnd : t.columns.Nodup)
    (hcols : ∀ c ∈ t.columns, goodName c)
    (hrne : t.rows ≠ [])
    (hrows : ∀ row ∈ t.rows,
      row.map Prod.fst = t.columns ∧ ∀ e ∈ row, goodValue e.2)
    (hf1 : t.columns.length + 1 ≤ g) (hf2 : t.rows.length ≤ g)
    (hct : ControlTail after) :
    readLoop g d
      ((t.columns.map fun col =>
        ("_" ++ tableNameStr t ++ "." ++ col, ElemKind.token)) ++
        ((t.rows.flatMap fun row =>
          t.columns.map fun col => (writerVal row col, ElemKind.token)) ++
          after)) =
      .ok ({ d with tables := d.tables ++ [t] }, after) := by
  have htns : tableNameStr t = n := by rw [tableNameStr, hname]; rfl
  obtain ⟨r1, rows0, hre⟩ : ∃ r1 rows0, t.rows = r1 :: rows0 := by
    cases hr : t.rows with
    | nil => exact absurd hr hrne
    | cons a b => exact ⟨a, b, rfl⟩
  obtain ⟨c0, cols0, hce⟩ : ∃ c0 cols0, t.columns = c0 :: cols0 := by
    cases hr : t.columns with
    | nil => exact absurd hr hcne
    | cons a b => exact ⟨a, b, rfl⟩
  have hr1 := hrows r1 (hre ▸ List.mem_cons_self _ _)
  have hv0 : goodValue (writerVal r1 c0) :=
    hr1.2 _ (writerVal_mem (by
      rw [hr1.1, hce]; exact List.mem_cons_self _ _))
  obtain ⟨rest0, hvs⟩ : ∃ rest0,
      (t.rows.flatMap fun row =>
        t.columns.map fun col => (writerVal row col, ElemKind.token)) ++
        after = (writerVal r1 c0, ElemKind.token) :: rest0 := by
    refine ⟨(cols0.map fun col => (writerVal r1 col, ElemKind.token)) ++
      ((rows0.flatMap fun row =>
        t.columns.map fun col => (writerVal row col, ElemKind.token)) ++
        after), ?_⟩
    conv =>
      lhs
      rw [hre]
    rw [List.flatMap_cons, hce, List.map_cons]
    simp [List.append_assoc]
  unfold readLoop
  rw [htns, hvs]
  rw [readLoopDecls_ok t.columns g none [] rest0 hgn hcols hf1
    (Or.inl rfl) hv0.1 hv0.2.2.2.1]
  rw [if_neg hcne]
  simp only [bind_ok_eq, List.nil_append]
  rw [← hvs]
  rw [readLoopRows_ok t.rows g t.columns [] after hrne hf2 hcne hnd
    hrows hct]
  simp only [bind_ok_eq, List.nil_append]
  rw [← hname]

/-- A whole written multi-row good table through `read_data`. -/
theorem readData_multi_table {t : CIFTable} {f : ℕ} {dname : String}
    {done : List CIFTable} {after : List Element} {n : String}
    (hname : t.name = some n) (hgn : goodName n)
    (hcne : t.columns ≠ []) (hnd : t.columns.Nodup)
    (hcols : ∀ c ∈ t.columns, goodName c)
    (hrne : t.rows ≠ [])
    (hrows : ∀ row ∈ t.rows,
      row.map Prod.fst = t.columns ∧ ∀ e ∈ row, goodValue e.2)
    (hmulti : t.rows.length ≠ 1)
    (hf1 : t.columns.length + 2 ≤ f) (hf2 : t.rows.length + 1 ≤ f)
    (hct : ControlTail after) :
    readData f ⟨dname, done⟩ (tableElements t ++ after) =
      readData (f - 1) ⟨dname, done ++ [t]⟩ after := by
  obtain ⟨g, rfl⟩ : ∃ g, f = g + 1 := ⟨f - 1, by omega⟩
  unfold tableElements
  rw [if_neg hmulti]
  rw [List.cons_append, List.append_assoc]
  have hloop : readLoop g ⟨dname, done⟩
      ((t.columns.map fun col =>
        ("_" ++ tableNameStr t ++ "." ++ col, ElemKind.token)) ++
        ((t.rows.flatMap fun row =>
          t.columns.map fun col => (writerVal row col, ElemKind.token)) ++
          after)) =
      .ok (⟨dname, done ++ [t]⟩, after) :=
    readLoop_ok hname hgn hcne hnd hcols hrne hrows (by omega) (by omega)
      hct
  rw [readData_step_loop hloop]
  simp

/-- The element stream of remaining good tables (or the next data
section) starts with a control token when nonempty. -/
theorem controlTail_tablesElems :
    ∀ {ts : List CIFTable} {after : List Element},
      (∀ t ∈ ts, goodTable t) → AfterData after →
      ControlTail (tablesElems ts ++ after) := by
  intro ts after hgood hafter
  cases ts with
  | nil =>
      simp only [tablesElems, List.flatMap_nil, List.nil_append]
      rcases hafter with rfl | ⟨name, rest', rfl⟩
      · exact Or.inl rfl
      · exact Or.inr ⟨"data_" ++ name, rest', rfl, header_ne_empty name,
          Or.inr (Or.inl (pyTake_header name))⟩
  | cons t ts' =>
      have hg := hgood t (List.mem_cons_self _ _)
      have hr0 : ¬ (t.rows.length = 0) := fun h0 =>
        hg.2.2.2.2.1 (List.eq_nil_of_length_eq_zero h0)
      obtain ⟨c0, cols0, hce⟩ : ∃ c0 cols0, t.columns = c0 :: cols0 := by
        cases hr : t.columns with
        | nil => exact absurd hr hg.2.1
        | cons a b => exact ⟨a, b, rfl⟩
      simp only [tablesElems, List.flatMap_cons]
      rw [if_neg hr0]
      by_cases h1 : t.rows.length = 1
      · have hte : tableElements t =
            ("_" ++ tableNameStr t ++ "." ++ c0, ElemKind.token) ::
              (writerVal (t.rows.getD 0 []) c0, ElemKind.token) ::
                (cols0.flatMap fun col =>
                  [("_" ++ tableNameStr t ++ "." ++ col, ElemKind.token),
                   (writerVal (t.rows.getD 0 []) col, ElemKind.token)]) := by
          unfold tableElements
          rw [if_pos h1, hce, List.flatMap_cons]
          rfl
        rw [hte, List.cons_append, List.cons_append]
        exact Or.inr ⟨_, _, rfl, tag_ne_empty _ _, Or.inl (pyHead_tag _ _)⟩
      · have hte : tableElements t =
            ("loop_", ElemKind.token) ::
              ((t.columns.map fun col =>
                ("_" ++ tableNameStr t ++ "." ++ col, ElemKind.token)) ++
                t.rows.flatMap fun row =>
                  t.columns.map fun col =>
                    (writerVal row col, ElemKind.token)) := by
          unfold tableElements
          rw [if_neg h1]
        rw [hte, List.cons_append, List.cons_append]
        exact Or.inr ⟨_, _, rfl, by decide,
          Or.inr (Or.inr (Or.inl (by decide)))⟩

theorem tableElements_single_length {t : CIFTable}
    (h1 : t.rows.length = 1) :
    (tableElements t).length = 2 * t.columns.length := by
  unfold tableElements
  rw [if_pos h1]
  induction t.columns with
  | nil => rfl
  | cons c cols' ih =>
      rw [List.flatMap_cons, List.length_append, ih]
      simp
      ring

theorem tableElements_multi_length {t : CIFTable}
    (h1 : ¬ (t.rows.length = 1)) :
    (tableElements t).length =
      1 + t.columns.length + t.rows.length * t.columns.length := by
  unfold tableElements
  rw [if_neg h1]
  rw [List.length_cons, List.length_append]
  have hfm : (t.rows.flatMap fun row =>
      t.columns.map fun col => (writerVal row col, ElemKind.token)).length =
      t.rows.length * t.columns.length := by
    induction t.rows with
    | nil => simp
    | cons r rows' ih =>
        rw [List.flatMap_cons, List.length_append, ih]
        simp
        ring
  rw [hfm]
  simp
  ring

/-- `read_data` over the canonical streams of a list of good tables
rebuilds exactly those tables and stops at the section boundary. -/
theorem readData_tables :
    ∀ (ts : List CIFTable) (f : ℕ) (dname : String)
      (done : List CIFTable) (after : List Element),
      (∀ t ∈ ts, goodTable t) →
      ((done ++ ts).map CIFTable.name).Nodup →
      AfterData after →
      (tablesElems ts).length + 1 ≤ f →
      readData f ⟨dname, done⟩ (tablesElems ts ++ after) =
        .ok (⟨dname, done ++ ts⟩, after) := by
  intro ts
  induction ts with
  | nil =>
      intro f dname done after _ _ hafter hf
      obtain ⟨g, rfl⟩ : ∃ g, f = g + 1 := ⟨f - 1, by omega⟩
      simp only [tablesElems, List.flatMap_nil, List.nil_append,
        List.append_nil]
      rcases hafter with rfl | ⟨name, rest', rfl⟩
      · exact readData_stop_end
      · exact readData_stop_header
  | cons t ts' ih =>
      intro f dname done after hgood hnd hafter hf
      obtain ⟨⟨n, hname, hgn⟩, hcne, hcnd, hcols, hrne, hrows⟩ :=
        hgood t (List.mem_cons_self _ _)
      have hr0 : ¬ (t.rows.length = 0) := fun h0 =>
        hrne (List.eq_nil_of_length_eq_zero h0)
      have hcpos : 1 ≤ t.columns.length :=
        Nat.one_le_iff_ne_zero.mpr (fun h0 =>
          hcne (List.eq_nil_of_length_eq_zero h0))
      have hnone : ∀ tb ∈ done, ¬ (tb.name = some n) := by
        intro tb htb heq
        rw [List.map_append] at hnd
        have hdisj := List.disjoint_of_nodup_append hnd
        have hmem1 : tb.name ∈ done.map CIFTable.name :=
          List.mem_map_of_mem _ htb
        have hmem2 : tb.name ∈ (t :: ts').map CIFTable.name := by
          rw [heq, ← hname]
          exact List.mem_map_of_mem _ (List.mem_cons_self _ _)
        exact hdisj hmem1 hmem2
      have hstream : tablesElems (t :: ts') ++ after =
          tableElements t ++ (tablesElems ts' ++ after) := by
        simp only [tablesElems, List.flatMap_cons]
        rw [if_neg hr0, List.append_assoc]
      have hlen : (tablesElems (t :: ts')).length =
          (tableElements t).length + (tablesElems ts').length := by
        simp only [tablesElems, List.flatMap_cons]
        rw [if_neg hr0, List.length_append]
      have hnd' : (((done ++ [t]) ++ ts').map CIFTable.name).Nodup := by
        rw [List.append_assoc]
        exact hnd
      rw [hstream]
      by_cases h1 : t.rows.length = 1
      · obtain ⟨r, hre⟩ : ∃ r, t.rows = [r] := by
          rw [List.length_eq_one] at h1
          obtain ⟨r, hr⟩ := h1
          exact ⟨r, hr⟩
        have hrowg := hrows r (hre ▸ List.mem_cons_self _ _)
        have hgetD : t.rows.getD 0 [] = r := by rw [hre]; rfl
        have hvgood : ∀ c ∈ t.columns,
            goodValue (writerVal (t.rows.getD 0 []) c) := by
          intro c hc
          rw [hgetD]
          exact hrowg.2 _ (writerVal_mem (by rw [hrowg.1]; exact hc))
        have hte : tableElements t = t.columns.flatMap fun col =>
            [("_" ++ n ++ "." ++ col, ElemKind.token),
             (writerVal (t.rows.getD 0 []) col, ElemKind.token)] := by
          unfold tableElements
          rw [if_pos h1]
          have htns : tableNameStr t = n := by
            rw [tableNameStr, hname]; rfl
          rw [htns]
        rw [hte]
        have hslen := tableElements_single_length h1
        have hfuel1 : t.columns.length ≤ f := by
          rw [hslen] at hlen
          omega
        rw [readData_single_table hgn hcols hvgood hcne hfuel1 hnone hcnd]
        have hrebuild : (⟨some n, t.columns,
            [t.columns.map (fun c =>
              (c, writerVal (t.rows.getD 0 []) c))]⟩ : CIFTable) = t := by
          rw [hgetD, row_rebuild r hrowg.1 hcnd, ← hname, ← hre]
        rw [hrebuild]
        rw [ih (f - t.columns.length) dname (done ++ [t]) after
          (fun x hx => hgood x (List.mem_cons_of_mem _ hx)) hnd' hafter
          (by rw [hslen] at hlen; omega)]
        rw [List.append_assoc]
        rfl
      · have hmlen := tableElements_multi_length h1
        have hmul : t.rows.length ≤ t.rows.length * t.columns.length :=
          Nat.le_mul_of_pos_right _ (by omega)
        have hct : ControlTail (tablesElems ts' ++ after) :=
          controlTail_tablesElems
            (fun x hx => hgood x (List.mem_cons_of_mem _ hx)) hafter
        rw [readData_multi_table hname hgn hcne hcnd hcols hrne hrows h1
          (by rw [hmlen] at hlen; omega) (by rw [hmlen] at hlen; omega)
          hct]
        rw [ih (f - 1) dname (done ++ [t]) after
          (fun x hx => hgood x (List.mem_cons_of_mem _ hx)) hnd' hafter
          (by rw [hmlen] at hlen; omega)]
        rw [List.append_assoc]
        rfl

theorem afterData_fileElements (ds : List CIFData) :
    AfterData (fileElements ds) := by
  cases ds with
  | nil => exact Or.inl rfl
  | cons d2 rest => exact Or.inr ⟨d2.name, _, rfl⟩

/-- The top-level parse loop over the canonical stream of a good file
returns exactly its data sections. -/
theorem parseLoop_ok :
    ∀ (ds : List CIFData) (fuel : ℕ) (acc : List CIFData),
      (∀ d ∈ ds, goodData d) →
      (fileElements ds).length + 1 ≤ fuel →
      parseLoop fuel acc (fileElements ds) = .ok (acc ++ ds) := by
  intro ds
  induction ds with
  | nil =>
      intro fuel acc _ hf
      obtain ⟨g, rfl⟩ : ∃ g, fuel = g + 1 := ⟨fuel - 1, by omega⟩
      simp [fileElements, parseLoop]
  | cons d ds' ih =>
      intro fuel acc hgood hf
      obtain ⟨g, rfl⟩ : ∃ g, fuel = g + 1 := ⟨fuel - 1, by omega⟩
      have hgd := hgood d (List.mem_cons_self _ _)
      have hfe : fileElements (d :: ds') =
          ("data_" ++ d.name, ElemKind.token) ::
            (tablesElems d.tables ++ fileElements ds') := rfl
      rw [hfe]
      rw [parseLoop]
      rw [if_pos (pyTake_header d.name)]
      rw [pyDrop_header d.name]
      have hflen : (fileElements (d :: ds')).length =
          1 + (tablesElems d.tables).length + (fileElements ds').length := by
        rw [hfe]
        simp [List.length_append]
        omega
      have hread : readData g ⟨d.name, []⟩
          (tablesElems d.tables ++ fileElements ds') =
          .ok (⟨d.name, [] ++ d.tables⟩, fileElements ds') :=
        readData_tables d.tables g d.name [] (fileElements ds') hgd.2.1
          (by simpa using hgd.2.2) (afterData_fileElements ds')
          (by rw [hflen] at hf; omega)
      rw [hread]
      simp only [bind_ok_eq]
      have hih := ih g (acc ++ [d])
        (fun x hx => hgood x (List.mem_cons_of_mem _ hx))
        (by rw [hflen] at hf; omega)
      rw [List.append_assoc] at hih
      exact hih

/-- The counterexample to C1 as stated: every value of `c1File` is free
of the section/loop control markers, yet writing and re-parsing yields a
table whose row value is `?` instead of the original empty string — the
row values are not identical. -/
theorem write_parse_round_trip_counterexample :
    (∀ d ∈ c1File, ∀ t ∈ d.tables, ∀ row ∈ t.rows, ∀ e ∈ row,
      pyHead e.2 ≠ '_' ∧ pyTake e.2 5 ≠ "data_" ∧
      pyTake e.2 5 ≠ "loop_") ∧
    parseLines (writeFileLines c1File) =
      .ok [⟨"x", [⟨some "a", ["b"], [[("b", "?")]]⟩]⟩] ∧
    ("?" : String) ≠ "" :=
  ⟨by decide, rfl, by decide⟩

/-- C1 (corrected): the writer/parser round trip is exact — identical
table names, column order and row values — for every file of well-behaved
names and values: names free of whitespace, quotes and dots, values
nonempty, shorter than a line, free of whitespace and quote characters,
and not beginning with `_`, `#`, `;` or a `data_`/`loop_`/`save_`
marker; columns are declared (nonempty, distinct) and every row binds
exactly the declared columns in order.  The claim as stated (only "values
do not contain the section/loop control markers") is refuted by
`write_parse_round_trip_counterexample`: an empty value is rewritten to
`?`. -/
theorem write_parse_round_trip_exact {f : CIFFile} (hf : goodFile f) :
    parseLines (writeFileLines f) = .ok f := by
  unfold parseLines
  rw [elementsOfLines_writeFileLines hf]
  unfold parseElements
  have hloop := parseLoop_ok f (2 * (fileElements f).length + 2) [] hf
    (by omega)
  simpa using hloop

theorem write_parse_round_trip_exact_witness :
    goodFile c1wFile ∧
    parseLines (writeFileLines c1wFile) = .ok c1wFile := by
  have hg : goodFile c1wFile := by
    intro d hd
    simp only [c1wFile, List.mem_cons, List.not_mem_nil, or_false] at hd
    subst hd
    refine ⟨by decide, ?_, by decide⟩
    intro t ht
    simp only [List.mem_cons, List.not_mem_nil, or_false] at ht
    rcases ht with rfl | rfl
    · exact ⟨⟨"a", rfl, by decide⟩, by decide, by decide, by decide,
        by decide, by decide⟩
    · exact ⟨⟨"t", rfl, by decide⟩, by decide, by decide, by decide,
        by decide, by decide⟩
  exact ⟨hg, write_parse_round_trip_exact hg⟩

end MmLib
